import Mathlib

/-!
liberc-crypto: VIPER-1, NACHA and KOBRA

A shallow embedding of the C++ sources (`viper-1.cpp`, `kobra.cpp`, `nacha.cpp`,
`liberc-crypto.hpp`) and theorems about it.

Conventions of the embedding.

* A `byte` is a natural number below 256; every value stored into a `byte` is written
  with an explicit `% 256`.  C++ computes in `int` and truncates on the store, so a
  difference such as `x - y` stored in a byte is written `(x + 256 - y) % 256`, and the
  complement `~x` stored in a byte is `bnot x = 255 - x % 256`.
* An `unsigned short` is written with an explicit `% 65536`.
* A `std::vector<byte>` is a `List Nat`; `uint` loop counters range over list positions
  (vectors are taken to hold fewer than `2 ^ 32` elements).
* `assert`, `vector::at` and `throw` make a function return `none` (`Option`) or an
  error (`Except`).
-/

set_option autoImplicit false

namespace ERCLIB

/-- The predicate `IsBytes v` says that every element of `v` is a byte value. -/
def IsBytes (v : List Nat) : Prop := ∀ b ∈ v, b < 256

instance (v : List Nat) : Decidable (IsBytes v) := by
  unfold IsBytes; infer_instance

/-- Low eight bits of the C++ complement `~x`. -/
def bnot (x : Nat) : Nat := 255 - x % 256

/-- A `vecpair` is `std::array<bytevec, 2>`. -/
abbrev vecpair := List Nat × List Nat

/-- A half-block pair of VIPER-1: two vectors of 12 bytes. -/
def IsPair (p : vecpair) : Prop :=
  p.1.length = 12 ∧ p.2.length = 12 ∧ IsBytes p.1 ∧ IsBytes p.2

namespace VIPER1
namespace funcs

/-- Source `reverseVector`: `temp[size - 1 - k] = input[k]`. -/
def reverseVector (input : List Nat) : List Nat := input.reverse

/-- Source `inverseKeyMod`: 254 iterations (`T = 1 .. 254`); `n` stops growing at the
first `n` with `(i * n) % 256 == 1`. -/
def inverseKeyMod (i : Nat) : Nat :=
  ((List.range 254).foldl
    (fun (st : Nat × Bool) _ =>
      if (i * st.1) % 256 = 1 then (st.1, true) else ((st.1 + 1) % 256, st.2))
    (1, false)).1

/-- The key sanitisation shared by `revmultEnc` and `revmultDec`. -/
def sanitize (k : Nat) : Nat :=
  let k1 := if inverseKeyMod k = 255 then k >>> 2 else k
  let k2 := if k1 = 0 then 1 else k1
  if k2 &&& 1 = 0 then (k2 + 1) % 256 else k2

/-- Source `revmultEnc`. -/
def revmultEnc (input1 input2 : List Nat) (a b : Nat) : Option vecpair :=
  if input1.length ≠ input2.length then none else
  let kA := sanitize a
  let kB := sanitize b
  let A := reverseVector input1
  let B := input2
  let c := A.map fun i => (i * kA + (b >>> 4)) % 65536 % 256
  let d := B.map fun i => (i * kB + (a >>> 4)) % 65536 % 256
  some (d, c)

/-- Source `revmultDec`; `(i - (b >> 4)) * ia` is computed in `int`, cast to `ushort`
and reduced modulo 256, which is `((i + 256 - (b >> 4)) * ia) % 256`. -/
def revmultDec (input1 input2 : List Nat) (a b : Nat) : Option vecpair :=
  if input1.length ≠ input2.length then none else
  let kA := sanitize a
  let kB := sanitize b
  let ia := inverseKeyMod kA
  let ib := inverseKeyMod kB
  let A := input2
  let B := input1
  let c := A.map fun i => ((i + 256 - (b >>> 4)) * ia) % 65536 % 256
  let d := B.map fun i => ((i + 256 - (a >>> 4)) * ib) % 65536 % 256
  some (reverseVector c, d)

/-- Source `arxEnc`. -/
def arxEnc (input1 input2 : List Nat) (a b : Nat) : Option vecpair :=
  if input1.length ≠ input2.length then none else
  let BaseS := (a + b) % 256
  let iA := (List.range 12).map fun i =>
    let A := (input1.getD i 0 + a) % 256
    let B := (input2.getD i 0 + a) % 256
    let rot := (BaseS + i) % 8
    if rot = 0 then (B ^^^ b) % 256
    else (((A >>> rot) ||| (B <<< (8 - rot))) ^^^ b) % 256
  let iB := (List.range 12).map fun i =>
    let A := (input1.getD i 0 + a) % 256
    let B := (input2.getD i 0 + a) % 256
    let rot := (BaseS + i) % 8
    if rot = 0 then (A ^^^ b) % 256
    else (((B >>> rot) ||| (A <<< (8 - rot))) ^^^ b) % 256
  some (iA, iB)

/-- Source `arxDec`. -/
def arxDec (input1 input2 : List Nat) (a b : Nat) : Option vecpair :=
  if input1.length ≠ input2.length then none else
  let BaseS := (a + b) % 256
  let iA := (List.range 12).map fun i =>
    let A := (input1.getD i 0 ^^^ b) % 256
    let B := (input2.getD i 0 ^^^ b) % 256
    let rot := (BaseS + i) % 8
    if rot = 0 then (B + 256 - a) % 256
    else
      let Ar := (A <<< rot) % 256
      let Ar := Ar ||| (B >>> (8 - rot))
      (Ar + 256 - a) % 256
  let iB := (List.range 12).map fun i =>
    let A := (input1.getD i 0 ^^^ b) % 256
    let B := (input2.getD i 0 ^^^ b) % 256
    let rot := (BaseS + i) % 8
    if rot = 0 then (A + 256 - a) % 256
    else
      let Br := (B <<< rot) % 256
      let Br := Br ||| (A >>> (8 - rot))
      (Br + 256 - a) % 256
  some (iA, iB)

/-- Source `roundFunction`; `divi` is the byte `key ^ i`, replaced by 1 when it is 0. -/
def roundFunction (diff : List Nat) (key : Nat) : List Nat :=
  diff.map fun i =>
    let divi := if (key ^^^ i) % 256 = 0 then 1 else (key ^^^ i) % 256
    (((key ^^^ i) &&& ((i >>> 4) ||| (key <<< 4))) ^^^ ((key * i) % divi)) % 256

/-- Source `add`. -/
def add (to_ rnd : List Nat) : Option (List Nat) :=
  if to_.length ≠ rnd.length then none else
  some ((List.range 12).map fun i => (to_.getD i 0 + rnd.getD i 0) % 256)

/-- Source `diff`. -/
def diff (left right : List Nat) : Option (List Nat) :=
  if left.length ≠ right.length then none else
  some ((List.range 12).map fun i => (left.getD i 0 + 256 - right.getD i 0) % 256)

/-- Source `midXOR`. -/
def midXOR (left right : List Nat) (lK rK : Nat) : Option vecpair :=
  if left.length ≠ right.length then none else
  some (left.map fun i => (i ^^^ lK) % 256, right.map fun i => (i ^^^ rK) % 256)

/-- Source `XORvecs`. -/
def XORvecs (l r : vecpair) : Option vecpair :=
  if l.1.length ≠ r.1.length then none else
  if l.2.length ≠ r.2.length then none else
  some ((List.range 12).map fun i => (l.1.getD i 0 ^^^ r.1.getD i 0) % 256,
        (List.range 12).map fun i => (l.2.getD i 0 ^^^ r.2.getD i 0) % 256)

/-- The loop shared by `permuteEnc` and `permuteDec`:
`N[1][11 - i] ^= (key ^ L) - i; N[1][i] ^= L + i` with `L = N[0][i]`. -/
def crossXor (key : Nat) (N0 N1 : List Nat) : List Nat :=
  (List.range 12).foldl
    (fun (acc : List Nat) i =>
      let L := N0.getD i 0
      let acc1 := acc.set (11 - i) ((acc.getD (11 - i) 0 ^^^ ((key ^^^ L) + 256 - i)) % 256)
      acc1.set i ((acc1.getD i 0 ^^^ (L + i)) % 256))
    N1

/-- First loop of `permuteEnc`: every byte is cut into nibbles,
`lv[i] = (L >> 4) | (R << 4)` and `rv[i] = (L << 4) | (R >> 4)` with
`L = in[0][i] ^ key`, `R = in[1][i]`. -/
def permuteEnc_split (inp : vecpair) (key : Nat) : vecpair :=
  ((List.range 12).map fun i =>
      let L := (inp.1.getD i 0 ^^^ key) % 256
      let R := inp.2.getD i 0
      ((L >>> 4) ||| (R <<< 4)) % 256,
   (List.range 12).map fun i =>
      let L := (inp.1.getD i 0 ^^^ key) % 256
      let R := inp.2.getD i 0
      ((L <<< 4) ||| (R >>> 4)) % 256)

/-- Second loop of `permuteEnc`: `L = lv[i]`, `R = rv[11 - i]`,
`N[0][i] = (R >> 2) | (L << 6)`, `N[1][i] = (L >> 2) | (R << 6)`. -/
def permuteEnc_mix (v : vecpair) : vecpair :=
  ((List.range 12).map fun i =>
      let L := v.1.getD i 0
      let R := v.2.getD (11 - i) 0
      ((R >>> 2) ||| (L <<< 6)) % 256,
   (List.range 12).map fun i =>
      let L := v.1.getD i 0
      let R := v.2.getD (11 - i) 0
      ((L >>> 2) ||| (R <<< 6)) % 256)

/-- The index-dependent XOR of `permuteEnc` (third loop) and `permuteDec` (third loop):
`N[0][i] ^ (key + byte((12 * i) % (key + 1)))` and
`N[1][i] ^ (~key - byte((15 * i) % (key + 1)))`. -/
def permute_keyXor (N : vecpair) (key : Nat) : vecpair :=
  ((List.range 12).map fun i =>
      (N.1.getD i 0 ^^^ (key + (12 * i) % (key + 1) % 256)) % 256,
   (List.range 12).map fun i =>
      (N.2.getD i 0 ^^^ (bnot key + 256 - (15 * i) % (key + 1) % 256)) % 256)

/-- The cross-coupled XOR loop of `permuteEnc` and `permuteDec`; `N[0]` is unchanged. -/
def permute_cross (N : vecpair) (key : Nat) : vecpair :=
  (N.1, crossXor key N.1 N.2)

/-- Last loop of `permuteEnc`: with `shift = (key % 8 + i) % 8`,
`N[0][i] = ((R >> shift) | (L << (8 - shift))) ^ key` and
`N[1][i] = ~((L >> shift) | (R << (8 - shift)))`. -/
def permuteEnc_rot (N : vecpair) (key : Nat) : vecpair :=
  let shiftB := key % 8
  ((List.range 12).map fun i =>
      let R := N.2.getD i 0
      let L := N.1.getD i 0
      let shift := (shiftB + i) % 8
      (((R >>> shift) ||| (L <<< (8 - shift))) ^^^ key) % 256,
   (List.range 12).map fun i =>
      let R := N.2.getD i 0
      let L := N.1.getD i 0
      let shift := (shiftB + i) % 8
      bnot ((L >>> shift) ||| (R <<< (8 - shift))))

/-- Source `permuteEnc`: its five loops in order. -/
def permuteEnc (inp : vecpair) (key : Nat) : vecpair :=
  permuteEnc_rot
    (permute_cross (permute_keyXor (permuteEnc_mix (permuteEnc_split inp key)) key) key) key

/-- First loop of `permuteDec`: `R = ~in[1][i]`, `L = in[0][i] ^ key`,
`N[0][i] = (L >> (8 - shift)) | (R << shift)`,
`N[1][i] = (R >> (8 - shift)) | (L << shift)`.  The source writes these into storage
that was only `reserve`d (12 slots each); the embedding takes the 12 slots as plain
storage, which is what the writes and the later reads of the same slots do. -/
def permuteDec_rot (inp : vecpair) (key : Nat) : vecpair :=
  let shiftB := key % 8
  ((List.range 12).map fun i =>
      let R := bnot (inp.2.getD i 0)
      let L := (inp.1.getD i 0 ^^^ key) % 256
      let shift := (shiftB + i) % 8
      ((L >>> (8 - shift)) ||| (R <<< shift)) % 256,
   (List.range 12).map fun i =>
      let R := bnot (inp.2.getD i 0)
      let L := (inp.1.getD i 0 ^^^ key) % 256
      let shift := (shiftB + i) % 8
      ((R >>> (8 - shift)) ||| (L <<< shift)) % 256)

/-- Fourth loop of `permuteDec`: `L = lv[i]`, `R = rv[i]`,
`N[0][i] = (L >> 6) | (R << 2)` and `N[1][11 - i] = (R >> 6) | (L << 2)`, again written
into the 12 reserved slots. -/
def permuteDec_mix (v : vecpair) : vecpair :=
  ((List.range 12).map fun i =>
      let L := v.1.getD i 0
      let R := v.2.getD i 0
      ((L >>> 6) ||| (R <<< 2)) % 256,
   (List.range 12).foldl
      (fun (acc : List Nat) i =>
        let L := v.1.getD i 0
        let R := v.2.getD i 0
        acc.set (11 - i) (((R >>> 6) ||| (L <<< 2)) % 256))
      (List.replicate 12 0))

/-- Last loop of `permuteDec`: `L = N[0][i]`, `R = N[1][i]`,
`lv[i] = ((R >> 4) | (L << 4)) ^ key` and `rv[i] = (R << 4) | (L >> 4)`. -/
def permuteDec_split (N : vecpair) (key : Nat) : vecpair :=
  ((List.range 12).map fun i =>
      let L := N.1.getD i 0
      let R := N.2.getD i 0
      (((R >>> 4) ||| (L <<< 4)) ^^^ key) % 256,
   (List.range 12).map fun i =>
      let L := N.1.getD i 0
      let R := N.2.getD i 0
      ((R <<< 4) ||| (L >>> 4)) % 256)

/-- Source `permuteDec`: its five loops in order. -/
def permuteDec (inp : vecpair) (key : Nat) : vecpair :=
  permuteDec_split
    (permuteDec_mix (permute_keyXor (permute_cross (permuteDec_rot inp key) key) key)) key

end funcs

/-- Source `round_enc`; `key->at(k)` is `key[k]?`. -/
def round_enc (inp : vecpair) (Func : Bool) (key : List Nat) (keyStart : Nat) :
    Option vecpair := do
  let k0 ← key[keyStart]?
  let newer := funcs.permuteEnc inp k0
  let k1 ← key[keyStart + 1]?
  let newer ← if Func then funcs.arxEnc newer.1 newer.2 k0 k1
              else funcs.revmultEnc newer.1 newer.2 k0 k1
  let k2 ← key[keyStart + 2]?
  let k3 ← key[keyStart + 3]?
  let XORed ← funcs.midXOR newer.1 newer.2 k2 k3
  let Diff ← funcs.diff XORed.1 XORed.2
  let k4 ← key[keyStart + 4]?
  let Round := funcs.roundFunction Diff k4
  let x0 ← funcs.add XORed.2 Round
  let x1 ← funcs.add XORed.1 Round
  pure (funcs.permuteEnc (x0, x1) k4)

/-- Source `round_dec`. -/
def round_dec (inp : vecpair) (Func : Bool) (key : List Nat) (keyStart : Nat) :
    Option vecpair := do
  let k4 ← key[keyStart + 4]?
  let J := funcs.permuteDec inp k4
  let Diff ← funcs.diff J.2 J.1
  let Round := funcs.roundFunction Diff k4
  let x0 ← funcs.diff J.2 Round
  let x1 ← funcs.diff J.1 Round
  let k2 ← key[keyStart + 2]?
  let k3 ← key[keyStart + 3]?
  let XORed ← funcs.midXOR x0 x1 k2 k3
  let k0 ← key[keyStart]?
  let k1 ← key[keyStart + 1]?
  let XORed ← if Func then funcs.arxDec XORed.1 XORed.2 k0 k1
              else funcs.revmultDec XORed.1 XORed.2 k0 k1
  pure (funcs.permuteDec XORed k0)

/-- The constant sub-key `bytevec r4n(5, 0xA5)` of the last four rounds. -/
def r4n : List Nat := List.replicate 5 0xA5

/-- Bit `j` of schedule byte `r`: `schedule[r][j]` on a `std::bitset<8>`. -/
def schedBit (schedule : List Nat) (r j : Nat) : Bool := (schedule.getD r 0).testBit j

/-- The sixteen rounds of `cycle_enc` in the order they are applied: schedule bit,
key vector and key offset of each `round_enc` call. -/
def encRounds (key schedule : List Nat) : List (Bool × List Nat × Nat) :=
  [(schedBit schedule 0 0, key, 0), (schedBit schedule 0 1, key, 5),
   (schedBit schedule 0 2, key, 10), (schedBit schedule 0 3, key, 15),
   (schedBit schedule 0 4, key, 20), (schedBit schedule 0 5, key, 25),
   (schedBit schedule 0 6, key, 30), (schedBit schedule 0 7, key, 35),
   (schedBit schedule 1 0, key, 40), (schedBit schedule 1 1, key, 45),
   (schedBit schedule 1 2, key, 50), (schedBit schedule 1 3, key, 55),
   (schedBit schedule 1 4, r4n, 0), (schedBit schedule 1 5, r4n, 0),
   (schedBit schedule 1 6, r4n, 0), (schedBit schedule 1 7, r4n, 0)]

/-- The sixteen rounds of `cycle_dec` in the order they are applied. -/
def decRounds (key schedule : List Nat) : List (Bool × List Nat × Nat) :=
  [(schedBit schedule 1 7, r4n, 0), (schedBit schedule 1 6, r4n, 0),
   (schedBit schedule 1 5, r4n, 0), (schedBit schedule 1 4, r4n, 0),
   (schedBit schedule 1 3, key, 55), (schedBit schedule 1 2, key, 50),
   (schedBit schedule 1 1, key, 45), (schedBit schedule 1 0, key, 40),
   (schedBit schedule 0 7, key, 35), (schedBit schedule 0 6, key, 30),
   (schedBit schedule 0 5, key, 25), (schedBit schedule 0 4, key, 20),
   (schedBit schedule 0 3, key, 15), (schedBit schedule 0 2, key, 10),
   (schedBit schedule 0 1, key, 5), (schedBit schedule 0 0, key, 0)]

/-- Source `cycle_enc`: `N = round_enc(N, bit, key, offset)` for the sixteen rounds. -/
def cycle_enc (inp : vecpair) (key : List Nat) (schedule : List Nat) : Option vecpair :=
  if key.length ≠ 60 then none else
  if inp.1.length ≠ inp.2.length then none else
  if schedule.length ≠ 2 then none else
  (encRounds key schedule).foldlM (fun N r => round_enc N r.1 r.2.1 r.2.2) inp

/-- Source `cycle_dec`: `N = round_dec(N, bit, key, offset)` for the sixteen rounds. -/
def cycle_dec (inp : vecpair) (key : List Nat) (schedule : List Nat) : Option vecpair :=
  if key.length ≠ 60 then none else
  if inp.1.length ≠ inp.2.length then none else
  if schedule.length ≠ 2 then none else
  (decRounds key schedule).foldlM (fun N r => round_dec N r.1 r.2.1 r.2.2) inp

/-- XOR of the eight key bytes at the given indices (one `sA .. sG` line). -/
def xor8 (key : List Nat) (i0 i1 i2 i3 i4 i5 i6 i7 : Nat) : Nat :=
  (key.getD i0 0 ^^^ key.getD i1 0 ^^^ key.getD i2 0 ^^^ key.getD i3 0 ^^^
    key.getD i4 0 ^^^ key.getD i5 0 ^^^ key.getD i6 0 ^^^ key.getD i7 0) % 256

/-- The byte `sched1` of `encrypt` and `decrypt`. -/
def sched1 (key : List Nat) : Nat :=
  let sA := xor8 key 0 1 2 3 4 5 6 7
  let sB := xor8 key 8 9 10 11 12 13 14 15
  let sE := xor8 key 32 33 34 35 36 37 38 39
  let sG := xor8 key 48 49 50 51 52 53 54 56
  ((((sA * sB) + sE) % 256) ^^^ key.getD 57 0 ^^^ (sG &&& key.getD 59 0)) % 256

/-- The byte `sched2` of `encrypt` and `decrypt`. -/
def sched2 (key : List Nat) : Nat :=
  let sC := xor8 key 16 17 18 19 20 21 22 23
  let sD := xor8 key 24 25 26 27 28 29 30 31
  let sF := xor8 key 40 41 42 43 44 45 46 47
  let sG := xor8 key 48 49 50 51 52 53 54 56
  ((((sC * sD) + sF) % 256) ^^^ key.getD 58 0 ^^^ (sG &&& key.getD 59 0)) % 256

/-- State of the block-splitting loop of `encrypt` and `decrypt`. -/
structure SplitState where
  Pairs : List vecpair
  TempPair : vecpair
  Tl : Nat
  Tr : Nat
  Right : Bool

/-- One iteration of the block-splitting loop (`for (byte i : input)`). -/
def splitStep (s : SplitState) (i : Nat) : SplitState :=
  if s.Right then
    let tp : vecpair := (s.TempPair.1, s.TempPair.2 ++ [i])
    let tr := (s.Tr + 1) % 256
    if tr = 12 then
      { Pairs := s.Pairs ++ [tp], TempPair := ([], []), Tl := 0, Tr := 0, Right := false }
    else { s with TempPair := tp, Tr := tr }
  else
    let tp : vecpair := (s.TempPair.1 ++ [i], s.TempPair.2)
    let tl := (s.Tl + 1) % 256
    if tl = 12 then { s with TempPair := tp, Tl := tl, Right := true }
    else { s with TempPair := tp, Tl := tl }

/-- The block-splitting loop of `encrypt` and `decrypt`. -/
def splitPairs (input : List Nat) : List vecpair :=
  (input.foldl splitStep
    { Pairs := [], TempPair := ([], []), Tl := 0, Tr := 0, Right := false }).Pairs

/-- The byte stream of a list of half-block pairs: both halves of every pair in order,
as the output loops of `encrypt` and `decrypt` push them. -/
def joinPairs (ps : List vecpair) : List Nat := ps.flatMap fun p => p.1 ++ p.2

/-- The chaining loop of `encrypt` (`for (vecpair E : Pairs)`). -/
def encryptLoop (key schedule : List Nat) (sx : Nat) :
    List vecpair → vecpair → List Nat → Option (List Nat)
  | [], _, out => some out
  | E :: rest, last, out => do
    if E.1.length ≠ 12 then none
    if E.2.length ≠ 12 then none
    let N ← funcs.XORvecs E last
    let N ← cycle_enc N key schedule
    encryptLoop key schedule sx rest (funcs.permuteEnc N sx) (out ++ N.1 ++ N.2)

/-- The chaining loop of `decrypt`. -/
def decryptLoop (key schedule : List Nat) (sx : Nat) :
    List vecpair → vecpair → List Nat → Option (List Nat)
  | [], _, out => some out
  | E :: rest, last, out => do
    let N ← cycle_dec E key schedule
    let N ← funcs.XORvecs N last
    decryptLoop key schedule sx rest (funcs.permuteEnc E sx) (out ++ N.1 ++ N.2)

/-- Source `VIPER1::encrypt`. -/
def encrypt (input key IV : List Nat) : Option (List Nat) := do
  if key.length ≠ 60 then none
  if input.length < 24 then none
  if input.length % 24 ≠ 0 then none
  if IV.length ≠ 12 then none
  let s1 := sched1 key
  let s2 := sched2 key
  let Pairs := splitPairs input
  encryptLoop key [s1, s2] ((s1 ^^^ s2) % 256) Pairs (IV, funcs.reverseVector IV) []

/-- Source `VIPER1::decrypt`. -/
def decrypt (input key IV : List Nat) : Option (List Nat) := do
  if key.length ≠ 60 then none
  if input.length < 24 then none
  if input.length % 24 ≠ 0 then none
  if IV.length ≠ 12 then none
  let s1 := sched1 key
  let s2 := sched2 key
  let Pairs := splitPairs input
  let last : vecpair := (IV, funcs.reverseVector IV)
  if last.2.length ≠ 12 then none
  decryptLoop key [s1, s2] ((s1 ^^^ s2) % 256) Pairs last []

end VIPER1

/-- The buffer `headerTmp` that `encryptData_VIPER1` hands to `VIPER1::encrypt`. -/
def headerTmp (Plaintext : List Nat) : List Nat :=
  let NullBytes := (24 - ((3 + Plaintext.length) % 24)) % 256
  let h := List.replicate (NullBytes + 3) 0
  let h := h.set 0 0xA5
  let h := h.set 1 0x5A
  let h := h.set 2 NullBytes
  h ++ Plaintext

/-- Source `encryptData_VIPER1`. -/
def encryptData_VIPER1 (Plaintext Key IV : List Nat) : Option (List Nat) :=
  VIPER1.encrypt (headerTmp Plaintext) Key IV

/-- Source `decryptData_VIPER1`; the copy loop from index `Padding + 3` is `List.drop`. -/
def decryptData_VIPER1 (Ciphertext Key IV : List Nat) : Option (List Nat) := do
  let temp ← VIPER1.decrypt Ciphertext Key IV
  if temp.getD 0 0 ≠ 0xA5 then none
  if temp.getD 1 0 ≠ 0x5A then none
  let Padding := temp.getD 2 0
  pure (temp.drop (Padding + 3))

open VIPER1 VIPER1.funcs

namespace KOBRA

/-- The `keyPair` structure of `kobra.hpp`. -/
structure keyPair where
  EncryptKey : List Nat
  ExtractKey : List Nat
  IV : Nat
deriving DecidableEq

namespace Low

/-- The byte `key[j]` as the source reads it with the unchecked `operator[]`: inside the
vector it is the stored byte; outside (`cipherEncrypt` and `cipherDecrypt` read
`key[size - tempIndex]`, which is `key[size]` when `tempIndex` is 0) C++ leaves the
value undefined, and the embedding takes the byte found there from the parameter `mem`,
the memory around the key.  The key is passed by value, so every call of `cipherEncrypt`
or `cipherDecrypt` reads around a copy of its own: every call has a `mem` of its own. -/
def keyAt (mem : Int → Nat) (key : List Nat) (j : Int) : Nat :=
  if 0 ≤ j ∧ j < key.length then key.getD j.toNat 0 else mem j % 256

/-- The update of `tempIndex` at the end of each iteration:
`if (tempIndex == size - 1) tempIndex = 0; else tempIndex++;` on `ushort`s compared as `int`. -/
def nextIndex (size tempIndex : Nat) : Nat :=
  if (tempIndex : Int) = (size : Int) - 1 then 0 else (tempIndex + 1) % 65536

/-- The loop of `cipherEncrypt` from a given `XORblk` and `tempIndex`; `size` is the
`ushort` copy of `key.size()`. -/
def encryptLoop (mem : Int → Nat) (key : List Nat) (size : Nat) :
    List Nat → Nat → Nat → List Nat
  | [], _, _ => []
  | p :: rest, XORblk, tempIndex =>
    let work := (p ^^^ XORblk) % 256
    let k := keyAt mem key tempIndex
    let w2 := (work + k) % 256
    let w2 := ((w2 >>> 3) ||| (w2 <<< 5)) % 256
    let w2 := (w2 ^^^ ((w2 ^^^ k) ^^^
      (w2 ^^^ bnot (keyAt mem key ((size : Int) - (tempIndex : Int)))))) % 256
    w2 :: encryptLoop mem key size rest (w2 >>> 1) (nextIndex size tempIndex)

/-- Source `cipherEncrypt`. -/
def cipherEncrypt (mem : Int → Nat) (plaintext key : List Nat) (IV : Nat) :
    Option (List Nat) :=
  if key.length < 12 then none else
  if plaintext.length < key.length then none else
  some (encryptLoop mem key (key.length % 65536) plaintext IV 0)

/-- The loop of `cipherDecrypt` from a given `XORblk` and `tempIndex`. -/
def decryptLoop (mem : Int → Nat) (key : List Nat) (size : Nat) :
    List Nat → Nat → Nat → List Nat
  | [], _, _ => []
  | work :: rest, XORblk, tempIndex =>
    let k := keyAt mem key tempIndex
    let w2 := (work ^^^ ((work ^^^ k) ^^^
      (work ^^^ bnot (keyAt mem key ((size : Int) - (tempIndex : Int)))))) % 256
    let w2 := ((w2 >>> 5) ||| (w2 <<< 3)) % 256
    let w2 := ((w2 + 256 - k) ^^^ XORblk) % 256
    w2 :: decryptLoop mem key size rest (work >>> 1) (nextIndex size tempIndex)

/-- Source `cipherDecrypt`. -/
def cipherDecrypt (mem : Int → Nat) (ciphertext key : List Nat) (IV : Nat) :
    Option (List Nat) :=
  if key.length < 12 then none else
  if ciphertext.length < key.length then none else
  some (decryptLoop mem key (key.length % 65536) ciphertext IV 0)

/-- The loop of the two-vector `XOR`; `sSize` is the `ushort` copy of
`secondText.size()`, `second` the `ushort` position in `secondText`. -/
def xorLoop (secondText : List Nat) (sSize : Nat) : List Nat → Nat → List Nat
  | [], _ => []
  | i :: rest, second =>
    if second = sSize then i :: xorLoop secondText sSize rest second
    else ((i ^^^ secondText.getD second 0) % 256) ::
      xorLoop secondText sSize rest ((second + 1) % 65536)

/-- Source `XOR(mainText, secondText)`. -/
def XOR (mainText secondText : List Nat) : Option (List Nat) :=
  if mainText.length < secondText.length then none else
  some (xorLoop secondText (secondText.length % 65536) mainText 0)

/-- Source `XOR(text, what)`, the single-byte overload. -/
def XORbyte (text : List Nat) (what : Nat) : List Nat :=
  text.map fun i => (i ^^^ what) % 256

end Low

/-- The copy loop of `encryptFrom` and `decryptFrom`:
`for (byte i : ready) { if (CNT == SIZE) break; Fmesg.push_back(i); CNT++; }`
with `ushort` counters. -/
def takeLoop (SIZE : Nat) : List Nat → Nat → List Nat
  | [], _ => []
  | i :: rest, CNT =>
    if CNT = SIZE then [] else i :: takeLoop SIZE rest ((CNT + 1) % 65536)

/-- Source `encryptFrom`; `mem1` and `mem2` are the memories around the copies of the key
that its first and its second call of `cipherEncrypt` read. -/
def encryptFrom (mem1 mem2 : Int → Nat) (calycryptBody Key message : List Nat) (IV : Nat) :
    Option keyPair := do
  let ready := Low.XORbyte message IV
  let to_ ← Low.cipherEncrypt mem1 calycryptBody Key IV
  let ready ← Low.XOR to_ ready
  let Fmesg := takeLoop (message.length % 65536) ready 0
  let ready ← Low.cipherEncrypt mem2 Fmesg Key IV
  pure { EncryptKey := Key, ExtractKey := ready, IV := IV }

/-- Source `decryptFrom`; `mem1` and `mem2` are the memories around the copies of the key
that its call of `cipherEncrypt` and its call of `cipherDecrypt` read. -/
def decryptFrom (mem1 mem2 : Int → Nat) (calycryptBody : List Nat) (data : keyPair) :
    Option (List Nat) := do
  let to_ ← Low.cipherEncrypt mem1 calycryptBody data.EncryptKey data.IV
  let ready ← Low.cipherDecrypt mem2 data.ExtractKey data.EncryptKey data.IV
  let XORed ← Low.XOR to_ ready
  let Fmesg := takeLoop (data.ExtractKey.length % 65536) XORed 0
  pure (Low.XORbyte Fmesg data.IV)

end KOBRA

namespace NACHA

/-- How a NACHA function can fail: `invalid_argument` is the `std::invalid_argument`
the source throws; `undefined` stands for behaviour C++ leaves undefined (division by
zero, a write outside a vector, a loop that never ends). -/
inductive Err where
  | invalid_argument
  | undefined
deriving DecidableEq, Repr

namespace low

/-- The padding loops: `cnt` bytes taken cyclically from `pad`, starting at `pad[0]`. -/
def cyclicPad (pad : List Nat) (cnt : Nat) : List Nat :=
  (List.range cnt).map fun c => pad.getD (c % pad.length) 0

/-- One 8-byte chunk of `permuteA`: bit `B` of byte `i` goes to bit `i` of output
byte `B` (`chunk[B] |= byte(bit) << i`); `IND` is the `byte` chunk offset. -/
def permuteA_chunk (tmp : List Nat) (IND : Nat) : List Nat :=
  (List.range 8).map fun B =>
    (List.range 8).foldl
      (fun acc i => acc ||| ((((tmp.getD (IND + i) 0) >>> B) &&& 1) <<< i)) 0

/-- The work of `permuteA` on the padded copy `tmp`: the chunk loop, `totXOR`, and the
second loop that appends `nsize - 1` folded bytes. -/
def permuteA_body (tmp : List Nat) : List Nat :=
  let nsize := tmp.length
  let out := (List.range (nsize / 8)).flatMap fun c => permuteA_chunk tmp ((c * 8) % 256)
  let totXOR := (List.range (nsize / 8)).foldl
    (fun acc c => (List.range 8).foldl
      (fun acc i => (acc ^^^ tmp.getD ((c * 8) % 256 + i) 0) % 256) acc) 0
  let n2 := out.length
  out ++ (List.range (n2 - 1)).map fun i =>
    let ind := (n2 - 1) - i
    let n := out.getD ind 0
    let j := out.getD i 0
    (((n >>> 4) ||| (j <<< 4)) ^^^ (bnot (j &&& n) ^^^ totXOR)) % 256

/-- Source `permuteA`. `Underflow` is the byte `8 - size % 8`. -/
def permuteA (Input : List Nat) : Except Err (List Nat) :=
  let Underflow := (8 - Input.length % 8) % 256
  if Underflow > 0 then
    .ok (permuteA_body (Input ++ cyclicPad [0xDE, 0xAD, 0xBE, 0xEF] Underflow))
  else if Input.length = 0 then .error .invalid_argument
  else .ok (permuteA_body Input)

/-- One 8-byte chunk of `permuteB`: bit `B` of byte `i` goes to bit `(i - B) mod 8` of
output byte `B`. -/
def permuteB_chunk (tmp : List Nat) (IND : Nat) : List Nat :=
  (List.range 8).map fun B =>
    (List.range 8).foldl
      (fun acc i =>
        (acc ||| ((((tmp.getD (IND + i) 0) >>> B) &&& 1) <<< ((i + 8 - B) % 8))) % 256) 0

/-- The chunk loop of `permuteB` on the padded copy `tmp`. -/
def permuteB_body (tmp : List Nat) : List Nat :=
  (List.range (tmp.length / 8)).flatMap fun c => permuteB_chunk tmp ((c * 8) % 256)

/-- Source `permuteB`. -/
def permuteB (Input : List Nat) : Except Err (List Nat) :=
  let Underflow := (8 - Input.length % 8) % 256
  if Underflow > 0 then
    .ok (permuteB_body (Input ++ cyclicPad [0xFE, 0xED, 0xC0, 0xDE] Underflow))
  else if Input.length = 0 then .error .invalid_argument
  else .ok (permuteB_body Input)

/-- The two loops of `permuteC` on the result of `permuteB`; the toggle `N` is true at
odd iterations of the first loop and keeps toggling through the second. -/
def permuteC_body (Permuted0 : List Nat) : List Nat :=
  let Permuted := if Permuted0.length % 2 = 1 then Permuted0 ++ [0xFF] else Permuted0
  let size := Permuted.length
  let outa := (List.range (size / 2)).map fun i =>
    let t := Permuted.getD i 0
    let j := Permuted.getD (size / 2 - i) 0
    if i % 2 = 1 then ((t >>> 4) ^^^ (j <<< 4) ^^^ (t &&& bnot j)) % 256
    else ((t >>> 3) ^^^ (j <<< 5) ^^^ (bnot t &&& j)) % 256
  (List.range outa.length).map fun k =>
    let i := outa.getD k 0
    if (size / 2 + k) % 2 = 1 then (((i * bnot (i >>> 4)) % 256) ^^^ i) % 256
    else (((i * (i >>> 3) + bnot (i >>> 5)) % 256) ^^^ i) % 256

/-- Source `permuteC`. -/
def permuteC (Input : List Nat) : Except Err (List Nat) :=
  match permuteB Input with
  | .error e => .error e
  | .ok Permuted => .ok (permuteC_body Permuted)

/-- The bit loop of `mix` for one byte `n`: state `(chunk[i], bind, pnt)`. -/
def mix_bits (form : Bool) (n : Nat) (bind : Nat) (pnt : Bool) : Nat × Nat × Bool :=
  (List.range 8).foldl
    (fun (st : Nat × Nat × Bool) _ =>
      let bit := n &&& 1
      let J :=
        if st.2.2 then (if form then (bnot bit <<< st.2.1) % 256 else (bit <<< st.2.1) % 256)
        else (bit <<< (st.2.1 + 3)) % 256
      let bind' := if st.2.2 then st.2.1 else (st.2.1 + 1) % 256
      ((st.1 ^^^ J) % 256, bind', !st.2.2))
    (0, bind, pnt)

/-- One 5-byte chunk of `mix`: state `(chunk so far, bind, pnt, last)`. -/
def mix_chunk (form : Bool) (tmp : List Nat) (IND : Nat) : List Nat :=
  let st := (List.range 5).foldl
    (fun (st : List Nat × Nat × Bool × Nat) i =>
      let n0 := tmp.getD (IND + i) 0
      let n := if st.2.2.1 then (n0 ^^^ bnot st.2.2.2) % 256 else n0
      let r := mix_bits form n st.2.1 st.2.2.1
      (st.1 ++ [r.1], r.2.1, r.2.2, n))
    ([], 0, true, tmp.getD (tmp.length - 1) 0)
  (List.range 5).map fun idx =>
    let v := st.1.getD idx 0
    if idx % 2 = 1 then bnot v else (v + (if form then 1 else 0)) % 256

/-- The work of `mix` on the padded copy `tmp`. -/
def mix_body (form : Bool) (tmp : List Nat) : List Nat :=
  let sz := tmp.length
  let outa := (List.range (sz / 5)).flatMap fun c => mix_chunk form tmp ((c * 5) % 256)
  (List.range (sz - 1)).map fun i =>
    let t := tmp.getD i 0
    let o := outa.getD i 0
    let J := ((t ^^^ bnot o) ^^^ ((o <<< 3) ||| (o >>> 5))) % 256
    let J := if i % 2 = 1 then (J ^^^ (((t >>> 2) * o + ((t + o) >>> 3)) % 256)) % 256 else J
    if form then (J ^^^ (bnot (o >>> 3) ||| (o <<< 5))) % 256 else J

/-- Source `mix`. -/
def mix (Input : List Nat) (form : Bool) : List Nat :=
  let sz := Input.length
  let Underflow := (5 - sz % 5) % 256
  if Underflow > 0 then mix_body form (Input ++ cyclicPad [0xCA, 0xBE, 0xDF] Underflow)
  else mix_body form Input

/-- The loop `while (ind >= _capac) {ind -= _capac / 2;}` of `intertwine`; `none` when it
never ends (`_capac / 2 = 0`). -/
def reduceInd (capac : Nat) (ind : Nat) : Option Nat :=
  if h : ind < capac then some ind
  else if h2 : capac / 2 = 0 then none
  else reduceInd capac (ind - capac / 2)
termination_by ind
decreasing_by omega

/-- Source `intertwine`. -/
def intertwine (InA InB : List Nat) (capac : Nat) : Except Err (List Nat) :=
  if InA.length ≠ capac then .error .invalid_argument else
  if InB.length ≠ capac then .error .invalid_argument else
  (List.range capac).mapM fun i =>
    let a := InA.getD i 0
    let b := InB.getD ((capac - 1) - i) 0
    match reduceInd capac ((i + (a ^^^ b)) % 65536) with
    | none => .error .undefined
    | some ind =>
      let c := InA.getD ((capac - 1) - ind) 0
      let d := InB.getD ind 0
      let N := (a * b + (c ^^^ d)) % 256
      .ok ((a ^^^ b ^^^ c ^^^ N ^^^ bnot ((N <<< 4) ^^^ (d >>> 4))) % 256)

end low

/-- The grouping loop of `split`: `curb` collects bytes and is pushed when it holds
`blocks` of them. -/
def splitLoop (blocks : Nat) : List Nat → List Nat → List (List Nat)
  | [], _ => []
  | i :: rest, curb =>
    if (curb ++ [i]).length = blocks then (curb ++ [i]) :: splitLoop blocks rest []
    else splitLoop blocks rest (curb ++ [i])

/-- The default padding of `split` declared in `nacha.hpp`. -/
def defaultPadding : List Nat := [0x11, 0x22, 0x33, 0x44, 0x55, 0x66, 0x77]

/-- Source `split`; `underflow` is a `byte`, `blocks` an `unsigned short`. -/
def split (inp : List Nat) (osize : Nat) (padding : List Nat) : Except Err (List (List Nat)) :=
  if osize = 0 then .error .undefined else
  let underflow := (osize - inp.length % osize) % 256
  if underflow > 0 ∧ padding.length = 0 then .error .undefined else
  let tmp := if underflow > 0 then inp ++ low.cyclicPad padding underflow else inp
  let blocks := (tmp.length / osize) % 65536
  .ok (splitLoop blocks tmp [])

/-- Source `fuse`. -/
def fuse (inp : List (List Nat)) : List Nat := inp.flatten

/-- One group loop of `hash`, already fused: for every group `i` the bytes of `f i`,
followed by those of `g i` when `toggle` is set; `toggle` flips after each group. -/
def phase (f g : List Nat → Except Err (List Nat)) :
    List (List Nat) → Bool → Except Err (List Nat)
  | [], _ => .ok []
  | i :: rest, toggle =>
    match f i with
    | .error e => .error e
    | .ok a =>
      match (if toggle then g i else .ok []) with
      | .error e => .error e
      | .ok b =>
        match phase f g rest (!toggle) with
        | .error e => .error e
        | .ok r => .ok (a ++ b ++ r)

/-- The row reduction of `hash`: state `(blk[0 .. blkIn), toggle, lastxor)`; returns
`temp2` and the last `lastxor`. -/
def compressLoop (ratio : Nat) : List Nat → List Nat → Bool → Nat → List Nat × Nat
  | [], _, _, lastxor => ([], lastxor)
  | x :: rest, cur, toggle, lastxor =>
    let v := if toggle then (x + lastxor) % 256 else x
    if (cur ++ [v]).length = ratio then
      let j := (cur ++ [v]).foldl (fun acc A => (acc ^^^ A) % 256) 0
      let r := compressLoop ratio rest [] (!toggle) (bnot (j >>> 3))
      (j :: r.1, r.2)
    else compressLoop ratio rest (cur ++ [v]) (!toggle) lastxor

/-- The toggled pushes of the first group loop: `mix(i,1)` then `permuteC(i)`. -/
def pushMixC (i : List Nat) : Except Err (List Nat) :=
  match low.permuteC i with
  | .error e => .error e
  | .ok c => .ok (low.mix i true ++ c)

/-- The toggled pushes of the second group loop: `mix(i,0)` then `permuteA(mix(i,1))`. -/
def pushMixA (i : List Nat) : Except Err (List Nat) :=
  match low.permuteA (low.mix i true) with
  | .error e => .error e
  | .ok a => .ok (low.mix i false ++ a)

/-- The push `mix(permuteC(i),0)` of the third and fifth group loops. -/
def mixC0 (i : List Nat) : Except Err (List Nat) :=
  match low.permuteC i with
  | .error e => .error e
  | .ok c => .ok (low.mix c false)

/-- The toggled push `permuteA(mix(i,1))` of the third group loop. -/
def permuteAmix (i : List Nat) : Except Err (List Nat) := low.permuteA (low.mix i true)

/-- The push `mix(permuteB(i),1)` of the fourth group loop. -/
def mixB1 (i : List Nat) : Except Err (List Nat) :=
  match low.permuteB i with
  | .error e => .error e
  | .ok b => .ok (low.mix b true)

/-- The vector `temp` of `hash` just before the compression: the five group loops (the
vector of vectors `NCHK` is kept fused) and the final `mix`. -/
def hashTemp (inp : List Nat) (blkA blkB : Nat) : Except Err (List Nat) :=
  match split inp blkB defaultPadding with
  | .error e => .error e
  | .ok CHK1 =>
  match phase low.permuteA pushMixC CHK1 false with
  | .error e => .error e
  | .ok N1 =>
  match split (N1 ++ low.mix inp true) blkA defaultPadding with
  | .error e => .error e
  | .ok CHK2 =>
  match phase low.permuteC pushMixA CHK2 true with
  | .error e => .error e
  | .ok N2 =>
  match split inp blkB defaultPadding with
  | .error e => .error e
  | .ok CHK3 =>
  match phase mixC0 permuteAmix CHK3 false with
  | .error e => .error e
  | .ok N3 =>
  match split (N2 ++ N3) blkA defaultPadding with
  | .error e => .error e
  | .ok CHK4 =>
  match phase mixB1 low.permuteC CHK4 true with
  | .error e => .error e
  | .ok N4 =>
  match split (N4 ++ inp) blkB defaultPadding with
  | .error e => .error e
  | .ok CHK5 =>
  match phase mixC0 low.permuteA CHK5 false with
  | .error e => .error e
  | .ok N5 => .ok (low.mix N5 true)

/-- The compression of `hash`: pad `temp` with `0x5A`, reduce rows of `ratio` bytes (an
`unsigned short`), build the auxiliary vector and `intertwine`. -/
def compress (temp0 : List Nat) (capac : Nat) : Except Err (List Nat) :=
  if capac = 0 then .error .undefined else
  let add := (capac - temp0.length % capac) % 65536
  let temp := temp0 ++ List.replicate add 0x5A
  let siz := temp.length
  let ratio := (siz / capac) % 65536
  if ratio = 0 then .error .undefined else
  let lastxor0 := bnot (temp.getD (siz - 1) 0 >>> 3)
  let r := compressLoop ratio temp [] false lastxor0
  let temp2 := r.1
  let lastxor := r.2
  let T := (List.range capac).map fun i =>
    let N := i % 256
    ((N + lastxor) * (N + (i ^^^ capac))) % 256
  low.intertwine temp2 T capac

/-- Source `NACHA::hash`. -/
def hash (inp : List Nat) (capac blkA blkB : Nat) : Except Err (List Nat) :=
  match hashTemp inp blkA blkB with
  | .error e => .error e
  | .ok temp => compress temp capac

/-! Length bookkeeping for `hash`: the lengths of all intermediate vectors depend only
on the length of the input. -/

/-- Length after the padding of `permuteA` and `permuteB`. -/
def pad8 (n : Nat) : Nat := n + (8 - n % 8)

/-- Length of `permuteA` on `n` bytes. -/
def lenA (n : Nat) : Nat := 2 * pad8 n - 1

/-- Length of `permuteB` on `n` bytes. -/
def lenB (n : Nat) : Nat := pad8 n

/-- Length of `permuteC` on `n` bytes. -/
def lenC (n : Nat) : Nat := pad8 n / 2

/-- Length of `mix` on `n` bytes. -/
def lenMix (n : Nat) : Nat := n + (5 - n % 5) - 1

/-- Number of groups that see `toggle` set among `cnt` groups, `t0` being its first
value. -/
def toggled (cnt : Nat) (t0 : Bool) : Nat := if t0 then (cnt + 1) / 2 else cnt / 2

/-- Size of the groups `split` makes of `n` bytes: the `unsigned short blocks`. -/
def splitBlocks (n osize : Nat) : Nat := ((n + (osize - n % osize)) / osize) % 65536

/-- Number of groups `split` makes of `n` bytes. -/
def splitCount (n osize : Nat) : Nat :=
  if splitBlocks n osize = 0 then 0 else (n + (osize - n % osize)) / splitBlocks n osize

/-- Length of one fused group loop over `split` of `n` bytes: `F` and `G` give the
lengths of the unconditional and of the toggled part for one group. -/
def phaseLen (n osize : Nat) (F G : Nat → Nat) (t0 : Bool) : Nat :=
  splitCount n osize * F (splitBlocks n osize) +
    toggled (splitCount n osize) t0 * G (splitBlocks n osize)

/-- Length of `hashTemp` on `n` bytes. -/
def hashTempLen (n blkA blkB : Nat) : Nat :=
  let l1 := phaseLen n blkB lenA (fun g => lenMix g + lenC g) false + lenMix n
  let l2 := phaseLen l1 blkA lenC (fun g => lenMix g + lenA (lenMix g)) true
  let l3 := l2 + phaseLen n blkB (fun g => lenMix (lenC g)) (fun g => lenA (lenMix g)) false
  let l4 := phaseLen l3 blkA (fun g => lenMix (lenB g)) lenC true + n
  let l5 := phaseLen l4 blkB (fun g => lenMix (lenC g)) lenA false
  lenMix l5

end NACHA

/-- Source `hashData128` of `liberc-crypto.hpp`. -/
def hashData128 (input : List Nat) : Except NACHA.Err (List Nat) := NACHA.hash input 16 5 3
/-- Source `hashData128E`. -/
def hashData128E (input : List Nat) : Except NACHA.Err (List Nat) := NACHA.hash input 16 7 4
/-- Source `hashData256`. -/
def hashData256 (input : List Nat) : Except NACHA.Err (List Nat) := NACHA.hash input 32 7 4
/-- Source `hashData256E`. -/
def hashData256E (input : List Nat) : Except NACHA.Err (List Nat) := NACHA.hash input 32 9 5
/-- Source `hashData384`. -/
def hashData384 (input : List Nat) : Except NACHA.Err (List Nat) := NACHA.hash input 48 9 5
/-- Source `hashData384E`. -/
def hashData384E (input : List Nat) : Except NACHA.Err (List Nat) := NACHA.hash input 48 11 6
/-- Source `hashData512`. -/
def hashData512 (input : List Nat) : Except NACHA.Err (List Nat) := NACHA.hash input 64 11 6
/-- Source `hashData512E`. -/
def hashData512E (input : List Nat) : Except NACHA.Err (List Nat) := NACHA.hash input 64 13 7
/-- Source `hashData768`. -/
def hashData768 (input : List Nat) : Except NACHA.Err (List Nat) := NACHA.hash input 96 13 7
/-- Source `hashData768E`. -/
def hashData768E (input : List Nat) : Except NACHA.Err (List Nat) := NACHA.hash input 96 15 8

/-! ## `ercrypt.hpp`: the S-box skeleton and the bit utilities -/

namespace CryptConcepts

namespace Substitution

/-- The exceptions of `ercrypt.hpp`: `std::invalid_argument` and `std::runtime_error`
thrown by the constructors, `std::out_of_range` thrown by `std::map::at`. -/
inductive Err
  | invalid_argument
  | runtime_error
  | out_of_range
  deriving DecidableEq

/-- Source `Ref8::operator<`; a `Ref8` is its byte `val`. -/
def Ref8.lt (a b : Nat) : Bool := decide (a < b)

/-- A `std::map` is the list of its entries in the order of insertion.  Two keys are the
same key of the map when neither is less than the other; `mapFind` returns the value
stored under such a key. -/
def mapFind {κ ν : Type} (lt : κ → κ → Bool) : List (κ × ν) → κ → Option ν
  | [], _ => none
  | e :: rest, k => if !lt e.1 k && !lt k e.1 then some e.2 else mapFind lt rest k

/-- The method `std::map::count`. -/
def mapCount {κ ν : Type} (lt : κ → κ → Bool) (m : List (κ × ν)) (k : κ) : Nat :=
  if (mapFind lt m k).isSome then 1 else 0

/-- The method `std::map::emplace`: nothing is stored when the key is present. -/
def mapEmplace {κ ν : Type} (lt : κ → κ → Bool) (m : List (κ × ν)) (k : κ) (v : ν) :
    List (κ × ν) :=
  if (mapFind lt m k).isSome then m else m ++ [(k, v)]

/-- The method `std::map::at`: throws `std::out_of_range` when the key is absent. -/
def mapAt {κ ν : Type} (lt : κ → κ → Bool) (m : List (κ × ν)) (k : κ) : Except Err ν :=
  match mapFind lt m k with
  | some v => .ok v
  | none => .error .out_of_range

/-- The data members of `SBox8`. -/
structure SBox8 where
  keyVector : List Nat
  primary : List (Nat × Nat)
  secondary : List (Nat × Nat)
  deriving DecidableEq

/-- The loop of the constructor of `SBox8` over the values `i` still to visit, with the
state `(existTable, primary)`.  `mainFunc` returns a `Ref8`, that is a byte. -/
def SBox8.fill (mainFunc : List Nat → Nat → Nat) (key : List Nat) :
    List Nat → List (Nat × Bool) → List (Nat × Nat) → Except Err (List (Nat × Nat))
  | [], _, primary => .ok primary
  | i :: rest, existTable, primary =>
    let n := mainFunc key i % 256
    if mapCount Ref8.lt existTable n ≠ 0 then .error .runtime_error
    else SBox8.fill mainFunc key rest (mapEmplace Ref8.lt existTable n true)
      (mapEmplace Ref8.lt primary i n)

/-- Source constructor `SBox8::SBox8`: the loop `for (byte i=0;i<255;i++)` visits the
values `0 .. 254`; `secondary` is left as default-constructed. -/
def SBox8.construct (keySize : Nat) (mainFunc : List Nat → Nat → Nat) (key : List Nat) :
    Except Err SBox8 :=
  if key.length ≠ keySize then .error .invalid_argument else
  match SBox8.fill mainFunc key (List.range 255) [] [] with
  | .error e => .error e
  | .ok primary => .ok { keyVector := key, primary := primary, secondary := [] }

/-- Source `SBox8::operator()`. -/
def SBox8.apply (box : SBox8) (value : Nat) (forward : Bool) : Except Err Nat :=
  if forward then mapAt Ref8.lt box.primary value else mapAt Ref8.lt box.secondary value

/-- A mapping function for the template argument `mainFunc`: the identity. -/
def identityMap (_ : List Nat) (x : Nat) : Nat := x

/-- A mapping function for `mainFunc`: the constant 0. -/
def zeroMap (_ : List Nat) (_ : Nat) : Nat := 0

/-- A mapping function for `mainFunc`: the identity except that 255 goes to 0, so that
the values 0 and 255 have the same output. -/
def wrapMap (_ : List Nat) (x : Nat) : Nat := if x = 255 then 0 else x

/-- The members of the `SBox8` that the constructor builds from `identityMap` and the
one-byte key `[0]`. -/
def identityBox : SBox8 :=
  { keyVector := [0],
    primary := (List.range 255).map fun i => (i, identityMap [0] i % 256),
    secondary := [] }

/-- Source `Ref16::operator<`; a `Ref16` is the pair `(valL, valR)` of its two bytes. -/
def Ref16.lt (a b : Nat × Nat) : Bool :=
  (decide (a.2 < b.2) && decide (a.1 < b.1)) || decide (a.1 < b.1)

/-- The data members of `SBox16`. -/
structure SBox16 where
  keyVector : List Nat
  primary : List ((Nat × Nat) × (Nat × Nat))
  secondary : List ((Nat × Nat) × (Nat × Nat))
  deriving DecidableEq

/-- The body of the two nested loops of the constructor of `SBox16` over the values `k`
still to visit, with the state `(existTable, primary)`.  `mainFunc` returns a `Ref16`, that
is two bytes. -/
def SBox16.fill (mainFunc : List Nat → Nat × Nat → Nat × Nat) (key : List Nat) :
    List (Nat × Nat) → List ((Nat × Nat) × Bool) → List ((Nat × Nat) × (Nat × Nat)) →
      Except Err (List ((Nat × Nat) × (Nat × Nat)))
  | [], _, primary => .ok primary
  | k :: rest, existTable, primary =>
    let n := ((mainFunc key k).1 % 256, (mainFunc key k).2 % 256)
    if mapCount Ref16.lt existTable n ≠ 0 then .error .runtime_error
    else SBox16.fill mainFunc key rest (mapEmplace Ref16.lt existTable n true)
      (mapEmplace Ref16.lt primary k n)

/-- The values `Ref16 k(a, i)` in the order in which the loops
`for (byte a=0;a<255;a++) for (byte i=0;i<255;i++)` visit them. -/
def SBox16.inputs : List (Nat × Nat) :=
  (List.range 255).flatMap fun a => (List.range 255).map fun i => (a, i)

/-- Source constructor `SBox16::SBox16`; `secondary` is left as default-constructed. -/
def SBox16.construct (keySize : Nat) (mainFunc : List Nat → Nat × Nat → Nat × Nat)
    (key : List Nat) : Except Err SBox16 :=
  if key.length ≠ keySize then .error .invalid_argument else
  match SBox16.fill mainFunc key SBox16.inputs [] [] with
  | .error e => .error e
  | .ok primary => .ok { keyVector := key, primary := primary, secondary := [] }

/-- A mapping function for the template argument `mainFunc` of `SBox16`: the identity. -/
def identityMap16 (_ : List Nat) (x : Nat × Nat) : Nat × Nat := x

end Substitution

namespace Permutation

/-- The loop of `rotate2s` from index `i` on, over the bytes not yet visited.  The array
`tmp` is not initialised: `junk i` stands for what it holds at an index the loop does not
write (the last one when `blockSize` is odd). -/
def rotate2sLoop (junk : Nat → Nat) (left : Bool) (lvl : Nat) : Nat → List Nat → List Nat
  | i, A :: B :: rest =>
    (if left then ((A <<< lvl) ||| (B >>> (8 - lvl))) % 256
      else ((A >>> lvl) ||| (B <<< (8 - lvl))) % 256) ::
    (if left then ((B <<< lvl) ||| (A >>> (8 - lvl))) % 256
      else ((B >>> lvl) ||| (A <<< (8 - lvl))) % 256) ::
    rotate2sLoop junk left lvl (i + 2) rest
  | i, [_] => [junk i % 256]
  | _, [] => []

/-- Source `rotate2s`; `none` when `assert(lvl <= 7)` fails. -/
def rotate2s (junk : Nat → Nat) (bytes : List Nat) (left : Bool) (lvl : Nat) :
    Option (List Nat) :=
  if lvl ≤ 7 then some (rotate2sLoop junk left lvl 0 bytes) else none

/-- Source `rotateAll`; `none` when `assert(lvl <= 7)` fails or the block is empty (the
accesses `bytes[blockSize - 1]` and `tmp[blockSize - 1]` are then out of range).  The
left loop also loads `bytes[1]` and `bytes[i + 2]` one position past the array into
`next` just before it stops; that value is never used and is taken to be 0. -/
def rotateAll (bytes : List Nat) (left : Bool) (lvl : Nat) : Option (List Nat) :=
  let blockSize := bytes.length
  if ¬ lvl ≤ 7 then none
  else if blockSize = 0 then none
  else if left then
    let st := (List.range (blockSize - 1)).foldl
      (fun (st : List Nat × Nat) i =>
        (st.1.set i (((bytes.getD i 0 >>> lvl) ||| (st.2 <<< (8 - lvl))) % 256),
          bytes.getD (i + 2) 0))
      (List.replicate blockSize 0, bytes.getD 1 0)
    some (st.1.set (blockSize - 1)
      (((bytes.getD (blockSize - 1) 0 >>> lvl) ||| (bytes.getD 0 0 <<< (8 - lvl))) % 256))
  else
    let st := (List.range blockSize).foldl
      (fun (st : List Nat × Nat) i =>
        (st.1.set i (((bytes.getD i 0 <<< lvl) ||| (st.2 >>> (8 - lvl))) % 256),
          bytes.getD i 0))
      (List.replicate blockSize 0, bytes.getD (blockSize - 1) 0)
    some st.1

/-- Source `rearrange`.  The array `temp` is not initialised: `junk i` stands for what it
holds at index `i` before the loop.  `none` when the two arrays differ in size or a table
entry is not an index of the block. -/
def rearrange (junk : Nat → Nat) (main table : List Nat) (forward : Bool) :
    Option (List Nat) :=
  let blockSize := main.length
  if table.length ≠ blockSize then none
  else if forward then
    (List.range blockSize).foldlM
      (fun (temp : List Nat) i =>
        if table.getD i 0 < blockSize then some (temp.set (table.getD i 0) (main.getD i 0))
        else none)
      ((List.range blockSize).map fun i => junk i % 256)
  else
    (List.range blockSize).mapM fun i => main[table.getD i 0]?

/-- The template arguments and the data members of `SimplePermuter`. -/
structure SimplePermuter where
  blockSize : Nat
  stA_flip : Bool
  stA_rot : Nat
  stB_flip : Bool
  stB_rot : Nat
  stC_flip : Bool
  stC_rot : Nat
  stE_rot : Nat
  stageA_placement : List Nat
  stageB_placement : List Nat
  stageC_placement : List Nat
  deriving DecidableEq

/-- The `ushort cmult` of the constructor. -/
def SimplePermuter.cmult (blockSize : Nat) : Nat :=
  (((blockSize + 2) >>> 1) + blockSize) % 65536

/-- The `ushort amult` of the constructor after its two adjustments; the second one is
made when `cmult` is even. -/
def SimplePermuter.amult (blockSize : Nat) : Nat :=
  let amult := blockSize >>> 1
  let amult := if amult &&& 1 ≠ 0 then (amult + (2 + blockSize)) % 65536
    else (amult + (1 + blockSize)) % 65536
  if SimplePermuter.cmult blockSize &&& 1 = 0 then (amult + 1) % 65536 else amult

/-- The `byte adda` of the constructor. -/
def SimplePermuter.adda (blockSize : Nat) : Nat := (SimplePermuter.amult blockSize >>> 2) % 256

/-- The `byte addc` of the constructor. -/
def SimplePermuter.addc (blockSize : Nat) : Nat :=
  ((SimplePermuter.cmult blockSize >>> 1) + 4) % 256

/-- The `ushort bmult1` of the constructor after its adjustment.  The operands are
promoted to `int`, and an `int` is its 32-bit two's complement pattern: `~key1` is
`2 ^ 32 - 1 - key1`, and the low 16 bits of the arithmetic shift to the right by one are
the bits 1 to 16 of the pattern. -/
def SimplePermuter.bmult1 (key1 IV : Nat) : Nat :=
  let v := (key1 &&& IV) ^^^ (key1 >>> 1) ^^^ (((2 ^ 32 - 1 - key1) <<< 2) % 2 ^ 32)
  let bmult1 := (v >>> 1) % 65536
  if bmult1 &&& 1 ≠ 0 then (bmult1 + 4) % 65536 else (bmult1 + 5) % 65536

/-- The `ushort bmult2` of the constructor after its adjustment. -/
def SimplePermuter.bmult2 (blockSize : Nat) : Nat :=
  let bmult2 := ((blockSize + (blockSize >>> 2)) >>> 1) % 65536
  if bmult2 &&& 1 ≠ 0 then (bmult2 + 1) % 65536 else (bmult2 + 2) % 65536

/-- The `byte addb` of the constructor. -/
def SimplePermuter.addb (key1 key2 IV : Nat) : Nat :=
  ((key2 ^^^ (SimplePermuter.bmult1 key1 IV >>> 4)) + (key2 >>> 2)) % 256

/-- Source constructor `SimplePermuter::SimplePermuter` with its template arguments;
`none` when a `static_assert` or the `assert(IV <= blockSize)` fails.  The arguments
`key1`, `key2` and `IV` are bytes, and so is `blockSize`. -/
def SimplePermuter.construct (blockSize : Nat) (stA_flip : Bool) (stA_rot : Nat)
    (stB_flip : Bool) (stB_rot : Nat) (stC_flip : Bool) (stC_rot : Nat) (stE_rot : Nat)
    (key1 key2 IV : Nat) : Option SimplePermuter :=
  if ¬ (blockSize < 256 ∧ blockSize ≥ 8 ∧ blockSize &&& 1 = 0 ∧ stA_rot ≤ 7 ∧ stB_rot ≤ 7 ∧
      stC_rot ≤ 7 ∧ stE_rot ≤ 7) then none
  else if ¬ (IV % 256 ≤ blockSize) then none
  else some
    { blockSize := blockSize,
      stA_flip := stA_flip, stA_rot := stA_rot, stB_flip := stB_flip, stB_rot := stB_rot,
      stC_flip := stC_flip, stC_rot := stC_rot, stE_rot := stE_rot,
      stageA_placement := (List.range blockSize).map fun i =>
        (SimplePermuter.adda blockSize + SimplePermuter.amult blockSize * i) % blockSize,
      stageB_placement := (List.range blockSize).map fun i =>
        ((SimplePermuter.addb (key1 % 256) (key2 % 256) (IV % 256) +
          (SimplePermuter.bmult1 (key1 % 256) (IV % 256) * i) % 2 ^ 32 +
          (SimplePermuter.bmult2 blockSize * i) % 2 ^ 32) % 2 ^ 32 % blockSize) % 256,
      stageC_placement := (List.range blockSize).map fun i =>
        (SimplePermuter.addc blockSize + SimplePermuter.cmult blockSize * i) % blockSize }

/-- The loop `for (byte i=0;i<blockSize;i+=2) {temp[i]^=ka;temp[i+1]^=kb;}` on a block of
even size. -/
def xorPairs (ka kb : Nat) : List Nat → List Nat
  | A :: B :: rest => (A ^^^ ka) % 256 :: (B ^^^ kb) % 256 :: xorPairs ka kb rest
  | rest => rest

/-- The loop `for (byte i=0;i<blockSize;i++) {temp[i]^=0xA5;}`. -/
def xorA5 (temp : List Nat) : List Nat := temp.map fun t => (t ^^^ 0xA5) % 256

/-- The stage A group of `operateForward`: `rearrange`, `rotateAll`, the XOR loop with
`key[1]` and `key[2]`, `rotate2s`, `rotateAll`.  Here and below `junk k` stands for the
uninitialised array of the `k`-th call of `rotate2s` or `rearrange` in the function. -/
def SimplePermuter.forwardA (P : SimplePermuter) (junk : Nat → Nat → Nat)
    (key temp : List Nat) : Option (List Nat) :=
  (rearrange (junk 1) temp P.stageA_placement P.stA_flip).bind fun temp =>
  (rotateAll temp false P.stA_rot).bind fun temp =>
  (rotate2s (junk 2) (xorPairs (key.getD 1 0) (key.getD 2 0) temp) true P.stA_rot).bind
    fun temp =>
  rotateAll temp true P.stA_rot

/-- The stage B group of `operateForward`, with `key[3]` and `key[4]`. -/
def SimplePermuter.forwardB (P : SimplePermuter) (junk : Nat → Nat → Nat)
    (key temp : List Nat) : Option (List Nat) :=
  (rearrange (junk 3) temp P.stageB_placement P.stB_flip).bind fun temp =>
  (rotateAll temp true P.stB_rot).bind fun temp =>
  (rotate2s (junk 4) (xorPairs (key.getD 3 0) (key.getD 4 0) temp) false P.stB_rot).bind
    fun temp =>
  rotateAll temp false P.stB_rot

/-- The stage C group of `operateForward`, with `key[5]` and `key[0]`. -/
def SimplePermuter.forwardC (P : SimplePermuter) (junk : Nat → Nat → Nat)
    (key temp : List Nat) : Option (List Nat) :=
  (rearrange (junk 5) temp P.stageC_placement P.stC_flip).bind fun temp =>
  (rotateAll temp false P.stC_rot).bind fun temp =>
  (rotate2s (junk 6) (xorPairs (key.getD 5 0) (key.getD 0 0) temp) true P.stC_rot).bind
    fun temp =>
  rotateAll temp true P.stC_rot

/-- The last group of `operateForward`: the XOR with `0xA5` and three rotations. -/
def SimplePermuter.forwardE (P : SimplePermuter) (junk : Nat → Nat → Nat)
    (temp : List Nat) : Option (List Nat) :=
  (rotateAll (xorA5 temp) false P.stE_rot).bind fun temp =>
  (rotate2s (junk 7) temp true P.stE_rot).bind fun temp =>
  rotateAll temp true P.stE_rot

/-- Source `SimplePermuter::operateForward`: `rotate2s` to the left by 4, then the groups
of the stages A, B, C and the last group.  The arguments are a `std::array` of `blockSize`
bytes and one of 6 bytes. -/
def SimplePermuter.operateForward (P : SimplePermuter) (junk : Nat → Nat → Nat)
    (input key : List Nat) : Option (List Nat) :=
  if input.length ≠ P.blockSize ∨ key.length ≠ 6 then none else
  (rotate2s (junk 0) input true 4).bind fun temp =>
  (P.forwardA junk key temp).bind fun temp =>
  (P.forwardB junk key temp).bind fun temp =>
  (P.forwardC junk key temp).bind fun temp =>
  P.forwardE junk temp

/-- The first group of `operateBackward`: three rotations and the XOR with `0xA5`. -/
def SimplePermuter.backwardE (P : SimplePermuter) (junk : Nat → Nat → Nat)
    (temp : List Nat) : Option (List Nat) :=
  (rotateAll temp false P.stE_rot).bind fun temp =>
  (rotate2s (junk 0) temp false P.stE_rot).bind fun temp =>
  (rotateAll temp true P.stE_rot).bind fun temp =>
  some (xorA5 temp)

/-- The stage C group of `operateBackward`: `rotateAll`, `rotate2s`, the XOR loop with
`key[5]` and `key[0]`, `rotateAll`, `rearrange` in the direction `!stC_flip`. -/
def SimplePermuter.backwardC (P : SimplePermuter) (junk : Nat → Nat → Nat)
    (key temp : List Nat) : Option (List Nat) :=
  (rotateAll temp false P.stC_rot).bind fun temp =>
  (rotate2s (junk 1) temp false P.stC_rot).bind fun temp =>
  (rotateAll (xorPairs (key.getD 5 0) (key.getD 0 0) temp) true P.stC_rot).bind fun temp =>
  rearrange (junk 2) temp P.stageC_placement (!P.stC_flip)

/-- The stage B group of `operateBackward`, with `key[3]` and `key[4]`. -/
def SimplePermuter.backwardB (P : SimplePermuter) (junk : Nat → Nat → Nat)
    (key temp : List Nat) : Option (List Nat) :=
  (rotateAll temp true P.stB_rot).bind fun temp =>
  (rotate2s (junk 3) temp true P.stB_rot).bind fun temp =>
  (rotateAll (xorPairs (key.getD 3 0) (key.getD 4 0) temp) false P.stB_rot).bind fun temp =>
  rearrange (junk 4) temp P.stageB_placement (!P.stB_flip)

/-- The stage A group of `operateBackward`, with `key[1]` and `key[2]`. -/
def SimplePermuter.backwardA (P : SimplePermuter) (junk : Nat → Nat → Nat)
    (key temp : List Nat) : Option (List Nat) :=
  (rotateAll temp false P.stA_rot).bind fun temp =>
  (rotate2s (junk 5) temp false P.stA_rot).bind fun temp =>
  (rotateAll (xorPairs (key.getD 1 0) (key.getD 2 0) temp) true P.stA_rot).bind fun temp =>
  rearrange (junk 6) temp P.stageA_placement (!P.stA_flip)

/-- Source `SimplePermuter::operateBackward`: the groups in the order E, C, B, A, then
`rotate2s` to the right by 4. -/
def SimplePermuter.operateBackward (P : SimplePermuter) (junk : Nat → Nat → Nat)
    (input key : List Nat) : Option (List Nat) :=
  if input.length ≠ P.blockSize ∨ key.length ≠ 6 then none else
  (P.backwardE junk input).bind fun temp =>
  (P.backwardC junk key temp).bind fun temp =>
  (P.backwardB junk key temp).bind fun temp =>
  (P.backwardA junk key temp).bind fun temp =>
  rotate2s (junk 7) temp false 4

end Permutation

end CryptConcepts

/-! ## NACHA: the two halves of the compression step -/

namespace NACHA

/-- The row reduction of the compression step of `hash`, as in `compress`: `temp2` and the
value of `lastxor` that it leaves. -/
def reduction (temp0 : List Nat) (capac : Nat) : List Nat × Nat :=
  let add := (capac - temp0.length % capac) % 65536
  let temp := temp0 ++ List.replicate add 0x5A
  let siz := temp.length
  let ratio := (siz / capac) % 65536
  compressLoop ratio temp [] false (bnot (temp.getD (siz - 1) 0 >>> 3))

/-- The auxiliary vector of the compression step of `hash`, as in `compress`: the loop
`for (ushort i = 0; i < _capac; i++)` with `byte N = i % 256` and
`byte T = ((N + lastxor) * (N + (i ^ _capac))) % 256`. -/
def auxVector (lastxor capac : Nat) : List Nat :=
  (List.range capac).map fun i =>
    let N := i % 256
    ((N + lastxor) * (N + (i ^^^ capac))) % 256

end NACHA

/-! ## Byte and list lemmas -/

theorem lor_shr_shl (a b s t : Nat) (h : a < 2 ^ (s + t)) :
    (a >>> s) ||| (b <<< t) = b * 2 ^ t + a / 2 ^ s := by
  have h1 : a / 2 ^ s < 2 ^ t := by
    rw [Nat.div_lt_iff_lt_mul (Nat.two_pow_pos s), ← Nat.pow_add, Nat.add_comm]; exact h
  rw [Nat.shiftRight_eq_div_pow, Nat.shiftLeft_eq, Nat.lor_comm, Nat.mul_comm b,
    Nat.mul_add_lt_is_or h1]

theorem rot_fwd (s a b : Nat) (hs : s < 8) (ha : a < 256) :
    ((a >>> s) ||| (b <<< (8 - s))) % 256 = (b % 2 ^ s) * 2 ^ (8 - s) + a / 2 ^ s := by
  have h8 : s + (8 - s) = 8 := by omega
  rw [lor_shr_shl a b s (8 - s) (by rw [h8]; exact ha)]
  interval_cases s <;> simp <;> omega

/-- Rotating a byte pair by `s` and then by `8 - s` gives the pair back (first half). -/
theorem rot_inv (s a b : Nat) (hs : s < 8) (ha : a < 256) (hb : b < 256) :
    (((((a >>> s) ||| (b <<< (8 - s))) % 256) >>> (8 - s)) |||
      ((((b >>> s) ||| (a <<< (8 - s))) % 256) <<< s)) % 256 = b := by
  have h8 : 8 - s + s = 8 := by omega
  rw [lor_shr_shl _ _ (8 - s) s (by rw [h8]; exact Nat.mod_lt _ (by norm_num))]
  rw [rot_fwd s a b hs ha, rot_fwd s b a hs hb]
  have hah : a / 2 ^ s < 2 ^ (8 - s) := by
    rw [Nat.div_lt_iff_lt_mul (Nat.two_pow_pos s), ← Nat.pow_add, h8]; exact ha
  have hal : a % 2 ^ s < 2 ^ s := Nat.mod_lt _ (Nat.two_pow_pos s)
  have hbl : b % 2 ^ s < 2 ^ s := Nat.mod_lt _ (Nat.two_pow_pos s)
  have hbd : 2 ^ s * (b / 2 ^ s) + b % 2 ^ s = b := Nat.div_add_mod b (2 ^ s)
  generalize a / 2 ^ s = ah at *
  generalize a % 2 ^ s = al at *
  generalize b / 2 ^ s = bh at *
  generalize b % 2 ^ s = bl at *
  subst hbd
  interval_cases s <;> simp at * <;> omega

theorem xor_mod256 (a b : Nat) : (a ^^^ b) % 256 = (a % 256) ^^^ (b % 256) := by
  apply Nat.eq_of_testBit_eq
  intro i
  have h : (256 : Nat) = 2 ^ 8 := by norm_num
  simp only [h, Nat.testBit_mod_two_pow, Nat.testBit_xor]
  by_cases hi : i < 8 <;> simp [hi]

theorem lor_mod256 (a b : Nat) : (a ||| b) % 256 = (a % 256) ||| (b % 256) := by
  apply Nat.eq_of_testBit_eq
  intro i
  have h : (256 : Nat) = 2 ^ 8 := by norm_num
  simp only [h, Nat.testBit_mod_two_pow, Nat.testBit_or]
  by_cases hi : i < 8 <;> simp [hi]

theorem xor_lt256 {a b : Nat} (ha : a < 256) (hb : b < 256) : a ^^^ b < 256 :=
  Nat.xor_lt_two_pow (n := 8) ha hb

theorem xor_xor_mod256 (x k : Nat) : (((x ^^^ k) % 256) ^^^ k) % 256 = x % 256 := by
  rw [xor_mod256, Nat.mod_mod, xor_mod256 x k, Nat.xor_assoc, Nat.xor_self, Nat.xor_zero]

theorem xor4 (r x y : Nat) (h : r < 256) :
    ((((((r ^^^ x) % 256) ^^^ y) % 256 ^^^ x) % 256) ^^^ y) % 256 = r := by
  apply Nat.eq_of_testBit_eq
  intro i
  have h8 : (256 : Nat) = 2 ^ 8 := by norm_num
  simp only [h8, Nat.testBit_mod_two_pow, Nat.testBit_xor]
  by_cases hi : i < 8
  · simp only [hi, decide_True, Bool.true_and]
    cases r.testBit i <;> cases x.testBit i <;> cases y.testBit i <;> rfl
  · have : r.testBit i = false :=
      Nat.testBit_lt_two_pow (Nat.lt_of_lt_of_le h (by
        rw [h8]; exact Nat.pow_le_pow_right (by norm_num) (by omega)))
    simp [hi, this]

theorem bnot_bnot (x : Nat) : bnot (bnot x) = x % 256 := by
  unfold bnot; omega

theorem bnot_lt (x : Nat) : bnot x < 256 := by unfold bnot; omega

theorem range12 : List.range 12 = [0, 1, 2, 3, 4, 5, 6, 7, 8, 9, 10, 11] := by decide

theorem length12 {xs : List Nat} (h : xs.length = 12) :
    ∃ x0 x1 x2 x3 x4 x5 x6 x7 x8 x9 x10 x11,
      xs = [x0, x1, x2, x3, x4, x5, x6, x7, x8, x9, x10, x11] := by
  match xs, h with
  | [x0, x1, x2, x3, x4, x5, x6, x7, x8, x9, x10, x11], _ =>
    exact ⟨x0, x1, x2, x3, x4, x5, x6, x7, x8, x9, x10, x11, rfl⟩

theorem getD_map_range (n : Nat) (f : Nat → Nat) (i : Nat) (h : i < n) :
    ((List.range n).map f).getD i 0 = f i := by
  rw [List.getD_eq_getElem _ _ (by simpa using h)]
  simp

theorem map_range_eq (n : Nat) (f : Nat → Nat) (xs : List Nat) (hlen : xs.length = n)
    (h : ∀ i, i < n → f i = xs.getD i 0) : (List.range n).map f = xs := by
  apply List.ext_getElem
  · simp [hlen]
  · intro i h1 h2
    have hi : i < n := by simpa using h1
    simp only [List.getElem_map, List.getElem_range]
    rw [h i hi, List.getD_eq_getElem _ _ h2]

theorem getD_lt {xs : List Nat} (h : IsBytes xs) (i : Nat) : xs.getD i 0 < 256 := by
  by_cases hi : i < xs.length
  · rw [List.getD_eq_getElem _ _ hi]
    exact h _ (List.getElem_mem _)
  · rw [List.getD_eq_default _ _ (by omega)]
    norm_num

theorem isBytes_map_range (n : Nat) (f : Nat → Nat) (h : ∀ i, i < n → f i < 256) :
    IsBytes ((List.range n).map f) := by
  intro b hb
  obtain ⟨i, hi, rfl⟩ := List.mem_map.mp hb
  exact h i (List.mem_range.mp hi)


/-! ## VIPER-1: the permutation stage -/

theorem crossXor_invol (key : Nat) (N0 N1 : List Nat) (h1 : N1.length = 12)
    (hb : IsBytes N1) : crossXor key N0 (crossXor key N0 N1) = N1 := by
  obtain ⟨r0, r1, r2, r3, r4, r5, r6, r7, r8, r9, r10, r11, rfl⟩ := length12 h1
  simp only [IsBytes, List.mem_cons, List.mem_singleton, forall_eq_or_imp, forall_eq,
    List.not_mem_nil, false_imp_iff, implies_true, and_true] at hb
  obtain ⟨b0, b1, b2, b3, b4, b5, b6, b7, b8, b9, b10, b11⟩ := hb
  simp only [crossXor, range12, List.foldl_cons, List.foldl_nil, List.set_cons_succ,
    List.set_cons_zero, List.getD_cons_succ, List.getD_cons_zero, Nat.reduceSub]
  simp only [xor4, *]

theorem crossXor_length (key : Nat) (N0 N1 : List Nat) :
    (crossXor key N0 N1).length = N1.length := by
  unfold crossXor
  generalize List.range 12 = l
  induction l generalizing N1 with
  | nil => rfl
  | cons i l ih => simp only [List.foldl_cons, ih, List.length_set]

theorem isBytes_set {xs : List Nat} (h : IsBytes xs) (i v : Nat) (hv : v < 256) :
    IsBytes (xs.set i v) := by
  intro b hb
  rcases List.mem_or_eq_of_mem_set hb with h1 | h1
  · exact h b h1
  · rw [h1]; exact hv

theorem crossXor_isBytes (key : Nat) (N0 N1 : List Nat) (h : IsBytes N1) :
    IsBytes (crossXor key N0 N1) := by
  unfold crossXor
  generalize List.range 12 = l
  induction l generalizing N1 with
  | nil => exact h
  | cons i l ih =>
    simp only [List.foldl_cons]
    apply ih
    apply isBytes_set
    · apply isBytes_set h
      exact Nat.mod_lt _ (by norm_num)
    · exact Nat.mod_lt _ (by norm_num)

theorem isPair_range (f g : Nat → Nat) (hf : ∀ i, f i < 256) (hg : ∀ i, g i < 256) :
    IsPair ((List.range 12).map f, (List.range 12).map g) :=
  ⟨by simp, by simp, isBytes_map_range _ _ (fun i _ => hf i),
    isBytes_map_range _ _ (fun i _ => hg i)⟩

theorem permuteEnc_split_isPair (inp : vecpair) (key : Nat) :
    IsPair (permuteEnc_split inp key) :=
  isPair_range _ _ (fun _ => Nat.mod_lt _ (by norm_num)) (fun _ => Nat.mod_lt _ (by norm_num))

theorem permuteEnc_mix_isPair (v : vecpair) : IsPair (permuteEnc_mix v) :=
  isPair_range _ _ (fun _ => Nat.mod_lt _ (by norm_num)) (fun _ => Nat.mod_lt _ (by norm_num))

theorem permute_keyXor_isPair (N : vecpair) (key : Nat) : IsPair (permute_keyXor N key) :=
  isPair_range _ _ (fun _ => Nat.mod_lt _ (by norm_num)) (fun _ => Nat.mod_lt _ (by norm_num))

theorem permute_cross_isPair (N : vecpair) (key : Nat) (h : IsPair N) :
    IsPair (permute_cross N key) := by
  obtain ⟨h1, h2, h3, h4⟩ := h
  simp only [permute_cross, IsPair, crossXor_length]
  exact ⟨h1, h2, h3, crossXor_isBytes key N.1 N.2 h4⟩

theorem permuteEnc_rot_isPair (N : vecpair) (key : Nat) : IsPair (permuteEnc_rot N key) :=
  isPair_range _ _ (fun _ => Nat.mod_lt _ (by norm_num)) (fun _ => bnot_lt _)

theorem permuteDec_rot_isPair (N : vecpair) (key : Nat) : IsPair (permuteDec_rot N key) :=
  isPair_range _ _ (fun _ => Nat.mod_lt _ (by norm_num)) (fun _ => Nat.mod_lt _ (by norm_num))

theorem permuteDec_split_isPair (N : vecpair) (key : Nat) :
    IsPair (permuteDec_split N key) :=
  isPair_range _ _ (fun _ => Nat.mod_lt _ (by norm_num)) (fun _ => Nat.mod_lt _ (by norm_num))

theorem permuteEnc_isPair (inp : vecpair) (key : Nat) : IsPair (permuteEnc inp key) :=
  permuteEnc_rot_isPair _ _

theorem permuteDec_isPair (inp : vecpair) (key : Nat) : IsPair (permuteDec inp key) :=
  permuteDec_split_isPair _ _

theorem permuteDec_rot_inv (N : vecpair) (key : Nat) (h : IsPair N) :
    permuteDec_rot (permuteEnc_rot N key) key = N := by
  obtain ⟨h1, h2, h3, h4⟩ := h
  have hs : ∀ i, (key % 8 + i) % 8 < 8 := fun i => Nat.mod_lt _ (by norm_num)
  simp only [permuteDec_rot]
  apply Prod.ext <;> dsimp only
  · apply map_range_eq _ _ _ h1
    intro i hi
    simp only [permuteEnc_rot, getD_map_range _ _ _ hi, xor_xor_mod256, bnot_bnot]
    exact rot_inv _ _ _ (hs i) (getD_lt h4 i) (getD_lt h3 i)
  · apply map_range_eq _ _ _ h2
    intro i hi
    simp only [permuteEnc_rot, getD_map_range _ _ _ hi, xor_xor_mod256, bnot_bnot]
    exact rot_inv _ _ _ (hs i) (getD_lt h3 i) (getD_lt h4 i)

theorem permute_cross_invol (N : vecpair) (key : Nat) (h : IsPair N) :
    permute_cross (permute_cross N key) key = N := by
  obtain ⟨_, h2, _, h4⟩ := h
  simp only [permute_cross, crossXor_invol key N.1 N.2 h2 h4]

theorem permute_keyXor_invol (N : vecpair) (key : Nat) (h : IsPair N) :
    permute_keyXor (permute_keyXor N key) key = N := by
  obtain ⟨h1, h2, h3, h4⟩ := h
  simp only [permute_keyXor]
  apply Prod.ext <;> dsimp only
  · apply map_range_eq _ _ _ h1
    intro i hi
    simp only [getD_map_range _ _ _ hi, xor_xor_mod256]
    exact Nat.mod_eq_of_lt (getD_lt h3 i)
  · apply map_range_eq _ _ _ h2
    intro i hi
    simp only [getD_map_range _ _ _ hi, xor_xor_mod256]
    exact Nat.mod_eq_of_lt (getD_lt h4 i)

theorem foldl_set_rev (f : Nat → Nat) :
    (List.range 12).foldl (fun (acc : List Nat) i => acc.set (11 - i) (f i))
      (List.replicate 12 0) = (List.range 12).map (fun j => f (11 - j)) := by
  simp only [range12, List.foldl_cons, List.foldl_nil, List.replicate, List.set_cons_succ,
    List.set_cons_zero, Nat.reduceSub, List.map_cons, List.map_nil]

theorem permuteDec_mix_inv (v : vecpair) (h : IsPair v) :
    permuteDec_mix (permuteEnc_mix v) = v := by
  obtain ⟨h1, h2, h3, h4⟩ := h
  simp only [permuteDec_mix, foldl_set_rev]
  apply Prod.ext <;> dsimp only
  · apply map_range_eq _ _ _ h1
    intro i hi
    simp only [permuteEnc_mix, getD_map_range _ _ _ hi]
    exact rot_inv 2 _ _ (by norm_num) (getD_lt h4 _) (getD_lt h3 _)
  · apply map_range_eq _ _ _ h2
    intro i hi
    have hi' : 11 - i < 12 := by omega
    have hii : 11 - (11 - i) = i := by omega
    simp only [permuteEnc_mix, getD_map_range _ _ _ hi', hii]
    exact rot_inv 2 _ _ (by norm_num) (getD_lt h3 _) (getD_lt h4 _)

theorem permuteDec_split_inv (inp : vecpair) (key : Nat) (h : IsPair inp) :
    permuteDec_split (permuteEnc_split inp key) key = inp := by
  obtain ⟨h1, h2, h3, h4⟩ := h
  simp only [permuteDec_split]
  apply Prod.ext <;> dsimp only
  · apply map_range_eq _ _ _ h1
    intro i hi
    simp only [permuteEnc_split, getD_map_range _ _ _ hi]
    rw [xor_mod256, Nat.lor_comm ((_ % 256) <<< 4) (_ >>> 4)]
    have := rot_inv 4 (inp.2.getD i 0) ((inp.1.getD i 0 ^^^ key) % 256) (by norm_num)
      (getD_lt h4 _) (Nat.mod_lt _ (by norm_num))
    simp only [Nat.reduceSub] at this
    rw [this, ← xor_mod256, Nat.xor_assoc, Nat.xor_self, Nat.xor_zero]
    exact Nat.mod_eq_of_lt (getD_lt h3 i)
  · apply map_range_eq _ _ _ h2
    intro i hi
    simp only [permuteEnc_split, getD_map_range _ _ _ hi]
    rw [Nat.lor_comm ((_ % 256) <<< 4) (_ >>> 4), Nat.lor_comm (_ <<< 4) (_ >>> 4)]
    exact rot_inv 4 _ _ (by norm_num) (Nat.mod_lt _ (by norm_num)) (getD_lt h4 _)

/-- `permuteDec` undoes `permuteEnc` on every pair of 12-byte halves. -/
theorem permuteDec_permuteEnc (inp : vecpair) (key : Nat) (h : IsPair inp) :
    permuteDec (permuteEnc inp key) key = inp := by
  unfold permuteDec permuteEnc
  rw [permuteDec_rot_inv _ _ (permute_cross_isPair _ _ (permute_keyXor_isPair _ _)),
    permute_cross_invol _ _ (permute_keyXor_isPair _ _),
    permute_keyXor_invol _ _ (permuteEnc_mix_isPair _),
    permuteDec_mix_inv _ (permuteEnc_split_isPair _ _),
    permuteDec_split_inv _ _ h]


/-! ## VIPER-1: the modular inverse and the two half-round functions -/

/-- State of the `inverseKeyMod` loop after `t` iterations. -/
theorem inverseKeyMod_loop (i t : Nat) (ht : t ≤ 254) :
    let st := (List.range t).foldl
      (fun (st : Nat × Bool) _ =>
        if (i * st.1) % 256 = 1 then (st.1, true) else ((st.1 + 1) % 256, st.2))
      (1, false)
    (st.2 = true → (i * st.1) % 256 = 1 ∧ 1 ≤ st.1 ∧ st.1 ≤ t ∧
        ∀ m, 1 ≤ m → m < st.1 → (i * m) % 256 ≠ 1) ∧
    (st.2 = false → st.1 = t + 1 ∧ ∀ m, 1 ≤ m → m ≤ t → (i * m) % 256 ≠ 1) := by
  induction t with
  | zero =>
    simp only [List.range_zero, List.foldl_nil]
    refine ⟨fun h => by simp at h, fun _ => ⟨by trivial, fun m h1 h2 => by omega⟩⟩
  | succ t ih =>
    have ih := ih (by omega)
    simp only [List.range_succ, List.foldl_append, List.foldl_cons, List.foldl_nil] at ih ⊢
    generalize (List.range t).foldl
      (fun (st : Nat × Bool) _ =>
        if (i * st.1) % 256 = 1 then (st.1, true) else ((st.1 + 1) % 256, st.2))
      (1, false) = st at ih
    obtain ⟨n, good⟩ := st
    obtain ⟨ih1, ih2⟩ := ih
    simp only at ih1 ih2 ⊢
    by_cases hc : (i * n) % 256 = 1
    · simp only [hc, if_true, true_implies, false_implies, and_true, reduceCtorEq]
      cases good with
      | true =>
        obtain ⟨_, h1, h2, h3⟩ := ih1 rfl
        exact ⟨trivial, h1, by omega, h3⟩
      | false =>
        obtain ⟨h1, h2⟩ := ih2 rfl
        exact ⟨trivial, by omega, by omega, fun m hm1 hm2 => h2 m hm1 (by omega)⟩
    · simp only [hc, if_false]
      cases good with
      | true => exact absurd (ih1 rfl).1 hc
      | false =>
        obtain ⟨h1, h2⟩ := ih2 rfl
        refine ⟨fun h => by simp at h, fun _ => ⟨by omega, fun m hm1 hm2 => ?_⟩⟩
        by_cases hm : m ≤ t
        · exact h2 m hm1 hm
        · have : m = n := by omega
          rw [this]; exact hc

/-- `inverseKeyMod i` is the least `n` in `1 .. 254` with `(i * n) % 256 = 1` when there
is one, and 255 otherwise. -/
theorem inverseKeyMod_spec (i : Nat) :
    ((i * inverseKeyMod i) % 256 = 1 ∧ 1 ≤ inverseKeyMod i ∧ inverseKeyMod i ≤ 254 ∧
        ∀ m, 1 ≤ m → m < inverseKeyMod i → (i * m) % 256 ≠ 1) ∨
    (inverseKeyMod i = 255 ∧ ∀ m, 1 ≤ m → m ≤ 254 → (i * m) % 256 ≠ 1) := by
  have h := inverseKeyMod_loop i 254 (le_refl _)
  simp only at h
  unfold inverseKeyMod
  generalize (List.range 254).foldl
      (fun (st : Nat × Bool) _ =>
        if (i * st.1) % 256 = 1 then (st.1, true) else ((st.1 + 1) % 256, st.2))
      (1, false) = st at h
  obtain ⟨n, good⟩ := st
  cases good with
  | true => exact Or.inl (h.1 rfl)
  | false => exact Or.inr (h.2 rfl)

theorem odd_inverse_table : ∀ k, k < 256 → k % 2 = 1 → k ≠ 255 →
    1 ≤ k ^ 63 % 256 ∧ k ^ 63 % 256 ≤ 254 ∧ (k * (k ^ 63 % 256)) % 256 = 1 := by
  decide!


theorem inverseKeyMod_of_odd (k : Nat) (hk : k < 256) (hodd : k % 2 = 1) (h255 : k ≠ 255) :
    (k * inverseKeyMod k) % 256 = 1 ∧ inverseKeyMod k ≤ 254 := by
  obtain ⟨h1, h2, h3⟩ := odd_inverse_table k hk hodd h255
  rcases inverseKeyMod_spec k with h | h
  · exact ⟨h.1, h.2.2.1⟩
  · exact absurd h3 (h.2 _ h1 h2)

theorem odd_of_inverse (k n : Nat) (h : (k * n) % 256 = 1) : k % 2 = 1 := by
  rcases Nat.even_or_odd k with ⟨j, hj⟩ | ⟨j, hj⟩
  · subst hj
    have : (j + j) * n = 2 * (j * n) := by ring
    rw [this] at h
    omega
  · omega

/-- The sanitised multiplier is odd, below 255, and `inverseKeyMod` inverts it. -/
theorem sanitize_spec (k : Nat) (hk : k < 256) :
    sanitize k % 2 = 1 ∧ sanitize k < 255 ∧
      (sanitize k * inverseKeyMod (sanitize k)) % 256 = 1 := by
  have key : sanitize k % 2 = 1 ∧ sanitize k < 255 := by
    unfold sanitize
    simp only [Nat.and_one_is_mod, Nat.shiftRight_eq_div_pow]
    by_cases h : inverseKeyMod k = 255
    · simp only [h, if_true]
      have h4 : k / 2 ^ 2 ≤ 63 := by omega
      generalize k / 2 ^ 2 = k1 at h4 ⊢
      split_ifs <;> first | omega | exact False.elim (by assumption)
    · simp only [h, if_false]
      rcases inverseKeyMod_spec k with h1 | h1
      · have hodd := odd_of_inverse _ _ h1.1
        have h255 : k ≠ 255 := by
          rintro rfl
          obtain ⟨h2, h3, h4, _⟩ := h1
          omega
        split_ifs <;> omega
      · exact absurd h1.1 h
  exact ⟨key.1, key.2, (inverseKeyMod_of_odd _ (by omega) key.1 (by omega)).1⟩

theorem revmult_byte (i k ia s : Nat) (hi : i < 256) (hs : s ≤ 256)
    (hk : (k * ia) % 256 = 1) :
    (((i * k + s) % 65536 % 256 + 256 - s) * ia) % 65536 % 256 = i := by
  have h1 : ∀ x, x % 65536 % 256 = x % 256 := fun x => by omega
  rw [h1, h1, Nat.mul_mod]
  have h2 : ((i * k + s) % 256 + 256 - s) % 256 = (i * k) % 256 := by
    generalize i * k = m
    omega
  rw [h2, ← Nat.mul_mod, Nat.mul_assoc, Nat.mul_mod, hk, Nat.mul_one, Nat.mod_mod]
  exact Nat.mod_eq_of_lt hi

theorem shr4_le (b : Nat) (hb : b < 256) : b >>> 4 ≤ 256 := by
  rw [Nat.shiftRight_eq_div_pow]; omega

/-- `revmultDec` undoes `revmultEnc` on byte vectors of equal length. -/
theorem revmultDec_revmultEnc (x y : List Nat) (a b : Nat) (hlen : x.length = y.length)
    (hx : IsBytes x) (hy : IsBytes y) (ha : a < 256) (hb : b < 256) :
    ∃ q, revmultEnc x y a b = some q ∧ q.1.length = y.length ∧ q.2.length = x.length ∧
      IsBytes q.1 ∧ IsBytes q.2 ∧ revmultDec q.1 q.2 a b = some (x, y) := by
  simp only [revmultEnc, hlen, ne_eq, not_true_eq_false, if_false]
  refine ⟨_, rfl, ?_, ?_, ?_, ?_, ?_⟩
  · simp
  · simp [reverseVector, hlen]
  · intro v hv
    obtain ⟨i, _, rfl⟩ := List.mem_map.mp hv
    omega
  · intro v hv
    obtain ⟨i, _, rfl⟩ := List.mem_map.mp hv
    omega
  · have hA := (sanitize_spec a ha).2.2
    have hB := (sanitize_spec b hb).2.2
    simp only [revmultDec, reverseVector, List.length_map, List.length_reverse, hlen, ne_eq,
      not_true_eq_false, if_false, List.map_map, Option.some.injEq, Prod.mk.injEq]
    constructor
    · rw [← List.map_reverse, List.reverse_reverse]
      conv_rhs => rw [← List.map_id x]
      apply List.map_congr_left
      intro i hi
      exact revmult_byte i _ _ _ (hx i hi) (shr4_le b hb) hA
    · conv_rhs => rw [← List.map_id y]
      apply List.map_congr_left
      intro i hi
      exact revmult_byte i _ _ _ (hy i hi) (shr4_le a ha) hB


theorem rot_inv2 (s a b : Nat) (hs : s < 8) (ha : a < 256) (hb : b < 256) :
    (((((a >>> s) ||| (b <<< (8 - s))) % 256) <<< s) % 256) |||
      ((((b >>> s) ||| (a <<< (8 - s))) % 256) >>> (8 - s)) = a := by
  have h := rot_inv s b a hs hb ha
  rw [lor_mod256, Nat.lor_comm] at h
  have h2 : ((((b >>> s) ||| (a <<< (8 - s))) % 256) >>> (8 - s)) % 256 =
      (((b >>> s) ||| (a <<< (8 - s))) % 256) >>> (8 - s) := by
    apply Nat.mod_eq_of_lt
    rw [Nat.shiftRight_eq_div_pow]
    exact Nat.lt_of_le_of_lt (Nat.div_le_self _ _) (Nat.mod_lt _ (by norm_num))
  rw [h2] at h
  exact h

theorem arx_unadd (x a : Nat) (hx : x < 256) (ha : a < 256) :
    ((x + a) % 256 + 256 - a) % 256 = x := by omega

/-- `arxDec` undoes `arxEnc` on every pair of 12-byte halves. -/
theorem arxDec_arxEnc (x y : List Nat) (a b : Nat) (h : IsPair (x, y)) (ha : a < 256) :
    ∃ q, arxEnc x y a b = some q ∧ IsPair q ∧ arxDec q.1 q.2 a b = some (x, y) := by
  obtain ⟨h1, h2, h3, h4⟩ := h
  simp only at h1 h2 h3 h4
  have hlen : x.length = y.length := by rw [h1, h2]
  simp only [arxEnc, hlen, ne_eq, not_true_eq_false, if_false]
  refine ⟨_, rfl, ?_, ?_⟩
  · apply isPair_range
    · intro i; split_ifs <;> exact Nat.mod_lt _ (by norm_num)
    · intro i; split_ifs <;> exact Nat.mod_lt _ (by norm_num)
  · simp only [arxDec, List.length_map, List.length_range, ne_eq, not_true_eq_false, if_false,
      Option.some.injEq, Prod.mk.injEq]
    have hA : ∀ i, (x.getD i 0 + a) % 256 < 256 := fun i => Nat.mod_lt _ (by norm_num)
    have hB : ∀ i, (y.getD i 0 + a) % 256 < 256 := fun i => Nat.mod_lt _ (by norm_num)
    have hs : ∀ i, ((a + b) % 256 + i) % 8 < 8 := fun i => Nat.mod_lt _ (by norm_num)
    constructor
    · apply map_range_eq _ _ _ h1
      intro i hi
      simp only [getD_map_range _ _ _ hi]
      by_cases hr : ((a + b) % 256 + i) % 8 = 0
      · simp only [hr, if_true, xor_xor_mod256, Nat.mod_mod]
        exact arx_unadd _ _ (getD_lt h3 i) ha
      · simp only [hr, if_false, xor_xor_mod256, Nat.mod_mod]
        rw [rot_inv2 _ _ _ (hs i) (hA i) (hB i)]
        exact arx_unadd _ _ (getD_lt h3 i) ha
    · apply map_range_eq _ _ _ h2
      intro i hi
      simp only [getD_map_range _ _ _ hi]
      by_cases hr : ((a + b) % 256 + i) % 8 = 0
      · simp only [hr, if_true, xor_xor_mod256, Nat.mod_mod]
        exact arx_unadd _ _ (getD_lt h4 i) ha
      · simp only [hr, if_false, xor_xor_mod256, Nat.mod_mod]
        rw [rot_inv2 _ _ _ (hs i) (hB i) (hA i)]
        exact arx_unadd _ _ (getD_lt h4 i) ha


/-! ## VIPER-1: rounds and cycles -/

theorem getElem?_eq_some_getD (l : List Nat) (i : Nat) (h : i < l.length) :
    l[i]? = some (l.getD i 0) := by
  rw [List.getD_eq_getElem _ _ h, List.getElem?_eq_getElem h]

theorem roundFunction_length (d : List Nat) (k : Nat) : (roundFunction d k).length = d.length := by
  simp [roundFunction]

theorem roundFunction_isBytes (d : List Nat) (k : Nat) : IsBytes (roundFunction d k) := by
  intro v hv
  obtain ⟨i, _, rfl⟩ := List.mem_map.mp hv
  exact Nat.mod_lt _ (by norm_num)

theorem midXOR_inv (p : vecpair) (a b : Nat) (h : IsPair p) :
    ∃ q, midXOR p.1 p.2 a b = some q ∧ IsPair q ∧ midXOR q.1 q.2 a b = some p := by
  obtain ⟨h1, h2, h3, h4⟩ := h
  have hlen : p.1.length = p.2.length := by rw [h1, h2]
  simp only [midXOR, hlen, ne_eq, not_true_eq_false, if_false]
  refine ⟨_, rfl, ⟨by simpa using h1, by simpa using h2, ?_, ?_⟩, ?_⟩
  · intro v hv
    obtain ⟨i, _, rfl⟩ := List.mem_map.mp hv
    exact Nat.mod_lt _ (by norm_num)
  · intro v hv
    obtain ⟨i, _, rfl⟩ := List.mem_map.mp hv
    exact Nat.mod_lt _ (by norm_num)
  · simp only [List.length_map, hlen, ne_eq, not_true_eq_false, if_false, List.map_map,
      Option.some.injEq]
    apply Prod.ext <;> dsimp only
    · conv_rhs => rw [← List.map_id p.1]
      apply List.map_congr_left
      intro i hi
      simp only [Function.comp, xor_xor_mod256, id]
      exact Nat.mod_eq_of_lt (h3 i hi)
    · conv_rhs => rw [← List.map_id p.2]
      apply List.map_congr_left
      intro i hi
      simp only [Function.comp, xor_xor_mod256, id]
      exact Nat.mod_eq_of_lt (h4 i hi)

/-- The Lai-Massey middle of a round and its inverse: with `D = X.1 - X.2` and
`Rnd = roundFunction D k`, the pair `(X.2 + Rnd, X.1 + Rnd)` gives back `D`, `X.1`
and `X.2` by the three subtractions of `round_dec`. -/
theorem middle_inv (X : vecpair) (k : Nat) (h : IsPair X) :
    ∃ D x0 x1, diff X.1 X.2 = some D ∧
      add X.2 (roundFunction D k) = some x0 ∧ add X.1 (roundFunction D k) = some x1 ∧
      IsPair (x0, x1) ∧ diff x1 x0 = some D ∧
      diff x1 (roundFunction D k) = some X.1 ∧ diff x0 (roundFunction D k) = some X.2 := by
  obtain ⟨h1, h2, h3, h4⟩ := h
  have hlen : X.1.length = X.2.length := by rw [h1, h2]
  simp only [diff, add, hlen, h2, roundFunction_length, List.length_map, List.length_range,
    ne_eq, not_true_eq_false, if_false]
  refine ⟨_, _, _, rfl, rfl, rfl, ?_, ?_, ?_, ?_⟩
  · exact isPair_range _ _ (fun _ => Nat.mod_lt _ (by norm_num))
      (fun _ => Nat.mod_lt _ (by norm_num))
  · simp only [List.length_map, List.length_range, ne_eq, not_true_eq_false, if_false,
      Option.some.injEq]
    apply List.map_congr_left
    intro i hi
    have hi := List.mem_range.mp hi
    simp only [getD_map_range _ _ _ hi]
    have := getD_lt h3 i
    have := getD_lt h4 i
    omega
  · simp only [List.length_map, List.length_range, roundFunction_length, ne_eq,
      not_true_eq_false, if_false, Option.some.injEq]
    apply map_range_eq _ _ _ h1
    intro i hi
    simp only [getD_map_range _ _ _ hi]
    have := getD_lt h3 i
    have := getD_lt (roundFunction_isBytes
      (List.map (fun i => (X.1.getD i 0 + 256 - X.2.getD i 0) % 256) (List.range 12)) k) i
    omega
  · simp only [List.length_map, List.length_range, roundFunction_length, ne_eq,
      not_true_eq_false, if_false, Option.some.injEq]
    apply map_range_eq _ _ _ h2
    intro i hi
    simp only [getD_map_range _ _ _ hi]
    have := getD_lt h4 i
    have := getD_lt (roundFunction_isBytes
      (List.map (fun i => (X.1.getD i 0 + 256 - X.2.getD i 0) % 256) (List.range 12)) k) i
    omega

/-- One decrypt round undoes one encrypt round. -/
theorem round_dec_round_enc (inp : vecpair) (Func : Bool) (key : List Nat) (ks : Nat)
    (hk : ks + 4 < key.length) (hkb : IsBytes key) (h : IsPair inp) :
    ∃ q, round_enc inp Func key ks = some q ∧ IsPair q ∧
      round_dec q Func key ks = some inp := by
  have e0 := getElem?_eq_some_getD key ks (by omega)
  have e1 := getElem?_eq_some_getD key (ks + 1) (by omega)
  have e2 := getElem?_eq_some_getD key (ks + 2) (by omega)
  have e3 := getElem?_eq_some_getD key (ks + 3) (by omega)
  have e4 := getElem?_eq_some_getD key (ks + 4) (by omega)
  have b0 := getD_lt hkb ks
  have b1 := getD_lt hkb (ks + 1)
  generalize key.getD ks 0 = k0 at *
  generalize key.getD (ks + 1) 0 = k1 at *
  generalize key.getD (ks + 2) 0 = k2 at *
  generalize key.getD (ks + 3) 0 = k3 at *
  generalize key.getD (ks + 4) 0 = k4 at *
  have hP := permuteEnc_isPair inp k0
  -- the half-round function and its inverse
  have hH : ∃ q, (if Func then arxEnc (permuteEnc inp k0).1 (permuteEnc inp k0).2 k0 k1
        else revmultEnc (permuteEnc inp k0).1 (permuteEnc inp k0).2 k0 k1) = some q ∧
      IsPair q ∧
      (if Func then arxDec q.1 q.2 k0 k1 else revmultDec q.1 q.2 k0 k1) =
        some (permuteEnc inp k0) := by
    cases Func with
    | true =>
      simp only [if_true]
      exact arxDec_arxEnc _ _ k0 k1 hP b0
    | false =>
      obtain ⟨q, hq1, hq2, hq3, hq4, hq5, hq6⟩ :=
        revmultDec_revmultEnc _ _ k0 k1 (by rw [hP.1, hP.2.1]) hP.2.2.1 hP.2.2.2 b0 b1
      refine ⟨q, by simpa using hq1, ⟨by rw [hq2, hP.2.1], by rw [hq3, hP.1], hq4, hq5⟩, ?_⟩
      simpa using hq6
  obtain ⟨q2, hq2, hq2P, hq2D⟩ := hH
  obtain ⟨X, hX, hXP, hXD⟩ := midXOR_inv q2 k2 k3 hq2P
  obtain ⟨D, x0, x1, hD, hx0, hx1, hxP, hD', hr1, hr2⟩ := middle_inv X k4 hXP
  refine ⟨permuteEnc (x0, x1) k4, ?_, permuteEnc_isPair _ _, ?_⟩
  · cases Func <;> simp only [Bool.false_eq_true, if_true, if_false] at hq2 <;>
      simp only [round_enc, e0, e1, e2, e3, e4, Option.bind_eq_bind, Option.some_bind, hq2, hX,
        hD, hx0, hx1, Option.pure_def, Bool.false_eq_true, if_true, if_false]
  · cases Func <;> simp only [Bool.false_eq_true, if_true, if_false] at hq2D <;>
      simp only [round_dec, e0, e1, e2, e3, e4, Option.bind_eq_bind, Option.some_bind,
        permuteDec_permuteEnc _ _ hxP, hD', hr1, hr2, hXD, hq2D, Option.pure_def,
        permuteDec_permuteEnc _ _ h, Bool.false_eq_true, if_true, if_false]


/-- A round descriptor is usable when its five key bytes exist and are bytes. -/
theorem rounds_inv (rs : List (Bool × List Nat × Nat))
    (hrs : ∀ r ∈ rs, r.2.2 + 4 < r.2.1.length ∧ IsBytes r.2.1) (inp : vecpair)
    (h : IsPair inp) :
    ∃ q, rs.foldlM (fun N r => round_enc N r.1 r.2.1 r.2.2) inp = some q ∧ IsPair q ∧
      rs.reverse.foldlM (fun N r => round_dec N r.1 r.2.1 r.2.2) q = some inp := by
  induction rs generalizing inp with
  | nil => exact ⟨inp, rfl, h, rfl⟩
  | cons r rs ih =>
    obtain ⟨hr1, hr2⟩ := hrs r (List.mem_cons_self _ _)
    obtain ⟨q1, hq1, hq1P, hq1D⟩ := round_dec_round_enc inp r.1 r.2.1 r.2.2 hr1 hr2 h
    obtain ⟨q, hq, hqP, hqD⟩ := ih (fun r' hr' => hrs r' (List.mem_cons_of_mem _ hr')) q1 hq1P
    refine ⟨q, ?_, hqP, ?_⟩
    · simp only [List.foldlM_cons, hq1, Option.bind_eq_bind, Option.some_bind, hq]
    · simp only [List.reverse_cons, List.foldlM_append, hqD, Option.bind_eq_bind,
        Option.some_bind, List.foldlM_cons, hq1D, List.foldlM_nil, Option.pure_def]

theorem r4n_isBytes : IsBytes r4n := by
  intro b hb
  simp only [r4n, List.mem_replicate] at hb
  omega

theorem encRounds_ok (key schedule : List Nat) (hk : key.length = 60) (hkb : IsBytes key) :
    ∀ r ∈ encRounds key schedule, r.2.2 + 4 < r.2.1.length ∧ IsBytes r.2.1 := by
  intro r hr
  simp only [encRounds, List.mem_cons, List.mem_singleton, List.not_mem_nil, or_false] at hr
  rcases hr with h | h | h | h | h | h | h | h | h | h | h | h | h | h | h | h <;>
    subst h <;> simp only [hk] <;>
    first
      | exact ⟨by norm_num, hkb⟩
      | exact ⟨by simp [r4n], r4n_isBytes⟩

theorem decRounds_eq (key schedule : List Nat) :
    decRounds key schedule = (encRounds key schedule).reverse := by
  simp [decRounds, encRounds]

/-- The sixteen decrypt rounds undo the sixteen encrypt rounds. -/
theorem cycle_dec_cycle_enc (inp : vecpair) (key schedule : List Nat) (hk : key.length = 60)
    (hkb : IsBytes key) (hs : schedule.length = 2) (h : IsPair inp) :
    ∃ q, cycle_enc inp key schedule = some q ∧ IsPair q ∧
      cycle_dec q key schedule = some inp := by
  obtain ⟨q, hq, hqP, hqD⟩ := rounds_inv _ (encRounds_ok key schedule hk hkb) inp h
  refine ⟨q, ?_, hqP, ?_⟩
  · simp only [cycle_enc, hk, hs, h.1, h.2.1, ne_eq, not_true_eq_false, if_false, hq]
  · simp only [cycle_dec, hk, hs, hqP.1, hqP.2.1, ne_eq, not_true_eq_false, if_false,
      decRounds_eq, hqD]


/-! ## VIPER-1: block splitting and chaining -/

theorem splitStep_block (acc : List vecpair) (a b rest : List Nat) (ha : a.length = 12)
    (hb : b.length = 12) :
    (a ++ b ++ rest).foldl splitStep
        { Pairs := acc, TempPair := ([], []), Tl := 0, Tr := 0, Right := false } =
      rest.foldl splitStep
        { Pairs := acc ++ [(a, b)], TempPair := ([], []), Tl := 0, Tr := 0, Right := false } := by
  obtain ⟨a0, a1, a2, a3, a4, a5, a6, a7, a8, a9, a10, a11, rfl⟩ := length12 ha
  obtain ⟨b0, b1, b2, b3, b4, b5, b6, b7, b8, b9, b10, b11, rfl⟩ := length12 hb
  simp [splitStep]

theorem joinPairs_cons (p : vecpair) (ps : List vecpair) :
    joinPairs (p :: ps) = p.1 ++ p.2 ++ joinPairs ps := by
  simp [joinPairs]

theorem splitPairs_joinPairs_aux (ps acc : List vecpair)
    (h : ∀ p ∈ ps, p.1.length = 12 ∧ p.2.length = 12) :
    ((joinPairs ps).foldl splitStep
        { Pairs := acc, TempPair := ([], []), Tl := 0, Tr := 0, Right := false }).Pairs =
      acc ++ ps := by
  induction ps generalizing acc with
  | nil => simp [joinPairs]
  | cons p ps ih =>
    obtain ⟨h1, h2⟩ := h p (List.mem_cons_self _ _)
    rw [joinPairs_cons, splitStep_block acc p.1 p.2 _ h1 h2,
      ih _ (fun q hq => h q (List.mem_cons_of_mem _ hq))]
    simp

/-- Splitting the byte stream of a list of 12+12-byte pairs gives the list back. -/
theorem splitPairs_joinPairs (ps : List vecpair)
    (h : ∀ p ∈ ps, p.1.length = 12 ∧ p.2.length = 12) : splitPairs (joinPairs ps) = ps := by
  unfold splitPairs
  rw [splitPairs_joinPairs_aux ps [] h]
  rfl

theorem joinPairs_length (ps : List vecpair)
    (h : ∀ p ∈ ps, p.1.length = 12 ∧ p.2.length = 12) :
    (joinPairs ps).length = 24 * ps.length := by
  induction ps with
  | nil => rfl
  | cons p ps ih =>
    obtain ⟨h1, h2⟩ := h p (List.mem_cons_self _ _)
    rw [joinPairs_cons, List.length_append, List.length_append, h1, h2,
      ih (fun q hq => h q (List.mem_cons_of_mem _ hq)), List.length_cons]
    omega

/-- A vector of `24 * n` entries is the byte stream of `n` pairs of 12-entry halves. -/
theorem exists_joinPairs (n : Nat) (x : List Nat) (hx : x.length = 24 * n) :
    ∃ ps, x = joinPairs ps ∧ ps.length = n ∧
      (∀ p ∈ ps, p.1.length = 12 ∧ p.2.length = 12) ∧
      (IsBytes x → ∀ p ∈ ps, IsBytes p.1 ∧ IsBytes p.2) := by
  induction n generalizing x with
  | zero =>
    have : x = [] := List.length_eq_zero.mp (by omega)
    subst this
    exact ⟨[], rfl, rfl, by simp, by simp⟩
  | succ n ih =>
    obtain ⟨ps, h1, h2, h3, h4⟩ := ih (x.drop 24) (by rw [List.length_drop]; omega)
    refine ⟨(x.take 12, (x.drop 12).take 12) :: ps, ?_, by simp [h2], ?_, ?_⟩
    · rw [joinPairs_cons, ← h1]
      dsimp only
      have e : x.drop 24 = (x.drop 12).drop 12 := by rw [List.drop_drop]
      rw [e, List.append_assoc, List.take_append_drop, List.take_append_drop]
    · intro p hp
      rcases List.mem_cons.mp hp with rfl | hp
      · constructor
        · simp only [List.length_take]; omega
        · simp only [List.length_take, List.length_drop]; omega
      · exact h3 p hp
    · intro hb p hp
      rcases List.mem_cons.mp hp with rfl | hp
      · exact ⟨fun v hv => hb v (List.mem_of_mem_take hv),
          fun v hv => hb v (List.mem_of_mem_drop (List.mem_of_mem_take hv))⟩
      · exact h4 (fun v hv => hb v (List.mem_of_mem_drop hv)) p hp

theorem XORvecs_inv (E last : vecpair) (hE : IsPair E) (hl : last.1.length = 12)
    (hl2 : last.2.length = 12) :
    ∃ N, XORvecs E last = some N ∧ IsPair N ∧ XORvecs N last = some E := by
  obtain ⟨h1, h2, h3, h4⟩ := hE
  simp only [XORvecs, h1, h2, hl, hl2, ne_eq, not_true_eq_false, if_false]
  refine ⟨_, rfl, isPair_range _ _ (fun _ => Nat.mod_lt _ (by norm_num))
    (fun _ => Nat.mod_lt _ (by norm_num)), ?_⟩
  simp only [List.length_map, List.length_range, ne_eq, not_true_eq_false, if_false,
    Option.some.injEq]
  apply Prod.ext <;> dsimp only
  · apply map_range_eq _ _ _ h1
    intro i hi
    simp only [getD_map_range _ _ _ hi, xor_xor_mod256]
    exact Nat.mod_eq_of_lt (getD_lt h3 i)
  · apply map_range_eq _ _ _ h2
    intro i hi
    simp only [getD_map_range _ _ _ hi, xor_xor_mod256]
    exact Nat.mod_eq_of_lt (getD_lt h4 i)

/-- The chaining loop of `decrypt` undoes the chaining loop of `encrypt`, block by
block, when both start from the same `last`. -/
theorem decryptLoop_encryptLoop (key schedule : List Nat) (sx : Nat) (hk : key.length = 60)
    (hkb : IsBytes key) (hs : schedule.length = 2) (P : List vecpair)
    (hP : ∀ p ∈ P, IsPair p) (last : vecpair) (hl : last.1.length = 12)
    (hl2 : last.2.length = 12) (out out2 : List Nat) :
    ∃ C, encryptLoop key schedule sx P last out = some (out ++ joinPairs C) ∧
      C.length = P.length ∧ (∀ p ∈ C, IsPair p) ∧
      decryptLoop key schedule sx C last out2 = some (out2 ++ joinPairs P) := by
  induction P generalizing last out out2 with
  | nil => exact ⟨[], by simp [encryptLoop, joinPairs], rfl, by simp, by
      simp [decryptLoop, joinPairs]⟩
  | cons E P ih =>
    have hE := hP E (List.mem_cons_self _ _)
    obtain ⟨N0, hN0, hN0P, hN0D⟩ := XORvecs_inv E last hE hl hl2
    obtain ⟨N, hN, hNP, hND⟩ := cycle_dec_cycle_enc N0 key schedule hk hkb hs hN0P
    have hL := permuteEnc_isPair N sx
    obtain ⟨C, hC1, hC2, hC3, hC4⟩ := ih (fun p hp => hP p (List.mem_cons_of_mem _ hp))
      (permuteEnc N sx) hL.1 hL.2.1 (out ++ N.1 ++ N.2) (out2 ++ E.1 ++ E.2)
    simp only [List.append_assoc] at hC1 hC4
    refine ⟨N :: C, ?_, by simp [hC2], ?_, ?_⟩
    · simp only [encryptLoop, hE.1, hE.2.1, ne_eq, not_true_eq_false, if_false,
        Option.bind_eq_bind, Option.some_bind, hN0, hN, joinPairs_cons,
        List.append_assoc, Option.pure_def, ite_false, hC1]
    · intro p hp
      rcases List.mem_cons.mp hp with rfl | hp
      · exact hNP
      · exact hC3 p hp
    · simp only [decryptLoop, Option.bind_eq_bind, Option.some_bind, hND, hN0D,
        joinPairs_cons, List.append_assoc, hC4]


/-! ## VIPER-1: `decrypt` never fails on well-sized input -/

theorem diff_some (l r : List Nat) (h : l.length = r.length) :
    ∃ d, diff l r = some d ∧ d.length = 12 := by
  simp only [diff, h, ne_eq, not_true_eq_false, if_false]
  exact ⟨_, rfl, by simp⟩

theorem midXOR_some (l r : List Nat) (a b : Nat) (h : l.length = r.length) :
    ∃ q, midXOR l r a b = some q ∧ q.1.length = l.length ∧ q.2.length = r.length := by
  simp only [midXOR, h, ne_eq, not_true_eq_false, if_false]
  exact ⟨_, rfl, by simp [h], by simp⟩

theorem halfDec_some (Func : Bool) (l r : List Nat) (a b : Nat) (h1 : l.length = 12)
    (h2 : r.length = 12) :
    ∃ q, (if Func then arxDec l r a b else revmultDec l r a b) = some q := by
  cases Func
  · simp only [Bool.false_eq_true, if_false, revmultDec, h1, h2, ne_eq, not_true_eq_false]
    exact ⟨_, rfl⟩
  · simp only [if_true, arxDec, h1, h2, ne_eq, not_true_eq_false, if_false]
    exact ⟨_, rfl⟩

theorem round_dec_total (inp : vecpair) (Func : Bool) (key : List Nat) (ks : Nat)
    (hk : ks + 4 < key.length) :
    ∃ q, round_dec inp Func key ks = some q ∧ IsPair q := by
  have e0 := getElem?_eq_some_getD key ks (by omega)
  have e1 := getElem?_eq_some_getD key (ks + 1) (by omega)
  have e2 := getElem?_eq_some_getD key (ks + 2) (by omega)
  have e3 := getElem?_eq_some_getD key (ks + 3) (by omega)
  have e4 := getElem?_eq_some_getD key (ks + 4) (by omega)
  generalize key.getD ks 0 = k0 at *
  generalize key.getD (ks + 1) 0 = k1 at *
  generalize key.getD (ks + 2) 0 = k2 at *
  generalize key.getD (ks + 3) 0 = k3 at *
  generalize key.getD (ks + 4) 0 = k4 at *
  have hJ := permuteDec_isPair inp k4
  obtain ⟨D, hD, hDl⟩ := diff_some _ _ (by rw [hJ.1, hJ.2.1] :
    (permuteDec inp k4).2.length = (permuteDec inp k4).1.length)
  obtain ⟨x0, hx0, hx0l⟩ := diff_some (permuteDec inp k4).2 (roundFunction D k4)
    (by rw [roundFunction_length, hJ.2.1, hDl])
  obtain ⟨x1, hx1, hx1l⟩ := diff_some (permuteDec inp k4).1 (roundFunction D k4)
    (by rw [roundFunction_length, hJ.1, hDl])
  obtain ⟨X, hX, hXl1, hXl2⟩ := midXOR_some x0 x1 k2 k3 (by rw [hx0l, hx1l])
  obtain ⟨q, hq⟩ := halfDec_some Func X.1 X.2 k0 k1 (by rw [hXl1, hx0l]) (by rw [hXl2, hx1l])
  refine ⟨permuteDec q k0, ?_, permuteDec_isPair _ _⟩
  cases Func <;> simp only [Bool.false_eq_true, if_true, if_false] at hq <;>
    simp only [round_dec, e0, e1, e2, e3, e4, Option.bind_eq_bind, Option.some_bind, hD, hx0,
      hx1, hX, hq, Option.pure_def, Bool.false_eq_true, if_true, if_false]

theorem rounds_dec_total (rs : List (Bool × List Nat × Nat))
    (hrs : ∀ r ∈ rs, r.2.2 + 4 < r.2.1.length) (inp : vecpair) :
    ∃ q, rs.foldlM (fun N r => round_dec N r.1 r.2.1 r.2.2) inp = some q ∧
      (rs ≠ [] → IsPair q) := by
  induction rs generalizing inp with
  | nil => exact ⟨inp, rfl, fun h => absurd rfl h⟩
  | cons r rs ih =>
    obtain ⟨q1, hq1, hq1P⟩ := round_dec_total inp r.1 r.2.1 r.2.2 (hrs r (List.mem_cons_self _ _))
    obtain ⟨q, hq, hqP⟩ := ih (fun r' hr' => hrs r' (List.mem_cons_of_mem _ hr')) q1
    refine ⟨q, ?_, fun _ => ?_⟩
    · simp only [List.foldlM_cons, hq1, Option.bind_eq_bind, Option.some_bind, hq]
    · by_cases hn : rs = []
      · subst hn
        simp only [List.foldlM_nil, Option.pure_def, Option.some.injEq] at hq
        rw [← hq]; exact hq1P
      · exact hqP hn

theorem cycle_dec_total (inp : vecpair) (key schedule : List Nat) (hk : key.length = 60)
    (hs : schedule.length = 2) (h : inp.1.length = inp.2.length) :
    ∃ q, cycle_dec inp key schedule = some q ∧ IsPair q := by
  have hrs : ∀ r ∈ decRounds key schedule, r.2.2 + 4 < r.2.1.length := by
    intro r hr
    simp only [decRounds, List.mem_cons, List.mem_singleton, List.not_mem_nil, or_false] at hr
    rcases hr with h | h | h | h | h | h | h | h | h | h | h | h | h | h | h | h <;>
      subst h <;> simp [hk, r4n]
  obtain ⟨q, hq, hqP⟩ := rounds_dec_total _ hrs inp
  refine ⟨q, ?_, hqP (by simp [decRounds])⟩
  simp only [cycle_dec, hk, hs, h, ne_eq, not_true_eq_false, if_false, hq]

theorem decryptLoop_total (key schedule : List Nat) (sx : Nat) (hk : key.length = 60)
    (hs : schedule.length = 2) (C : List vecpair)
    (hC : ∀ p ∈ C, p.1.length = 12 ∧ p.2.length = 12) (last : vecpair)
    (hl : last.1.length = 12) (hl2 : last.2.length = 12) (out : List Nat) :
    ∃ P, decryptLoop key schedule sx C last out = some (out ++ joinPairs P) ∧
      P.length = C.length ∧ ∀ p ∈ P, IsPair p := by
  induction C generalizing last out with
  | nil => exact ⟨[], by simp [decryptLoop, joinPairs], rfl, by simp⟩
  | cons E C ih =>
    obtain ⟨h1, h2⟩ := hC E (List.mem_cons_self _ _)
    obtain ⟨N, hN, hNP⟩ := cycle_dec_total E key schedule hk hs (by rw [h1, h2])
    have hX : ∃ M, XORvecs N last = some M ∧ IsPair M := by
      simp only [XORvecs, hNP.1, hNP.2.1, hl, hl2, ne_eq, not_true_eq_false, if_false]
      exact ⟨_, rfl, isPair_range _ _ (fun _ => Nat.mod_lt _ (by norm_num))
        (fun _ => Nat.mod_lt _ (by norm_num))⟩
    obtain ⟨M, hM, hMP⟩ := hX
    have hL := permuteEnc_isPair E sx
    obtain ⟨P, hP1, hP2, hP3⟩ := ih (fun p hp => hC p (List.mem_cons_of_mem _ hp))
      (permuteEnc E sx) hL.1 hL.2.1 (out ++ M.1 ++ M.2)
    simp only [List.append_assoc] at hP1
    refine ⟨M :: P, ?_, by simp [hP2], ?_⟩
    · simp only [decryptLoop, Option.bind_eq_bind, Option.some_bind, hN, hM, joinPairs_cons,
        List.append_assoc, hP1]
    · intro p hp
      rcases List.mem_cons.mp hp with rfl | hp
      · exact hMP
      · exact hP3 p hp

theorem reverseVector_length (v : List Nat) : (reverseVector v).length = v.length := by
  simp [reverseVector]

/-- On a 60-byte key, a 12-byte IV and an input whose length is a positive multiple of
24, `decrypt` passes all its assertions and returns as many bytes as it was given. -/
theorem decrypt_total (c key IV : List Nat) (hk : key.length = 60) (hIV : IV.length = 12)
    (hc : 0 < c.length) (hc24 : c.length % 24 = 0) :
    ∃ t, decrypt c key IV = some t ∧ t.length = c.length ∧ IsBytes t := by
  obtain ⟨ps, h1, h2, h3, _⟩ := exists_joinPairs (c.length / 24) c (by omega)
  obtain ⟨P, hP1, hP2, hP3⟩ := decryptLoop_total key [sched1 key, sched2 key]
    ((sched1 key ^^^ sched2 key) % 256) hk rfl ps h3 (IV, reverseVector IV) hIV
    (by rw [reverseVector_length, hIV]) []
  refine ⟨joinPairs P, ?_, ?_, ?_⟩
  · have hc' : ¬ c.length < 24 := by omega
    simp only [decrypt, hk, hIV, hc24, hc', reverseVector_length, ne_eq, not_true_eq_false,
      if_false, Option.bind_eq_bind, ite_false, Option.some_bind, Option.pure_def]
    conv_lhs => rw [h1, splitPairs_joinPairs ps h3]
    simpa using hP1
  · rw [joinPairs_length P (fun p hp => ⟨(hP3 p hp).1, (hP3 p hp).2.1⟩), hP2, h2]
    omega
  · intro b hb
    simp only [joinPairs, List.mem_flatMap, List.mem_append] at hb
    obtain ⟨p, hp, hb | hb⟩ := hb
    · exact (hP3 p hp).2.2.1 b hb
    · exact (hP3 p hp).2.2.2 b hb


/-! ## VIPER-1: the claims on `encrypt`, `decrypt` and the outer format -/

theorem encrypt_decrypt_aux (x key IV : List Nat) (hk : key.length = 60) (hkb : IsBytes key)
    (hIV : IV.length = 12) (hx : 0 < x.length) (hx24 : x.length % 24 = 0) (hxb : IsBytes x) :
    ∃ c, VIPER1.encrypt x key IV = some c ∧ c.length = x.length ∧
      VIPER1.decrypt c key IV = some x := by
  obtain ⟨ps, h1, h2, h3, h4⟩ := exists_joinPairs (x.length / 24) x (by omega)
  have hP : ∀ p ∈ ps, IsPair p := fun p hp =>
    ⟨(h3 p hp).1, (h3 p hp).2, (h4 hxb p hp).1, (h4 hxb p hp).2⟩
  obtain ⟨C, hC1, hC2, hC3, hC4⟩ := decryptLoop_encryptLoop key [sched1 key, sched2 key]
    ((sched1 key ^^^ sched2 key) % 256) hk hkb rfl ps hP (IV, reverseVector IV) hIV
    (by rw [reverseVector_length, hIV]) [] []
  have hC3' : ∀ p ∈ C, p.1.length = 12 ∧ p.2.length = 12 :=
    fun p hp => ⟨(hC3 p hp).1, (hC3 p hp).2.1⟩
  have hlen : (joinPairs C).length = x.length := by
    rw [joinPairs_length C hC3', hC2, h2]; omega
  have hx' : ¬ x.length < 24 := by omega
  refine ⟨joinPairs C, ?_, hlen, ?_⟩
  · simp only [VIPER1.encrypt, hk, hIV, hx24, hx', ne_eq, not_true_eq_false, if_false,
      Option.bind_eq_bind, ite_false, Option.some_bind, Option.pure_def]
    conv_lhs => rw [h1, splitPairs_joinPairs ps h3]
    simpa using hC1
  · have hc' : ¬ (joinPairs C).length < 24 := by omega
    have hc24 : (joinPairs C).length % 24 = 0 := by omega
    simp only [VIPER1.decrypt, hk, hIV, hc24, hc', reverseVector_length, ne_eq,
      not_true_eq_false, if_false, Option.bind_eq_bind, ite_false, Option.some_bind,
      Option.pure_def, splitPairs_joinPairs C hC3']
    rw [h1]
    simpa using hC4

theorem headerTmp_eq (p : List Nat) :
    headerTmp p = [0xA5, 0x5A, 24 - (p.length + 3) % 24] ++
      List.replicate (24 - (p.length + 3) % 24) 0 ++ p := by
  have e : (24 - (3 + p.length) % 24) % 256 = 24 - (p.length + 3) % 24 := by omega
  simp only [headerTmp, e, List.replicate_succ, List.set_cons_zero, List.set_cons_succ,
    List.cons_append, List.nil_append]

theorem headerTmp_length (p : List Nat) :
    (headerTmp p).length = p.length + 3 + (24 - (p.length + 3) % 24) := by
  rw [headerTmp_eq]
  simp only [List.length_append, List.length_cons, List.length_nil, List.length_replicate]
  omega

theorem headerTmp_isBytes (p : List Nat) (hp : IsBytes p) : IsBytes (headerTmp p) := by
  rw [headerTmp_eq]
  intro b hb
  simp only [List.mem_append, List.mem_cons, List.mem_singleton, List.not_mem_nil, or_false,
    List.mem_replicate] at hb
  rcases hb with (((rfl | rfl | rfl) | ⟨_, rfl⟩) | hb)
  · norm_num
  · norm_num
  · omega
  · norm_num
  · exact hp b hb

/-- C2: for every 60-byte key, 12-byte IV and input `x` whose length is a positive
multiple of 24, `VIPER1::encrypt` succeeds and `VIPER1::decrypt` of its result returns
`x`; both run their chaining loop from `last = (IV, reverse(IV))` with the carry key
`sched1 ^ sched2` (the loops carry `permuteEnc(ciphertext pair, sched1 ^ sched2)`). -/
theorem viper_decrypt_encrypt (x key IV : List Nat) (hk : key.length = 60)
    (hkb : IsBytes key) (hIV : IV.length = 12) (hx : 0 < x.length)
    (hx24 : x.length % 24 = 0) (hxb : IsBytes x) :
    (VIPER1.encrypt x key IV).bind (fun c => VIPER1.decrypt c key IV) = some x ∧
    VIPER1.encrypt x key IV =
      encryptLoop key [sched1 key, sched2 key] ((sched1 key ^^^ sched2 key) % 256)
        (splitPairs x) (IV, reverseVector IV) [] ∧
    (VIPER1.encrypt x key IV).bind (fun c =>
      decryptLoop key [sched1 key, sched2 key] ((sched1 key ^^^ sched2 key) % 256)
        (splitPairs c) (IV, reverseVector IV) []) = some x := by
  obtain ⟨c, h1, h2, h3⟩ := encrypt_decrypt_aux x key IV hk hkb hIV hx hx24 hxb
  have hx' : ¬ x.length < 24 := by omega
  have hc' : ¬ c.length < 24 := by omega
  refine ⟨by rw [h1]; exact h3, ?_, ?_⟩
  · simp only [VIPER1.encrypt, hk, hIV, hx24, hx', ne_eq, not_true_eq_false, if_false,
      Option.bind_eq_bind, ite_false, Option.some_bind, Option.pure_def]
  · rw [h1, Option.some_bind, ← h3]
    simp only [VIPER1.decrypt, hk, hIV, h2, hx24, hx', reverseVector_length, ne_eq,
      not_true_eq_false, if_false, Option.bind_eq_bind, ite_false, Option.some_bind,
      Option.pure_def]

theorem isBytes_replicate_zero (n : Nat) : IsBytes (List.replicate n 0) := by
  intro b hb
  rw [(List.mem_replicate.mp hb).2]
  norm_num

theorem viper_decrypt_encrypt_witness :
    (VIPER1.encrypt (List.replicate 24 0) (List.replicate 60 0) (List.replicate 12 0)).bind
      (fun c => VIPER1.decrypt c (List.replicate 60 0) (List.replicate 12 0)) =
      some (List.replicate 24 0) :=
  (viper_decrypt_encrypt (List.replicate 24 0) (List.replicate 60 0) (List.replicate 12 0)
    (by simp) (isBytes_replicate_zero 60) (by simp) (by simp) (by simp)
    (isBytes_replicate_zero 24)).1

/-- C1: for every 60-byte key, 12-byte IV and byte vector `p` (of length at least 1),
`decryptData_VIPER1(encryptData_VIPER1(p, k, iv), k, iv) = p`. -/
theorem viper_decryptData_encryptData (p key IV : List Nat) (hk : key.length = 60)
    (hkb : IsBytes key) (hIV : IV.length = 12) (hp : 1 ≤ p.length) (hpb : IsBytes p) :
    (encryptData_VIPER1 p key IV).bind (fun c => decryptData_VIPER1 c key IV) = some p := by
  have hl := headerTmp_length p
  obtain ⟨c, h1, _, h3⟩ := encrypt_decrypt_aux (headerTmp p) key IV hk hkb hIV
    (by omega) (by omega) (headerTmp_isBytes p hpb)
  simp only [encryptData_VIPER1, h1, Option.some_bind, decryptData_VIPER1, h3,
    Option.bind_eq_bind, Option.pure_def]
  rw [headerTmp_eq]
  simp

theorem viper_decryptData_encryptData_witness :
    (encryptData_VIPER1 [1, 2, 3] (List.replicate 60 0) (List.replicate 12 0)).bind
      (fun c => decryptData_VIPER1 c (List.replicate 60 0) (List.replicate 12 0)) =
      some [1, 2, 3] :=
  viper_decryptData_encryptData [1, 2, 3] (List.replicate 60 0) (List.replicate 12 0)
    (by simp) (isBytes_replicate_zero 60) (by simp) (by simp) (by decide)

/-- C3: `encryptData_VIPER1` hands `VIPER1::encrypt` the buffer
`[0xA5, 0x5A, N] ++ (N zero bytes) ++ p` with `N = 24 - ((|p| + 3) mod 24)`; `1 ≤ N ≤ 24`,
the buffer length `|p| + 3 + N` is a positive multiple of 24, `encrypt` does not fail,
and the ciphertext has exactly that length. -/
theorem viper_encryptData_format (p key IV : List Nat) (hk : key.length = 60)
    (hkb : IsBytes key) (hIV : IV.length = 12) (hpb : IsBytes p) :
    encryptData_VIPER1 p key IV = VIPER1.encrypt (headerTmp p) key IV ∧
    headerTmp p = [0xA5, 0x5A, 24 - (p.length + 3) % 24] ++
      List.replicate (24 - (p.length + 3) % 24) 0 ++ p ∧
    1 ≤ 24 - (p.length + 3) % 24 ∧ 24 - (p.length + 3) % 24 ≤ 24 ∧
    (headerTmp p).length = p.length + 3 + (24 - (p.length + 3) % 24) ∧
    0 < p.length + 3 + (24 - (p.length + 3) % 24) ∧
    (p.length + 3 + (24 - (p.length + 3) % 24)) % 24 = 0 ∧
    (encryptData_VIPER1 p key IV).map List.length =
      some (p.length + 3 + (24 - (p.length + 3) % 24)) := by
  have hl := headerTmp_length p
  obtain ⟨c, h1, h2, _⟩ := encrypt_decrypt_aux (headerTmp p) key IV hk hkb hIV
    (by omega) (by omega) (headerTmp_isBytes p hpb)
  refine ⟨rfl, headerTmp_eq p, by omega, by omega, hl, by omega, by omega, ?_⟩
  simp only [encryptData_VIPER1, h1, Option.map_some', h2, hl]

theorem viper_encryptData_format_witness :
    (encryptData_VIPER1 [1, 2, 3] (List.replicate 60 0) (List.replicate 12 0)).map
      List.length = some 24 :=
  (viper_encryptData_format [1, 2, 3] (List.replicate 60 0) (List.replicate 12 0)
    (by simp) (isBytes_replicate_zero 60) (by simp) (by decide)).2.2.2.2.2.2.2

/-- C4: on a ciphertext whose length is a positive multiple of 24 (60-byte key, 12-byte
IV) `VIPER1::decrypt` succeeds, and `decryptData_VIPER1` fails, returning nothing, exactly
when the first two decrypted bytes are not `0xA5, 0x5A`. -/
theorem viper_decryptData_fails_iff (c key IV : List Nat) (hk : key.length = 60)
    (hIV : IV.length = 12) (hc : 0 < c.length) (hc24 : c.length % 24 = 0) :
    (VIPER1.decrypt c key IV).isSome = true ∧
    (decryptData_VIPER1 c key IV = none ↔
      (VIPER1.decrypt c key IV).map (fun t => (t.getD 0 0, t.getD 1 0)) ≠ some (0xA5, 0x5A)) := by
  obtain ⟨t, h1, _, _⟩ := decrypt_total c key IV hk hIV hc hc24
  refine ⟨by rw [h1]; rfl, ?_⟩
  simp only [decryptData_VIPER1, h1, Option.bind_eq_bind, Option.some_bind, Option.map_some',
    ne_eq, Option.some.injEq, Prod.mk.injEq, Option.pure_def]
  by_cases ha : t.getD 0 0 = 0xA5 <;> by_cases hb : t.getD 1 0 = 0x5A <;> simp [ha, hb]


theorem viper_decryptData_fails_iff_witness :
    (VIPER1.decrypt (List.replicate 24 0) (List.replicate 60 0)
      (List.replicate 12 0)).isSome = true :=
  (viper_decryptData_fails_iff (List.replicate 24 0) (List.replicate 60 0)
    (List.replicate 12 0) (by simp) (by simp) (by simp) (by simp)).1


/-! ## KOBRA: the ARX-CBC cipher -/

theorem keyAt_lt (mem : Int → Nat) (key : List Nat) (j : Int) (hk : IsBytes key) :
    KOBRA.Low.keyAt mem key j < 256 := by
  unfold KOBRA.Low.keyAt
  split_ifs
  · exact getD_lt hk _
  · exact Nat.mod_lt _ (by norm_num)

theorem xor_undo (r k n : Nat) (hr : r < 256) :
    (((r ^^^ ((r ^^^ k) ^^^ (r ^^^ n))) % 256) ^^^
      ((((r ^^^ ((r ^^^ k) ^^^ (r ^^^ n))) % 256) ^^^ k) ^^^
        (((r ^^^ ((r ^^^ k) ^^^ (r ^^^ n))) % 256) ^^^ n))) % 256 = r := by
  apply Nat.eq_of_testBit_eq
  intro i
  have h8 : (256 : Nat) = 2 ^ 8 := by norm_num
  simp only [h8, Nat.testBit_mod_two_pow, Nat.testBit_xor]
  by_cases hi : i < 8
  · simp only [hi, decide_True, Bool.true_and]
    cases r.testBit i <;> cases k.testBit i <;> cases n.testBit i <;> rfl
  · have : r.testBit i = false :=
      Nat.testBit_lt_two_pow (Nat.lt_of_lt_of_le hr (by
        rw [h8]; exact Nat.pow_le_pow_right (by norm_num) (by omega)))
    simp [hi, this]

theorem rot3_inv (a : Nat) (ha : a < 256) :
    (((((a >>> 3) ||| (a <<< 5)) % 256) >>> 5) |||
      ((((a >>> 3) ||| (a <<< 5)) % 256) <<< 3)) % 256 = a :=
  rot_inv 3 a a (by norm_num) ha ha

theorem unadd_xor (p x k : Nat) (hp : p < 256) (hk : k < 256) :
    ((((p ^^^ x) % 256 + k) % 256 + 256 - k) ^^^ x) % 256 = p := by
  have h1 : (((p ^^^ x) % 256 + k) % 256 + 256 - k) % 256 = (p ^^^ x) % 256 := by
    have := Nat.mod_lt (p ^^^ x) (by norm_num : 0 < 256)
    omega
  rw [xor_mod256, h1, ← xor_mod256, Nat.xor_assoc, Nat.xor_self, Nat.xor_zero]
  exact Nat.mod_eq_of_lt hp

/-- The loop of `cipherDecrypt` undoes the loop of `cipherEncrypt` from the same chain
byte and key position. -/
theorem decryptLoop_encryptLoop_kobra (mem : Int → Nat) (key : List Nat) (size : Nat)
    (hk : IsBytes key) (ps : List Nat) (hp : IsBytes ps) (x t : Nat) :
    KOBRA.Low.decryptLoop mem key size (KOBRA.Low.encryptLoop mem key size ps x t) x t = ps := by
  induction ps generalizing x t with
  | nil => rfl
  | cons p rest ih =>
    have hp0 : p < 256 := hp p (List.mem_cons_self _ _)
    have hk0 := keyAt_lt mem key t hk
    simp only [KOBRA.Low.encryptLoop, KOBRA.Low.decryptLoop, List.cons.injEq]
    refine ⟨?_, ih (fun b hb => hp b (List.mem_cons_of_mem _ hb)) _ _⟩
    rw [xor_undo _ _ _ (Nat.mod_lt _ (by norm_num)), rot3_inv _ (Nat.mod_lt _ (by norm_num))]
    exact unadd_xor p x _ hp0 hk0

theorem encryptLoop_length (mem : Int → Nat) (key : List Nat) (size : Nat) (ps : List Nat)
    (x t : Nat) : (KOBRA.Low.encryptLoop mem key size ps x t).length = ps.length := by
  induction ps generalizing x t with
  | nil => rfl
  | cons p rest ih => simp only [KOBRA.Low.encryptLoop, List.length_cons, ih]

theorem decryptLoop_length (mem : Int → Nat) (key : List Nat) (size : Nat) (ps : List Nat)
    (x t : Nat) : (KOBRA.Low.decryptLoop mem key size ps x t).length = ps.length := by
  induction ps generalizing x t with
  | nil => rfl
  | cons p rest ih => simp only [KOBRA.Low.decryptLoop, List.length_cons, ih]

theorem encryptLoop_isBytes (mem : Int → Nat) (key : List Nat) (size : Nat) (ps : List Nat)
    (x t : Nat) : IsBytes (KOBRA.Low.encryptLoop mem key size ps x t) := by
  induction ps generalizing x t with
  | nil => intro b hb; simp [KOBRA.Low.encryptLoop] at hb
  | cons p rest ih =>
    intro b hb
    simp only [KOBRA.Low.encryptLoop, List.mem_cons] at hb
    rcases hb with rfl | hb
    · exact Nat.mod_lt _ (by norm_num)
    · exact ih _ _ b hb

theorem keyAt_inside (mem : Int → Nat) (key : List Nat) (j : Int) (h0 : 0 ≤ j)
    (h1 : j < key.length) : KOBRA.Low.keyAt mem key j = key.getD j.toNat 0 := by
  simp only [KOBRA.Low.keyAt, h0, h1, and_self, if_true]

theorem keyAt_outside (mem : Int → Nat) (key : List Nat) :
    KOBRA.Low.keyAt mem key (key.length : Int) = mem key.length % 256 := by
  simp only [KOBRA.Low.keyAt, lt_self_iff_false, and_false, if_false]

theorem nextIndex_lt (size t : Nat) (h0 : 0 < size) (hs : size < 65536) (ht : t < size) :
    KOBRA.Low.nextIndex size t < size := by
  unfold KOBRA.Low.nextIndex
  split_ifs with h
  · exact h0
  · have : t + 1 < size := by omega
    rw [Nat.mod_eq_of_lt (by omega)]; exact this

/-- Two memories that hold the same byte one past the key give the same byte at every
index from 0 to the size of the key. -/
theorem keyAt_same_stray (mem mem2 : Int → Nat) (key : List Nat)
    (hs : mem key.length % 256 = mem2 key.length % 256) (j : Int) (h0 : 0 ≤ j)
    (h1 : j ≤ key.length) : KOBRA.Low.keyAt mem key j = KOBRA.Low.keyAt mem2 key j := by
  by_cases hj : j < key.length
  · rw [keyAt_inside mem key j h0 hj, keyAt_inside mem2 key j h0 hj]
  · have e : j = (key.length : Int) := by omega
    rw [e, keyAt_outside, keyAt_outside, hs]

/-- For a key whose size fits the `unsigned short`, the loop of `cipherEncrypt` depends on
the memory around the key only through the byte one past the key. -/
theorem encryptLoop_same_stray (mem mem2 : Int → Nat) (key : List Nat)
    (h2 : key.length < 65536) (hs : mem key.length % 256 = mem2 key.length % 256)
    (xs : List Nat) (x t : Nat) (ht : t < key.length) :
    KOBRA.Low.encryptLoop mem key key.length xs x t =
      KOBRA.Low.encryptLoop mem2 key key.length xs x t := by
  induction xs generalizing x t with
  | nil => rfl
  | cons p rest ih =>
    have e1 := keyAt_same_stray mem mem2 key hs (t : Int) (by omega) (by omega)
    have e2 := keyAt_same_stray mem mem2 key hs ((key.length : Int) - (t : Int)) (by omega)
      (by omega)
    simp only [KOBRA.Low.encryptLoop, e1, e2, List.cons.injEq, true_and]
    exact ih _ _ (nextIndex_lt key.length t (by omega) h2 ht)

theorem decryptLoop_same_stray (mem mem2 : Int → Nat) (key : List Nat)
    (h2 : key.length < 65536) (hs : mem key.length % 256 = mem2 key.length % 256)
    (xs : List Nat) (x t : Nat) (ht : t < key.length) :
    KOBRA.Low.decryptLoop mem key key.length xs x t =
      KOBRA.Low.decryptLoop mem2 key key.length xs x t := by
  induction xs generalizing x t with
  | nil => rfl
  | cons p rest ih =>
    have e1 := keyAt_same_stray mem mem2 key hs (t : Int) (by omega) (by omega)
    have e2 := keyAt_same_stray mem mem2 key hs ((key.length : Int) - (t : Int)) (by omega)
      (by omega)
    simp only [KOBRA.Low.decryptLoop, e1, e2, List.cons.injEq, true_and]
    exact ih _ _ (nextIndex_lt key.length t (by omega) h2 ht)

/-- Two calls of `cipherEncrypt` on the same arguments return the same vector when their
copies of the key, of fewer than 65536 bytes, are followed by the same byte. -/
theorem cipherEncrypt_same_stray (mem mem2 : Int → Nat) (text key : List Nat) (IV : Nat)
    (h2 : key.length < 65536) (hs : mem key.length % 256 = mem2 key.length % 256) :
    KOBRA.Low.cipherEncrypt mem text key IV = KOBRA.Low.cipherEncrypt mem2 text key IV := by
  unfold KOBRA.Low.cipherEncrypt
  split_ifs with h12 hl
  · rfl
  · rfl
  · rw [Nat.mod_eq_of_lt h2, encryptLoop_same_stray mem mem2 key h2 hs text IV 0 (by omega)]

theorem cipherDecrypt_same_stray (mem mem2 : Int → Nat) (text key : List Nat) (IV : Nat)
    (h2 : key.length < 65536) (hs : mem key.length % 256 = mem2 key.length % 256) :
    KOBRA.Low.cipherDecrypt mem text key IV = KOBRA.Low.cipherDecrypt mem2 text key IV := by
  unfold KOBRA.Low.cipherDecrypt
  split_ifs with h12 hl
  · rfl
  · rfl
  · rw [Nat.mod_eq_of_lt h2, decryptLoop_same_stray mem mem2 key h2 hs text IV 0 (by omega)]

/-- The round trip of the cipher when the two calls find the same byte one past their
copies of the key: for every byte vector `p`, every key with `12 ≤ |key| ≤ |p|` and
`|key| < 65536` and every IV, `cipherDecrypt(cipherEncrypt(p, key, IV), key, IV) = p`. -/
theorem cipher_round_trip_same_stray (mem1 mem2 : Int → Nat) (p key : List Nat) (IV : Nat)
    (hk12 : 12 ≤ key.length) (hkp : key.length ≤ p.length) (h2 : key.length < 65536)
    (hkb : IsBytes key) (hpb : IsBytes p)
    (hs : mem1 key.length % 256 = mem2 key.length % 256) :
    (KOBRA.Low.cipherEncrypt mem1 p key IV).bind
      (fun c => KOBRA.Low.cipherDecrypt mem2 c key IV) = some p := by
  have h1 : ¬ key.length < 12 := by omega
  have h3 : ¬ p.length < key.length := by omega
  have e : ∀ c, KOBRA.Low.cipherDecrypt mem2 c key IV = KOBRA.Low.cipherDecrypt mem1 c key IV :=
    fun c => cipherDecrypt_same_stray mem2 mem1 c key IV h2 hs.symm
  simp only [e]
  simp only [KOBRA.Low.cipherEncrypt, KOBRA.Low.cipherDecrypt, h1, h3, if_false,
    Option.some_bind, encryptLoop_length, decryptLoop_encryptLoop_kobra mem1 key _ hkb p hpb]

/-- With a key of 65536 bytes the `unsigned short size` holds 0: `tempIndex` runs through
all the values of an `unsigned short`, and for `tempIndex` from 1 to 65535 the byte read as
`key[size - tempIndex]` lies before the key, at the index `-tempIndex`. -/
theorem wrapped_key_reads_before (mem : Int → Nat) (key : List Nat)
    (hk : key.length = 65536) (t : Nat) (h1 : 1 ≤ t) :
    key.length % 65536 = 0 ∧
      KOBRA.Low.nextIndex (key.length % 65536) t = (t + 1) % 65536 ∧
      KOBRA.Low.keyAt mem key (((key.length % 65536 : Nat) : Int) - (t : Int)) =
        mem (-(t : Int)) % 256 := by
  have hm : key.length % 65536 = 0 := by rw [hk]
  rw [hm]
  refine ⟨rfl, ?_, ?_⟩
  · unfold KOBRA.Low.nextIndex
    have hne : ¬ ((t : Nat) : Int) = ((0 : Nat) : Int) - 1 := by omega
    rw [if_neg hne]
  · have hneg : ¬ (0 ≤ ((0 : Nat) : Int) - (t : Int) ∧
        ((0 : Nat) : Int) - (t : Int) < (key.length : Int)) := by omega
    have e : ((0 : Nat) : Int) - (t : Int) = -(t : Int) := by omega
    unfold KOBRA.Low.keyAt
    rw [if_neg hneg, e]

/-- C8 fails on the code: `cipherEncrypt` and `cipherDecrypt` each read `key[size]`, one
past the end of their own copy of the key, at `tempIndex` 0.  With 12 zero bytes as text and
as key and IV 0, a byte 0 behind the key in `cipherEncrypt` and a byte 1 behind the key in
`cipherDecrypt`, the round trip returns `8` as its first byte and not `0`. -/
theorem kobra_cipher_round_trip_stray_byte :
    KOBRA.Low.cipherEncrypt (fun _ => 0) [0, 0, 0, 0, 0, 0, 0, 0, 0, 0, 0, 0]
        [0, 0, 0, 0, 0, 0, 0, 0, 0, 0, 0, 0] 0 =
      some [255, 16, 254, 16, 254, 16, 254, 16, 254, 16, 254, 16] ∧
    KOBRA.Low.cipherDecrypt (fun _ => 1) [255, 16, 254, 16, 254, 16, 254, 16, 254, 16, 254, 16]
        [0, 0, 0, 0, 0, 0, 0, 0, 0, 0, 0, 0] 0 =
      some [8, 0, 0, 0, 0, 0, 0, 0, 0, 0, 0, 0] ∧
    KOBRA.Low.cipherDecrypt (fun _ => 0) [255, 16, 254, 16, 254, 16, 254, 16, 254, 16, 254, 16]
        [0, 0, 0, 0, 0, 0, 0, 0, 0, 0, 0, 0] 0 =
      some [0, 0, 0, 0, 0, 0, 0, 0, 0, 0, 0, 0] := by
  decide

/-- C10: `cipherEncrypt` and `cipherDecrypt` fail exactly when the key has fewer than 12
bytes or more bytes than the text; otherwise each returns a vector as long as the text. -/
theorem kobra_cipher_fails_iff (mem : Int → Nat) (t key : List Nat) (IV : Nat) :
    if key.length < 12 ∨ t.length < key.length then
      KOBRA.Low.cipherEncrypt mem t key IV = none ∧ KOBRA.Low.cipherDecrypt mem t key IV = none
    else
      (KOBRA.Low.cipherEncrypt mem t key IV).map List.length = some t.length ∧
      (KOBRA.Low.cipherDecrypt mem t key IV).map List.length = some t.length := by
  by_cases h1 : key.length < 12
  · simp [KOBRA.Low.cipherEncrypt, KOBRA.Low.cipherDecrypt, h1]
  · by_cases h2 : t.length < key.length
    · simp [KOBRA.Low.cipherEncrypt, KOBRA.Low.cipherDecrypt, h1, h2]
    · simp [KOBRA.Low.cipherEncrypt, KOBRA.Low.cipherDecrypt, h1, h2, encryptLoop_length,
        decryptLoop_length]


/-! ## KOBRA: `encryptFrom` and `decryptFrom` -/

theorem takeLoop_eq (SIZE : Nat) (l : List Nat) (CNT : Nat) (hS : SIZE < 65536)
    (h : CNT ≤ SIZE) : KOBRA.takeLoop SIZE l CNT = l.take (SIZE - CNT) := by
  induction l generalizing CNT with
  | nil => simp [KOBRA.takeLoop]
  | cons i rest ih =>
    by_cases he : CNT = SIZE
    · subst he
      simp [KOBRA.takeLoop]
    · have hm : (CNT + 1) % 65536 = CNT + 1 := Nat.mod_eq_of_lt (by omega)
      have hsub : SIZE - CNT = (SIZE - (CNT + 1)) + 1 := by omega
      simp only [KOBRA.takeLoop, he, if_false, hm, ih (CNT + 1) (by omega)]
      rw [hsub, List.take_succ_cons]

/-- Two calls of `decryptFrom` on the same arguments return the same message when the
copies of the key, of fewer than 65536 bytes, are followed by the same byte in their two
calls of `cipherEncrypt` and by the same byte in their two calls of `cipherDecrypt`. -/
theorem decryptFrom_same_stray (memA memB memC memD : Int → Nat) (cover : List Nat)
    (kp : KOBRA.keyPair) (h2 : kp.EncryptKey.length < 65536)
    (hAC : memA kp.EncryptKey.length % 256 = memC kp.EncryptKey.length % 256)
    (hBD : memB kp.EncryptKey.length % 256 = memD kp.EncryptKey.length % 256) :
    KOBRA.decryptFrom memC memD cover kp = KOBRA.decryptFrom memA memB cover kp := by
  simp only [KOBRA.decryptFrom,
    cipherEncrypt_same_stray memC memA cover kp.EncryptKey kp.IV h2 hAC.symm,
    cipherDecrypt_same_stray memD memB kp.ExtractKey kp.EncryptKey kp.IV h2 hBD.symm]

theorem xorLoop_length (s : List Nat) (sSize : Nat) (l : List Nat) (second : Nat) :
    (KOBRA.Low.xorLoop s sSize l second).length = l.length := by
  induction l generalizing second with
  | nil => rfl
  | cons i rest ih =>
    unfold KOBRA.Low.xorLoop
    split_ifs <;> simp only [List.length_cons, ih]

/-- What `encryptFrom` returns as far as lengths go: it succeeds whenever the key has at
least 12 bytes, fits the cover and fits the first `|hidden| mod 65536` bytes, and the
ExtractKey then has `|hidden| mod 65536` bytes (`SIZE` is an `unsigned short`). -/
theorem encryptFrom_lengths (mem mem2 : Int → Nat) (cover key hidden : List Nat) (IV : Nat)
    (hk12 : 12 ≤ key.length) (hkc : key.length ≤ cover.length)
    (hhc : hidden.length ≤ cover.length) (hks : key.length ≤ hidden.length % 65536) :
    (KOBRA.encryptFrom mem mem2 cover key hidden IV).map
      (fun kp => (kp.EncryptKey, kp.ExtractKey.length, kp.IV)) =
      some (key, hidden.length % 65536, IV) := by
  have h1 : ¬ key.length < 12 := by omega
  have h2 : ¬ cover.length < key.length := by omega
  have hx : (KOBRA.Low.XORbyte hidden IV).length = hidden.length := by
    simp [KOBRA.Low.XORbyte]
  have h3 : ¬ cover.length < hidden.length := by omega
  have hlt : hidden.length % 65536 < 65536 := Nat.mod_lt _ (by norm_num)
  have hle : hidden.length % 65536 ≤ hidden.length := Nat.mod_le _ _
  have htl : ∀ l : List Nat, l.length = cover.length →
      (KOBRA.takeLoop (hidden.length % 65536) l 0).length = hidden.length % 65536 := by
    intro l hl
    rw [takeLoop_eq _ _ 0 hlt (Nat.zero_le _), List.length_take, hl]
    omega
  have h4 := htl (KOBRA.Low.xorLoop (KOBRA.Low.XORbyte hidden IV) (hidden.length % 65536)
    (KOBRA.Low.encryptLoop mem key (key.length % 65536) cover IV 0) 0)
    (by rw [xorLoop_length, encryptLoop_length])
  have h5 : ¬ hidden.length % 65536 < key.length := by omega
  simp only [KOBRA.encryptFrom, KOBRA.Low.cipherEncrypt, h1, h2, if_false,
    Option.bind_eq_bind, Option.some_bind, KOBRA.Low.XOR, encryptLoop_length, hx, h3, h4, h5,
    Option.pure_def, Option.map_some']

/-- C9 fails on the code: for a hidden message of 65548 bytes (cover of the same length,
12-byte key) `encryptFrom` succeeds and returns an ExtractKey of 12 bytes, because the
`unsigned short SIZE` holds `65548 mod 65536 = 12`. -/
theorem kobra_extractKey_truncated (mem1 mem2 : Int → Nat) :
    (KOBRA.encryptFrom mem1 mem2 (List.replicate 65548 0) (List.replicate 12 0)
      (List.replicate 65548 0) 0).map
      (fun kp => (kp.EncryptKey, kp.ExtractKey.length, kp.IV)) =
      some (List.replicate 12 0, 12, 0) := by
  have h := encryptFrom_lengths mem1 mem2 (List.replicate 65548 0) (List.replicate 12 0)
    (List.replicate 65548 0) 0 (by simp only [List.length_replicate]; norm_num)
    (by simp only [List.length_replicate]; norm_num)
    (by simp only [List.length_replicate]; norm_num)
    (by simp only [List.length_replicate]; norm_num)
  simp only [List.length_replicate] at h
  exact h


/-! ## NACHA: lengths of the stages -/


theorem cyclicPad_length (pad : List Nat) (cnt : Nat) :
    (NACHA.low.cyclicPad pad cnt).length = cnt := by
  simp [NACHA.low.cyclicPad]

theorem flatMap_length_const {α : Type} (l : List α) (f : α → List Nat) (k : Nat)
    (h : ∀ x, (f x).length = k) : (l.flatMap f).length = l.length * k := by
  induction l with
  | nil => simp
  | cons x l ih =>
    simp only [List.flatMap_cons, List.length_append, h, ih, List.length_cons]
    ring

theorem permuteA_body_length (tmp : List Nat) (h8 : tmp.length % 8 = 0)
    (hpos : 0 < tmp.length) :
    (NACHA.low.permuteA_body tmp).length = 2 * tmp.length - 1 := by
  have hc : ∀ c, (NACHA.low.permuteA_chunk tmp ((c * 8) % 256)).length = 8 := by
    intro c; simp [NACHA.low.permuteA_chunk]
  simp only [NACHA.low.permuteA_body, List.length_append, List.length_map, List.length_range,
    flatMap_length_const _ _ 8 hc]
  omega

theorem permuteA_eq (v : List Nat) :
    NACHA.low.permuteA v = .ok (NACHA.low.permuteA_body
      (v ++ NACHA.low.cyclicPad [0xDE, 0xAD, 0xBE, 0xEF] (8 - v.length % 8))) := by
  have hU : 8 - v.length % 8 > 0 := by omega
  have hm : (8 - v.length % 8) % 256 = 8 - v.length % 8 := by omega
  simp only [NACHA.low.permuteA, hm, hU, if_true]

theorem permuteA_ok (v : List Nat) :
    ∃ r, NACHA.low.permuteA v = .ok r ∧ r.length = NACHA.lenA v.length := by
  refine ⟨_, permuteA_eq v, ?_⟩
  rw [permuteA_body_length]
  · simp only [List.length_append, cyclicPad_length, NACHA.lenA, NACHA.pad8]
  · simp only [List.length_append, cyclicPad_length]; omega
  · simp only [List.length_append, cyclicPad_length]; omega

theorem permuteB_body_length (tmp : List Nat) (h8 : tmp.length % 8 = 0) :
    (NACHA.low.permuteB_body tmp).length = tmp.length := by
  have hc : ∀ c, (NACHA.low.permuteB_chunk tmp ((c * 8) % 256)).length = 8 := by
    intro c; simp [NACHA.low.permuteB_chunk]
  simp only [NACHA.low.permuteB_body, List.length_range, flatMap_length_const _ _ 8 hc]
  omega

theorem permuteB_eq (v : List Nat) :
    NACHA.low.permuteB v = .ok (NACHA.low.permuteB_body
      (v ++ NACHA.low.cyclicPad [0xFE, 0xED, 0xC0, 0xDE] (8 - v.length % 8))) := by
  have hU : 8 - v.length % 8 > 0 := by omega
  have hm : (8 - v.length % 8) % 256 = 8 - v.length % 8 := by omega
  simp only [NACHA.low.permuteB, hm, hU, if_true]

theorem permuteB_ok (v : List Nat) :
    ∃ r, NACHA.low.permuteB v = .ok r ∧ r.length = NACHA.lenB v.length := by
  refine ⟨_, permuteB_eq v, ?_⟩
  rw [permuteB_body_length]
  · simp only [List.length_append, cyclicPad_length, NACHA.lenB, NACHA.pad8]
  · simp only [List.length_append, cyclicPad_length]; omega

theorem permuteC_body_length (p : List Nat) (h : p.length % 2 = 0) :
    (NACHA.low.permuteC_body p).length = p.length / 2 := by
  have h1 : ¬ p.length % 2 = 1 := by omega
  simp only [NACHA.low.permuteC_body, h1, if_false, List.length_map, List.length_range]

theorem permuteC_ok (v : List Nat) :
    ∃ r, NACHA.low.permuteC v = .ok r ∧ r.length = NACHA.lenC v.length := by
  obtain ⟨p, hp, hl⟩ := permuteB_ok v
  refine ⟨NACHA.low.permuteC_body p, by simp only [NACHA.low.permuteC, hp], ?_⟩
  rw [permuteC_body_length p (by rw [hl]; simp only [NACHA.lenB, NACHA.pad8]; omega), hl]
  rfl

theorem mix_length (v : List Nat) (form : Bool) :
    (NACHA.low.mix v form).length = NACHA.lenMix v.length := by
  have hU : 5 - v.length % 5 > 0 := by omega
  have hm : (5 - v.length % 5) % 256 = 5 - v.length % 5 := by omega
  simp only [NACHA.low.mix, hm, hU, if_true, NACHA.low.mix_body, List.length_map,
    List.length_range, List.length_append, cyclicPad_length, NACHA.lenMix]


theorem splitLoop_zero (l cur : List Nat) : NACHA.splitLoop 0 l cur = [] := by
  induction l generalizing cur with
  | nil => rfl
  | cons i rest ih =>
    have h : ¬ (cur ++ [i]).length = 0 := by simp
    simp only [NACHA.splitLoop, h, if_false, ih]

theorem splitLoop_spec (blocks : Nat) (hb : 0 < blocks) (l cur : List Nat)
    (hc : cur.length < blocks) :
    (NACHA.splitLoop blocks l cur).length = (cur.length + l.length) / blocks ∧
      ∀ g ∈ NACHA.splitLoop blocks l cur, g.length = blocks := by
  induction l generalizing cur with
  | nil =>
    simp only [NACHA.splitLoop, List.length_nil, Nat.add_zero, List.not_mem_nil, false_imp_iff,
      implies_true, and_true]
    exact (Nat.div_eq_of_lt hc).symm
  | cons i rest ih =>
    have hlen : (cur ++ [i]).length = cur.length + 1 := by simp
    by_cases h : cur.length + 1 = blocks
    · obtain ⟨ih1, ih2⟩ := ih [] (by simpa using hb)
      simp only [NACHA.splitLoop, hlen, h, if_true, List.length_cons, ih1, List.length_nil,
        Nat.zero_add, List.mem_cons]
      constructor
      · have e : cur.length + (rest.length + 1) = rest.length + blocks := by omega
        rw [e, Nat.add_div_right _ hb]
      · rintro g (rfl | hg)
        · rw [hlen, h]
        · exact ih2 g hg
    · obtain ⟨ih1, ih2⟩ := ih (cur ++ [i]) (by omega)
      simp only [NACHA.splitLoop, hlen, h, if_false, ih1, List.length_cons]
      exact ⟨by rw [Nat.add_assoc, Nat.add_comm 1], ih2⟩

/-- What `split` returns for a group count in `1 .. 255` and a non-empty padding:
`splitCount` groups of `splitBlocks` bytes each. -/
theorem split_ok (v : List Nat) (osize : Nat) (padding : List Nat) (h1 : 1 ≤ osize)
    (h2 : osize ≤ 255) (hp : padding ≠ []) :
    ∃ gs, NACHA.split v osize padding = .ok gs ∧
      gs.length = NACHA.splitCount v.length osize ∧
      ∀ g ∈ gs, g.length = NACHA.splitBlocks v.length osize := by
  have h0 : ¬ osize = 0 := by omega
  have hml := Nat.mod_lt v.length (by omega : 0 < osize)
  have hm : (osize - v.length % osize) % 256 = osize - v.length % osize := by omega
  have hU : osize - v.length % osize > 0 := by omega
  have hpl : ¬ padding.length = 0 := fun h => hp (List.length_eq_zero.mp h)
  have e : NACHA.split v osize padding = .ok (NACHA.splitLoop
      (NACHA.splitBlocks v.length osize)
      (v ++ NACHA.low.cyclicPad padding (osize - v.length % osize)) []) := by
    simp only [NACHA.split, h0, if_false, hm, hU, hpl, and_false, if_true, List.length_append,
      cyclicPad_length, NACHA.splitBlocks]
  refine ⟨_, e, ?_, ?_⟩
  · by_cases hb : NACHA.splitBlocks v.length osize = 0
    · simp only [NACHA.splitCount, hb, if_true, splitLoop_zero, List.length_nil]
    · have := (splitLoop_spec _ (Nat.pos_of_ne_zero hb)
        (v ++ NACHA.low.cyclicPad padding (osize - v.length % osize)) []
        (by simpa using Nat.pos_of_ne_zero hb)).1
      simp only [NACHA.splitCount, hb, if_false, this, List.length_nil, Nat.zero_add,
        List.length_append, cyclicPad_length]
  · by_cases hb : NACHA.splitBlocks v.length osize = 0
    · simp only [hb, splitLoop_zero, List.not_mem_nil, false_imp_iff, implies_true]
    · exact (splitLoop_spec _ (Nat.pos_of_ne_zero hb) _ []
        (by simpa using Nat.pos_of_ne_zero hb)).2

theorem toggled_succ (n : Nat) (t0 : Bool) :
    NACHA.toggled (n + 1) t0 = (if t0 then 1 else 0) + NACHA.toggled n (!t0) := by
  cases t0 <;> simp only [NACHA.toggled, Bool.not_true, Bool.not_false, if_true, if_false,
    Bool.false_eq_true] <;> omega

/-- Length of one fused group loop when all groups have the same length. -/
theorem phase_ok (f g : List Nat → Except NACHA.Err (List Nat)) (g0 F G : Nat)
    (hf : ∀ x : List Nat, x.length = g0 → ∃ r, f x = .ok r ∧ r.length = F)
    (hg : ∀ x : List Nat, x.length = g0 → ∃ r, g x = .ok r ∧ r.length = G)
    (gs : List (List Nat)) (hgs : ∀ x ∈ gs, x.length = g0) (t0 : Bool) :
    ∃ r, NACHA.phase f g gs t0 = .ok r ∧
      r.length = gs.length * F + NACHA.toggled gs.length t0 * G := by
  induction gs generalizing t0 with
  | nil => exact ⟨[], rfl, by simp [NACHA.toggled]⟩
  | cons x gs ih =>
    have hx := hgs x (List.mem_cons_self _ _)
    obtain ⟨a, ha, hal⟩ := hf x hx
    obtain ⟨b, hb, hbl⟩ := hg x hx
    obtain ⟨r, hr, hrl⟩ := ih (fun y hy => hgs y (List.mem_cons_of_mem _ hy)) (!t0)
    cases t0 with
    | true =>
      refine ⟨a ++ b ++ r, by simp only [NACHA.phase, ha, hb, hr, if_true], ?_⟩
      simp only [List.length_append, hal, hbl, hrl, List.length_cons, toggled_succ, if_true]
      ring
    | false =>
      simp only [Bool.not_false] at hr hrl
      refine ⟨a ++ [] ++ r, by
        simp only [NACHA.phase, ha, hr, Bool.false_eq_true, if_false, Bool.not_false], ?_⟩
      simp only [List.length_append, hal, hrl, List.length_cons, toggled_succ, List.length_nil,
        Bool.false_eq_true, if_false, Bool.not_false]
      ring

/-- One group loop of `hash` applied to `split` of `v`. -/
theorem split_phase_ok (f g : List Nat → Except NACHA.Err (List Nat)) (F G : Nat → Nat)
    (hf : ∀ x : List Nat, ∃ r, f x = .ok r ∧ r.length = F x.length)
    (hg : ∀ x : List Nat, ∃ r, g x = .ok r ∧ r.length = G x.length)
    (v : List Nat) (osize : Nat) (h1 : 1 ≤ osize) (h2 : osize ≤ 255) (t0 : Bool) :
    ∃ gs r, NACHA.split v osize NACHA.defaultPadding = .ok gs ∧
      NACHA.phase f g gs t0 = .ok r ∧ r.length = NACHA.phaseLen v.length osize F G t0 := by
  obtain ⟨gs, hgs, hc, hl⟩ := split_ok v osize NACHA.defaultPadding h1 h2 (by
    simp [NACHA.defaultPadding])
  obtain ⟨r, hr, hrl⟩ := phase_ok f g (NACHA.splitBlocks v.length osize)
    (F (NACHA.splitBlocks v.length osize)) (G (NACHA.splitBlocks v.length osize))
    (fun x hx => by rw [← hx]; exact hf x) (fun x hx => by rw [← hx]; exact hg x) gs hl t0
  exact ⟨gs, r, hgs, hr, by rw [hrl, hc]; rfl⟩

theorem pushMixC_ok (x : List Nat) :
    ∃ r, NACHA.pushMixC x = .ok r ∧ r.length = NACHA.lenMix x.length + NACHA.lenC x.length := by
  obtain ⟨c, hc, hcl⟩ := permuteC_ok x
  exact ⟨NACHA.low.mix x true ++ c, by simp only [NACHA.pushMixC, hc], by
    rw [List.length_append, mix_length, hcl]⟩

theorem pushMixA_ok (x : List Nat) :
    ∃ r, NACHA.pushMixA x = .ok r ∧
      r.length = NACHA.lenMix x.length + NACHA.lenA (NACHA.lenMix x.length) := by
  obtain ⟨a, ha, hal⟩ := permuteA_ok (NACHA.low.mix x true)
  exact ⟨NACHA.low.mix x false ++ a, by simp only [NACHA.pushMixA, ha], by
    rw [List.length_append, mix_length, hal, mix_length]⟩

theorem mixC0_ok (x : List Nat) :
    ∃ r, NACHA.mixC0 x = .ok r ∧ r.length = NACHA.lenMix (NACHA.lenC x.length) := by
  obtain ⟨c, hc, hcl⟩ := permuteC_ok x
  exact ⟨NACHA.low.mix c false, by simp only [NACHA.mixC0, hc], by rw [mix_length, hcl]⟩

theorem permuteAmix_ok (x : List Nat) :
    ∃ r, NACHA.permuteAmix x = .ok r ∧ r.length = NACHA.lenA (NACHA.lenMix x.length) := by
  obtain ⟨a, ha, hal⟩ := permuteA_ok (NACHA.low.mix x true)
  exact ⟨a, ha, by rw [hal, mix_length]⟩

theorem mixB1_ok (x : List Nat) :
    ∃ r, NACHA.mixB1 x = .ok r ∧ r.length = NACHA.lenMix (NACHA.lenB x.length) := by
  obtain ⟨b, hb, hbl⟩ := permuteB_ok x
  exact ⟨NACHA.low.mix b true, by simp only [NACHA.mixB1, hb], by rw [mix_length, hbl]⟩

/-- `hashTemp` never fails for denominators in `1 .. 255`, and the length of its result
is `hashTempLen` of the input length. -/
theorem hashTemp_ok (inp : List Nat) (blkA blkB : Nat) (hA1 : 1 ≤ blkA) (hA2 : blkA ≤ 255)
    (hB1 : 1 ≤ blkB) (hB2 : blkB ≤ 255) :
    ∃ t, NACHA.hashTemp inp blkA blkB = .ok t ∧
      t.length = NACHA.hashTempLen inp.length blkA blkB := by
  obtain ⟨c1, n1, hc1, hn1, hl1⟩ := split_phase_ok NACHA.low.permuteA NACHA.pushMixC
    NACHA.lenA (fun g => NACHA.lenMix g + NACHA.lenC g) permuteA_ok pushMixC_ok
    inp blkB hB1 hB2 false
  obtain ⟨c2, n2, hc2, hn2, hl2⟩ := split_phase_ok NACHA.low.permuteC NACHA.pushMixA
    NACHA.lenC (fun g => NACHA.lenMix g + NACHA.lenA (NACHA.lenMix g)) permuteC_ok
    pushMixA_ok (n1 ++ NACHA.low.mix inp true) blkA hA1 hA2 true
  obtain ⟨c3, n3, hc3, hn3, hl3⟩ := split_phase_ok NACHA.mixC0 NACHA.permuteAmix
    (fun g => NACHA.lenMix (NACHA.lenC g)) (fun g => NACHA.lenA (NACHA.lenMix g))
    mixC0_ok permuteAmix_ok inp blkB hB1 hB2 false
  obtain ⟨c4, n4, hc4, hn4, hl4⟩ := split_phase_ok NACHA.mixB1 NACHA.low.permuteC
    (fun g => NACHA.lenMix (NACHA.lenB g)) NACHA.lenC mixB1_ok permuteC_ok
    (n2 ++ n3) blkA hA1 hA2 true
  obtain ⟨c5, n5, hc5, hn5, hl5⟩ := split_phase_ok NACHA.mixC0 NACHA.low.permuteA
    (fun g => NACHA.lenMix (NACHA.lenC g)) NACHA.lenA mixC0_ok permuteA_ok
    (n4 ++ inp) blkB hB1 hB2 false
  have e31 : c3 = c1 := (Except.ok.inj (hc1.symm.trans hc3)).symm
  subst e31
  refine ⟨NACHA.low.mix n5 true, ?_, ?_⟩
  · simp only [NACHA.hashTemp, hc1, hn1, hc2, hn2, hn3, hc4, hn4, hc5, hn5]
  · simp only [List.length_append, mix_length] at hl2 hl4 hl5
    rw [mix_length, hl5, hl4, hl3, hl2, hl1]
    rfl


/-! ## NACHA: the compression and `intertwine` -/

theorem compressLoop_length (ratio : Nat) (hr : 0 < ratio) (l cur : List Nat) (tg : Bool)
    (lx : Nat) (hc : cur.length < ratio) :
    (NACHA.compressLoop ratio l cur tg lx).1.length = (cur.length + l.length) / ratio := by
  induction l generalizing cur tg lx with
  | nil =>
    simp only [NACHA.compressLoop, List.length_nil, Nat.add_zero]
    exact (Nat.div_eq_of_lt hc).symm
  | cons x rest ih =>
    have hlen : ∀ v : Nat, (cur ++ [v]).length = cur.length + 1 := fun v => by simp
    by_cases h : cur.length + 1 = ratio
    · simp only [NACHA.compressLoop, hlen, h, if_true, List.length_cons,
        ih [] (!tg) _ (by simpa using hr), List.length_nil, Nat.zero_add]
      have e : cur.length + (rest.length + 1) = rest.length + ratio := by omega
      rw [e, Nat.add_div_right _ hr]
    · simp only [NACHA.compressLoop, hlen, h, if_false, List.length_cons]
      rw [ih _ (!tg) lx (by rw [hlen]; omega), hlen]
      congr 1
      omega

theorem reduceInd_some (capac : Nat) (h2 : 2 ≤ capac) (ind : Nat) :
    ∃ r, NACHA.low.reduceInd capac ind = some r ∧ r < capac := by
  induction ind using Nat.strong_induction_on with
  | _ ind ih =>
    rw [NACHA.low.reduceInd]
    by_cases h : ind < capac
    · exact ⟨ind, by simp only [h, dif_pos], h⟩
    · have hh : ¬ capac / 2 = 0 := by omega
      simp only [h, dif_neg, hh, not_false_eq_true]
      exact ih (ind - capac / 2) (by omega)

theorem mapM_ok {α : Type} (f : α → Except NACHA.Err Nat) (l : List α)
    (h : ∀ i ∈ l, ∃ v, f i = .ok v) : ∃ d, l.mapM f = .ok d ∧ d.length = l.length := by
  induction l with
  | nil => exact ⟨[], rfl, rfl⟩
  | cons a l ih =>
    obtain ⟨v, hv⟩ := h a (List.mem_cons_self _ _)
    obtain ⟨d, hd, hdl⟩ := ih (fun i hi => h i (List.mem_cons_of_mem _ hi))
    refine ⟨v :: d, ?_, by simp [hdl]⟩
    rw [List.mapM_cons, hv, hd]
    rfl

/-- `intertwine` returns `capac` bytes when both arguments have `capac ≥ 2` bytes. -/
theorem intertwine_ok (InA InB : List Nat) (capac : Nat) (h2 : 2 ≤ capac)
    (hA : InA.length = capac) (hB : InB.length = capac) :
    ∃ d, NACHA.low.intertwine InA InB capac = .ok d ∧ d.length = capac := by
  simp only [NACHA.low.intertwine, hA, hB, ne_eq, not_true_eq_false, if_false]
  have := mapM_ok (fun i =>
      match NACHA.low.reduceInd capac
          ((i + (InA.getD i 0 ^^^ InB.getD ((capac - 1) - i) 0)) % 65536) with
      | none => Except.error NACHA.Err.undefined
      | some ind =>
        Except.ok ((InA.getD i 0 ^^^ InB.getD ((capac - 1) - i) 0 ^^^
          InA.getD ((capac - 1) - ind) 0 ^^^
          ((InA.getD i 0 * InB.getD ((capac - 1) - i) 0 +
            (InA.getD ((capac - 1) - ind) 0 ^^^ InB.getD ind 0)) % 256) ^^^
          bnot ((((InA.getD i 0 * InB.getD ((capac - 1) - i) 0 +
            (InA.getD ((capac - 1) - ind) 0 ^^^ InB.getD ind 0)) % 256) <<< 4) ^^^
            (InB.getD ind 0 >>> 4))) % 256))
    (List.range capac) (fun i _ => by
      obtain ⟨r, hr, _⟩ := reduceInd_some capac h2
        ((i + (InA.getD i 0 ^^^ InB.getD ((capac - 1) - i) 0)) % 65536)
      simp only [hr]
      exact ⟨_, rfl⟩)
  simpa using this

theorem intertwine_throws (InA InB : List Nat) (capac : Nat) (hA : InA.length ≠ capac) :
    NACHA.low.intertwine InA InB capac = .error .invalid_argument := by
  simp only [NACHA.low.intertwine, hA, ne_eq, not_false_eq_true, if_true]

/-- The compression returns `capac` bytes when the row length `ratio` fits the
`unsigned short` that holds it. -/
theorem compress_ok (t : List Nat) (capac : Nat) (h2 : 2 ≤ capac) (hc : capac < 65536)
    (hr : (t.length + (capac - t.length % capac)) / capac < 65536) :
    ∃ d, NACHA.compress t capac = .ok d ∧ d.length = capac := by
  have h0 : ¬ capac = 0 := by omega
  have hml := Nat.mod_lt t.length (by omega : 0 < capac)
  have hadd : (capac - t.length % capac) % 65536 = capac - t.length % capac := by omega
  have hdvd : capac ∣ t.length + (capac - t.length % capac) := by
    have h := Nat.div_add_mod t.length capac
    refine ⟨t.length / capac + 1, ?_⟩
    rw [Nat.mul_add, Nat.mul_one]
    omega
  obtain ⟨q, hq⟩ := hdvd
  have hq1 : 1 ≤ q := by
    rcases Nat.eq_zero_or_pos q with h | h
    · subst h; omega
    · exact h
  have hdiv : (t.length + (capac - t.length % capac)) / capac = q := by
    rw [hq]; exact Nat.mul_div_cancel_left q (by omega)
  rw [hdiv] at hr
  have hqm : q % 65536 = q := Nat.mod_eq_of_lt hr
  have hq0 : ¬ q = 0 := by omega
  simp only [NACHA.compress, h0, if_false, hadd]
  generalize htmp : t ++ List.replicate (capac - t.length % capac) 90 = tmp
  have hl : tmp.length = t.length + (capac - t.length % capac) := by
    rw [← htmp]; simp
  simp only [hl, hdiv, hqm, hq0, if_false]
  apply intertwine_ok _ _ capac h2
  · rw [compressLoop_length q (by omega) tmp [] _ _ (by simpa using hq1), hl, hq]
    simp only [List.length_nil, Nat.zero_add]
    exact Nat.mul_div_cancel capac hq1
  · simp

/-- The compression stops in `intertwine` with `invalid_argument` when the row length
`ratio` does not fit the `unsigned short` that holds it (and is not wrapped to 0). -/
theorem compress_throws (t : List Nat) (capac : Nat) (h2 : 2 ≤ capac) (hc : capac < 65536)
    (hr0 : ((t.length + (capac - t.length % capac)) / capac) % 65536 ≠ 0)
    (hne : (t.length + (capac - t.length % capac)) /
      (((t.length + (capac - t.length % capac)) / capac) % 65536) ≠ capac) :
    NACHA.compress t capac = .error .invalid_argument := by
  have h0 : ¬ capac = 0 := by omega
  have hml := Nat.mod_lt t.length (by omega : 0 < capac)
  have hadd : (capac - t.length % capac) % 65536 = capac - t.length % capac := by omega
  simp only [NACHA.compress, h0, if_false, hadd, List.length_append, List.length_replicate,
    hr0]
  apply intertwine_throws
  rw [compressLoop_length _ (Nat.pos_of_ne_zero hr0) _ [] _ _
    (by simpa using Nat.pos_of_ne_zero hr0)]
  simpa using hne


/-! ## NACHA: `hash` -/

/-- `hash` returns `capac` bytes whenever the row length of the compression fits the
`unsigned short ratio`. -/
theorem hash_ok (inp : List Nat) (capac blkA blkB : Nat) (h2 : 2 ≤ capac)
    (hc : capac < 65536) (hA1 : 1 ≤ blkA) (hA2 : blkA ≤ 255) (hB1 : 1 ≤ blkB)
    (hB2 : blkB ≤ 255)
    (hr : (NACHA.hashTempLen inp.length blkA blkB +
      (capac - NACHA.hashTempLen inp.length blkA blkB % capac)) / capac < 65536) :
    ∃ d, NACHA.hash inp capac blkA blkB = .ok d ∧ d.length = capac := by
  obtain ⟨t, ht, htl⟩ := hashTemp_ok inp blkA blkB hA1 hA2 hB1 hB2
  obtain ⟨d, hd, hdl⟩ := compress_ok t capac h2 hc (by rw [htl]; exact hr)
  exact ⟨d, by simp only [NACHA.hash, ht, hd], hdl⟩

/-- `hash` stops with `invalid_argument` when the row length of the compression does not
fit the `unsigned short ratio`: the reduction then yields a number of rows other than
`capac` and `intertwine` rejects them. -/
theorem hash_throws (inp : List Nat) (capac blkA blkB : Nat) (h2 : 2 ≤ capac)
    (hc : capac < 65536) (hA1 : 1 ≤ blkA) (hA2 : blkA ≤ 255) (hB1 : 1 ≤ blkB)
    (hB2 : blkB ≤ 255)
    (hr0 : ((NACHA.hashTempLen inp.length blkA blkB +
      (capac - NACHA.hashTempLen inp.length blkA blkB % capac)) / capac) % 65536 ≠ 0)
    (hne : (NACHA.hashTempLen inp.length blkA blkB +
      (capac - NACHA.hashTempLen inp.length blkA blkB % capac)) /
      (((NACHA.hashTempLen inp.length blkA blkB +
        (capac - NACHA.hashTempLen inp.length blkA blkB % capac)) / capac) % 65536) ≠ capac) :
    NACHA.hash inp capac blkA blkB = .error .invalid_argument := by
  obtain ⟨t, ht, htl⟩ := hashTemp_ok inp blkA blkB hA1 hA2 hB1 hB2
  have := compress_throws t capac h2 hc (by rw [htl]; exact hr0) (by rw [htl]; exact hne)
  simp only [NACHA.hash, ht, this]

/-- C5 fails on the code: `hashData128` (capacity 16, denominators 5 and 3) on an input
of 60000 zero bytes does not return 16 bytes; the row length 65801 wraps to 265 in the
`unsigned short ratio`, the reduction yields 3972 rows and `intertwine` throws
`invalid_argument`. -/
theorem nacha_hash_large_input_fails :
    hashData128 (List.replicate 60000 0) = .error .invalid_argument := by
  have hL : NACHA.hashTempLen (List.replicate 60000 0).length 5 3 = 1052809 := by
    rw [List.length_replicate]; decide
  apply hash_throws _ 16 5 3 (by norm_num) (by norm_num) (by norm_num) (by norm_num)
    (by norm_num) (by norm_num)
  · rw [hL]; decide
  · rw [hL]; decide

/-- C6 as the spec states it fails: `hash` on the empty input (capacity 16, denominators
5 and 3) raises no error and returns a digest of 16 bytes. -/
theorem nacha_hash_empty_returns :
    (NACHA.hash [] 16 5 3).map List.length = .ok 16 := by
  have hL : NACHA.hashTempLen ([] : List Nat).length 5 3 = 404 := by decide
  obtain ⟨d, hd, hdl⟩ := hash_ok [] 16 5 3 (by norm_num) (by norm_num) (by norm_num)
    (by norm_num) (by norm_num) (by norm_num) (by rw [hL]; decide)
  rw [hd]
  simp only [Except.map, hdl]


/-! ## NACHA: `hash` on the empty input -/

theorem two_toggled_le (cnt : Nat) (t0 : Bool) :
    2 * NACHA.toggled cnt t0 ≤ cnt + (if t0 then 1 else 0) := by
  cases t0 <;> simp only [NACHA.toggled, Bool.false_eq_true, if_true, if_false] <;> omega

/-- Without overflow of `blocks`, `split` makes `osize` groups of `tsize / osize` bytes. -/
theorem split_no_overflow (n osize : Nat) (h1 : 1 ≤ osize) (hov : n + osize < 65536) :
    NACHA.splitCount n osize = osize ∧
      osize * NACHA.splitBlocks n osize = n + (osize - n % osize) ∧
      NACHA.splitBlocks n osize ≤ n + osize := by
  have hml := Nat.mod_lt n (by omega : 0 < osize)
  have hdvd : osize ∣ n + (osize - n % osize) := by
    have h := Nat.div_add_mod n osize
    refine ⟨n / osize + 1, ?_⟩
    rw [Nat.mul_add, Nat.mul_one]
    omega
  obtain ⟨q, hq⟩ := hdvd
  have hq1 : 1 ≤ q := by
    rcases Nat.eq_zero_or_pos q with h | h
    · subst h; omega
    · exact h
  have hdiv : (n + (osize - n % osize)) / osize = q := by
    rw [hq]; exact Nat.mul_div_cancel_left q (by omega)
  have hqle : q ≤ n + (osize - n % osize) := by
    rw [hq]; exact Nat.le_mul_of_pos_left q (by omega)
  have hb : NACHA.splitBlocks n osize = q := by
    simp only [NACHA.splitBlocks, hdiv]
    exact Nat.mod_eq_of_lt (by omega)
  refine ⟨?_, by rw [hb, hq], by rw [hb]; omega⟩
  have hq0 : ¬ q = 0 := by omega
  simp only [NACHA.splitCount, hb, hq0, if_false, hq]
  exact Nat.mul_div_cancel osize (by omega)

/-- A linear bound on the length of one group loop when `blocks` does not overflow. -/
theorem phaseLen_le (n osize : Nat) (F G : Nat → Nat) (t0 : Bool) (aF bF aG bG : Nat)
    (h1 : 1 ≤ osize) (hov : n + osize < 65536) (hF : ∀ x, 2 * F x ≤ aF * x + bF)
    (hG : ∀ x, G x ≤ aG * x + bG) :
    2 * NACHA.phaseLen n osize F G t0 ≤
      (aF + aG) * (n + osize) + (bF + bG) * osize +
        (if t0 then aG * (n + osize) + bG else 0) := by
  obtain ⟨hc, hm, hq⟩ := split_no_overflow n osize h1 hov
  have hml := Nat.mod_lt n (by omega : 0 < osize)
  have ht := two_toggled_le osize t0
  simp only [NACHA.phaseLen, hc]
  generalize NACHA.splitBlocks n osize = q at hm hq
  generalize NACHA.toggled osize t0 = T at ht
  have hoq : osize * q ≤ n + osize := by omega
  have h1' : osize * (2 * F q) ≤ osize * (aF * q + bF) := Nat.mul_le_mul_left _ (hF q)
  have h2' : (2 * T) * G q ≤ (osize + (if t0 then 1 else 0)) * (aG * q + bG) :=
    Nat.mul_le_mul ht (hG q)
  have e1 : 2 * (osize * F q + T * G q) = osize * (2 * F q) + (2 * T) * G q := by ring
  have e2 : osize * (aF * q + bF) = aF * (osize * q) + bF * osize := by ring
  have h3 : aF * (osize * q) ≤ aF * (n + osize) := Nat.mul_le_mul_left _ hoq
  have h4 : aG * (osize * q) ≤ aG * (n + osize) := Nat.mul_le_mul_left _ hoq
  have h5 : aG * q ≤ aG * (n + osize) := Nat.mul_le_mul_left _ hq
  rw [e1]
  cases t0 with
  | false =>
    simp only [Bool.false_eq_true, if_false, Nat.add_zero] at h2' ⊢
    have e3 : osize * (aG * q + bG) = aG * (osize * q) + bG * osize := by ring
    have e4 : (aF + aG) * (n + osize) + (bF + bG) * osize =
        aF * (n + osize) + aG * (n + osize) + bF * osize + bG * osize := by ring
    rw [e4]
    omega
  | true =>
    simp only [if_true] at h2' ⊢
    have e3 : (osize + 1) * (aG * q + bG) = aG * (osize * q) + bG * osize + aG * q + bG := by
      ring
    have e4 : (aF + aG) * (n + osize) + (bF + bG) * osize =
        aF * (n + osize) + aG * (n + osize) + bF * osize + bG * osize := by ring
    rw [e4]
    omega

theorem lenA_le (x : Nat) : NACHA.lenA x ≤ 2 * x + 15 := by
  simp only [NACHA.lenA, NACHA.pad8]; omega

theorem lenB_le (x : Nat) : NACHA.lenB x ≤ x + 8 := by
  simp only [NACHA.lenB, NACHA.pad8]; omega

theorem two_lenC_le (x : Nat) : 2 * NACHA.lenC x ≤ x + 8 := by
  simp only [NACHA.lenC, NACHA.pad8]; omega

theorem lenMix_le (x : Nat) : NACHA.lenMix x ≤ x + 4 := by
  simp only [NACHA.lenMix]; omega

/-- On the empty input the vector before the compression stays short for all
denominators in `1 .. 255`. -/
theorem hashTempLen_empty_le (blkA blkB : Nat) (hA1 : 1 ≤ blkA) (hA2 : blkA ≤ 255)
    (hB1 : 1 ≤ blkB) (hB2 : blkB ≤ 255) : NACHA.hashTempLen 0 blkA blkB ≤ 101578 := by
  have m0 : NACHA.lenMix 0 = 4 := by decide
  simp only [NACHA.hashTempLen, m0]
  have p1 := phaseLen_le 0 blkB NACHA.lenA (fun g => NACHA.lenMix g + NACHA.lenC g) false
    4 30 2 8 hB1 (by omega)
    (fun x => by have := lenA_le x; omega)
    (fun x => by have := lenMix_le x; have := two_lenC_le x; beta_reduce; omega)
  simp only [Bool.false_eq_true, if_false] at p1
  generalize NACHA.phaseLen 0 blkB NACHA.lenA (fun g => NACHA.lenMix g + NACHA.lenC g)
    false = P1 at p1 ⊢
  have p2 := phaseLen_le (P1 + 4) blkA NACHA.lenC
    (fun g => NACHA.lenMix g + NACHA.lenA (NACHA.lenMix g)) true 1 8 3 27 hA1 (by omega)
    (fun x => by have := two_lenC_le x; omega)
    (fun x => by
      have := lenMix_le x; have := lenA_le (NACHA.lenMix x); beta_reduce; omega)
  simp only [if_true] at p2
  generalize NACHA.phaseLen (P1 + 4) blkA NACHA.lenC
    (fun g => NACHA.lenMix g + NACHA.lenA (NACHA.lenMix g)) true = P2 at p2 ⊢
  have p3 := phaseLen_le 0 blkB (fun g => NACHA.lenMix (NACHA.lenC g))
    (fun g => NACHA.lenA (NACHA.lenMix g)) false 1 16 2 23 hB1 (by omega)
    (fun x => by
      have := lenMix_le (NACHA.lenC x); have := two_lenC_le x; beta_reduce; omega)
    (fun x => by
      have := lenMix_le x; have := lenA_le (NACHA.lenMix x); beta_reduce; omega)
  simp only [Bool.false_eq_true, if_false] at p3
  generalize NACHA.phaseLen 0 blkB (fun g => NACHA.lenMix (NACHA.lenC g))
    (fun g => NACHA.lenA (NACHA.lenMix g)) false = P3 at p3 ⊢
  have p4 := phaseLen_le (P2 + P3) blkA (fun g => NACHA.lenMix (NACHA.lenB g)) NACHA.lenC
    true 2 24 1 4 hA1 (by omega)
    (fun x => by
      have := lenMix_le (NACHA.lenB x); have := lenB_le x; beta_reduce; omega)
    (fun x => by have := two_lenC_le x; omega)
  simp only [if_true] at p4
  generalize NACHA.phaseLen (P2 + P3) blkA (fun g => NACHA.lenMix (NACHA.lenB g)) NACHA.lenC
    true = P4 at p4 ⊢
  have p5 := phaseLen_le (P4 + 0) blkB (fun g => NACHA.lenMix (NACHA.lenC g)) NACHA.lenA
    false 1 16 2 15 hB1 (by omega)
    (fun x => by
      have := lenMix_le (NACHA.lenC x); have := two_lenC_le x; beta_reduce; omega)
    (fun x => by have := lenA_le x; omega)
  simp only [Bool.false_eq_true, if_false] at p5
  generalize NACHA.phaseLen (P4 + 0) blkB (fun g => NACHA.lenMix (NACHA.lenC g))
    NACHA.lenA false = P5 at p5 ⊢
  have := lenMix_le P5
  omega

/-- C6 (amended): `NACHA.hash` on the empty input does not fail: for every capacity in
`2 .. 65535` and every pair of denominators in `1 .. 255` it returns a digest of exactly
`capac` bytes. -/
theorem nacha_hash_empty_digest (capac blkA blkB : Nat) (h2 : 2 ≤ capac)
    (hc : capac < 65536) (hA1 : 1 ≤ blkA) (hA2 : blkA ≤ 255) (hB1 : 1 ≤ blkB)
    (hB2 : blkB ≤ 255) :
    ∃ d, NACHA.hash [] capac blkA blkB = .ok d ∧ d.length = capac := by
  have hL := hashTempLen_empty_le blkA blkB hA1 hA2 hB1 hB2
  apply hash_ok [] capac blkA blkB h2 hc hA1 hA2 hB1 hB2
  simp only [List.length_nil]
  generalize NACHA.hashTempLen 0 blkA blkB = L at hL
  rw [Nat.div_lt_iff_lt_mul (by omega)]
  have := Nat.mod_lt L (by omega : 0 < capac)
  omega

theorem nacha_hash_empty_digest_witness :
    (2 ≤ 32 ∧ 32 < 65536 ∧ 1 ≤ 9 ∧ 9 ≤ 255 ∧ 1 ≤ 5 ∧ 5 ≤ 255) ∧
      ∃ d, NACHA.hash [] 32 9 5 = .ok d ∧ d.length = 32 :=
  ⟨by decide, nacha_hash_empty_digest 32 9 5 (by decide) (by decide) (by decide) (by decide)
    (by decide) (by decide)⟩

/-! ## `ercrypt.hpp`: bit rotations over neighbouring bytes -/

/-- The value of `(a << l) | (b >> (8 - l))` stored in a byte. -/
theorem rotl_val (l a b : Nat) (hl : l ≤ 7) (hb : b < 256) :
    ((a <<< l) ||| (b >>> (8 - l))) % 256 = (a % 2 ^ (8 - l)) * 2 ^ l + b / 2 ^ (8 - l) := by
  have h8 : 8 - l + l = 8 := by omega
  rw [Nat.lor_comm, lor_shr_shl b a (8 - l) l (by rw [h8]; exact hb)]
  interval_cases l <;> simp <;> omega

/-- A byte splits into its part above bit `s` and its part below. -/
theorem byte_split (x s : Nat) (hs : s ≤ 8) (hx : x < 256) :
    ∃ h l, x = 2 ^ s * h + l ∧ l < 2 ^ s ∧ h < 2 ^ (8 - s) ∧ x / 2 ^ s = h ∧ x % 2 ^ s = l := by
  refine ⟨x / 2 ^ s, x % 2 ^ s, (Nat.div_add_mod x (2 ^ s)).symm,
    Nat.mod_lt _ (Nat.two_pow_pos s), ?_, rfl, rfl⟩
  rw [Nat.div_lt_iff_lt_mul (Nat.two_pow_pos s), ← Nat.pow_add]
  have h8 : 8 - s + s = 8 := by omega
  rw [h8]; exact hx

/-- The pair rotation of `rotate2s` to the left is undone by the one to the right
(first byte of the pair). -/
theorem rot2_inv (l a b : Nat) (hl : l ≤ 7) (ha : a < 256) (hb : b < 256) :
    (((((a <<< l) ||| (b >>> (8 - l))) % 256) >>> l) |||
      ((((b <<< l) ||| (a >>> (8 - l))) % 256) <<< (8 - l))) % 256 = a := by
  rw [rot_fwd l _ _ (by omega) (Nat.mod_lt _ (by norm_num)), rotl_val l a b hl hb,
    rotl_val l b a hl ha]
  obtain ⟨ah, al, hae, hal, hah, had, ham⟩ := byte_split a (8 - l) (by omega) ha
  obtain ⟨bh, bl, hbe, hbl, hbh, hbd, hbm⟩ := byte_split b (8 - l) (by omega) hb
  rw [had, ham, hbd, hbm]
  subst hae hbe
  interval_cases l <;> simp at * <;> omega

/-- A byte of `rotateAll` to the left, then to the right, is the byte itself; `a` and `c`
are its neighbours. -/
theorem rotAll_lr (l a b c : Nat) (hl : l ≤ 7) (ha : a < 256) (hb : b < 256) :
    (((((b >>> l) ||| (c <<< (8 - l))) % 256) <<< l) |||
      ((((a >>> l) ||| (b <<< (8 - l))) % 256) >>> (8 - l))) % 256 = b := by
  rw [rotl_val l _ _ hl (Nat.mod_lt _ (by norm_num)), rot_fwd l b c (by omega) hb,
    rot_fwd l a b (by omega) ha]
  obtain ⟨ah, al, hae, hal, hah, had, ham⟩ := byte_split a l (by omega) ha
  obtain ⟨bh, bl, hbe, hbl, hbh, hbd, hbm⟩ := byte_split b l (by omega) hb
  have hcl : c % 2 ^ l < 2 ^ l := Nat.mod_lt _ (Nat.two_pow_pos l)
  rw [had, hbd, hbm]
  generalize c % 2 ^ l = cl at hcl ⊢
  subst hae hbe
  interval_cases l <;> simp at * <;> omega

/-- A byte of `rotateAll` to the right, then to the left, is the byte itself. -/
theorem rotAll_rl (l a b c : Nat) (hl : l ≤ 7) (ha : a < 256) (hb : b < 256) :
    (((((b <<< l) ||| (a >>> (8 - l))) % 256) >>> l) |||
      ((((c <<< l) ||| (b >>> (8 - l))) % 256) <<< (8 - l))) % 256 = b := by
  rw [rot_fwd l _ _ (by omega) (Nat.mod_lt _ (by norm_num)), rotl_val l b a hl ha,
    rotl_val l c b hl hb]
  obtain ⟨ah, al, hae, hal, hah, had, ham⟩ := byte_split a (8 - l) (by omega) ha
  obtain ⟨bh, bl, hbe, hbl, hbh, hbd, hbm⟩ := byte_split b (8 - l) (by omega) hb
  have hcl : c % 2 ^ (8 - l) < 2 ^ (8 - l) := Nat.mod_lt _ (Nat.two_pow_pos _)
  rw [had, hbd, hbm]
  generalize c % 2 ^ (8 - l) = cl at hcl ⊢
  subst hae hbe
  interval_cases l <;> simp at * <;> omega

/-! ## `rotate2s` -/

theorem rotate2sLoop_inv (junk1 junk2 : Nat → Nat) (lvl : Nat) (hl : lvl ≤ 7) :
    ∀ (x : List Nat) (i j : Nat), x.length % 2 = 0 → IsBytes x →
      CryptConcepts.Permutation.rotate2sLoop junk2 false lvl j
        (CryptConcepts.Permutation.rotate2sLoop junk1 true lvl i x) = x
  | [], _, _, _, _ => by simp [CryptConcepts.Permutation.rotate2sLoop]
  | [_], _, _, h, _ => by simp at h
  | a :: b :: rest, i, j, h, hb => by
    have ha : a < 256 := hb a (by simp)
    have hb2 : b < 256 := hb b (by simp)
    have hr : IsBytes rest := fun v hv => hb v (by simp [hv])
    have hlen : rest.length % 2 = 0 := by
      simp only [List.length_cons] at h; omega
    simp only [CryptConcepts.Permutation.rotate2sLoop, if_true, Bool.false_eq_true, if_false]
    rw [rot2_inv lvl a b hl ha hb2, rot2_inv lvl b a hl hb2 ha,
      rotate2sLoop_inv junk1 junk2 lvl hl rest (i + 2) (j + 2) hlen hr]

/-- C11: for every block `x` of even size and every level `n ≤ 7` (level 0 included),
`rotate2s` to the left followed by `rotate2s` to the right with the same level gives `x`
back, whatever the uninitialised arrays `tmp` of the two calls hold. -/
theorem rotate2s_right_left (junk1 junk2 : Nat → Nat) (x : List Nat) (n : Nat)
    (hx : IsBytes x) (he : x.length % 2 = 0) (hn : n ≤ 7) :
    (CryptConcepts.Permutation.rotate2s junk1 x true n).bind
      (fun y => CryptConcepts.Permutation.rotate2s junk2 y false n) = some x := by
  simp only [CryptConcepts.Permutation.rotate2s, hn, if_true, Option.some_bind,
    rotate2sLoop_inv junk1 junk2 n hn x 0 0 he hx]

theorem rotate2s_right_left_witness :
    (IsBytes [0x12, 0x34, 0x56, 0x78] ∧ [0x12, 0x34, 0x56, 0x78].length % 2 = 0 ∧ 0 ≤ 7) ∧
      (CryptConcepts.Permutation.rotate2s (fun _ => 1) [0x12, 0x34, 0x56, 0x78] true 0).bind
        (fun y => CryptConcepts.Permutation.rotate2s (fun _ => 2) y false 0) =
        some [0x12, 0x34, 0x56, 0x78] :=
  ⟨by decide, rotate2s_right_left (fun _ => 1) (fun _ => 2) [0x12, 0x34, 0x56, 0x78] 0
    (by decide) (by decide) (by decide)⟩

/-! ## `rotateAll` -/

/-- A loop that writes `tmp[i] = F i carry` for `i = 0 .. k - 1` and then loads the next
`carry`, started on the zero-filled `tmp`. -/
theorem foldl_set_carry (n : Nat) (F : Nat → Nat → Nat) (C : Nat → Nat) (c0 : Nat) :
    ∀ k, k ≤ n →
      (List.range k).foldl (fun (st : List Nat × Nat) i => (st.1.set i (F i st.2), C i))
        (List.replicate n 0, c0) =
      ((List.range k).map (fun i => F i (if i = 0 then c0 else C (i - 1))) ++
        List.replicate (n - k) 0, if k = 0 then c0 else C (k - 1)) := by
  intro k
  induction k with
  | zero => intro _; simp
  | succ k ih =>
    intro hk
    rw [List.range_succ, List.foldl_append, ih (by omega)]
    have hrep : List.replicate (n - k) 0 = 0 :: List.replicate (n - (k + 1)) 0 := by
      have : n - k = (n - (k + 1)) + 1 := by omega
      rw [this, List.replicate_succ]
    simp only [List.foldl_cons, List.foldl_nil, List.map_append, List.map_cons, List.map_nil,
      Nat.add_sub_cancel, Nat.succ_ne_zero, if_false, Prod.mk.injEq, and_true]
    rw [hrep, List.set_append_right _ _ (by simp), List.length_map, List.length_range,
      Nat.sub_self, List.set_cons_zero, List.append_assoc, List.singleton_append]

theorem rotateAll_left_eq (bytes : List Nat) (lvl : Nat) (hl : lvl ≤ 7)
    (hn : 1 ≤ bytes.length) :
    CryptConcepts.Permutation.rotateAll bytes true lvl =
      some ((List.range bytes.length).map fun i =>
        ((bytes.getD i 0 >>> lvl) |||
          (bytes.getD ((i + 1) % bytes.length) 0 <<< (8 - lvl))) % 256) := by
  have h0 : ¬ bytes.length = 0 := by omega
  simp only [CryptConcepts.Permutation.rotateAll, hl, not_true_eq_false, if_false, h0, if_true]
  rw [foldl_set_carry bytes.length
    (fun i c => ((bytes.getD i 0 >>> lvl) ||| (c <<< (8 - lvl))) % 256)
    (fun i => bytes.getD (i + 2) 0) (bytes.getD 1 0) (bytes.length - 1) (by omega)]
  have hsub : bytes.length - (bytes.length - 1) = 1 := by omega
  simp only [hsub]
  rw [List.set_append_right _ _ (by simp), List.length_map, List.length_range, Nat.sub_self]
  simp only [List.replicate, List.set_cons_zero]
  congr 1
  have hsplit : bytes.length = (bytes.length - 1) + 1 := by omega
  conv_rhs => rw [hsplit, List.range_succ, List.map_append]
  congr 1
  · apply List.map_congr_left
    intro i hi
    have hi' : i < bytes.length - 1 := List.mem_range.mp hi
    have hm : (i + 1) % (bytes.length - 1 + 1) = i + 1 := Nat.mod_eq_of_lt (by omega)
    rw [hm]
    rcases Nat.eq_zero_or_pos i with h | h
    · subst h; simp
    · have : ¬ i = 0 := by omega
      have h2 : i - 1 + 2 = i + 1 := by omega
      simp only [this, if_false, h2]
  · have hm : (bytes.length - 1 + 1) % (bytes.length - 1 + 1) = 0 := Nat.mod_self _
    simp only [List.map_cons, List.map_nil, hm]

theorem rotateAll_right_eq (bytes : List Nat) (lvl : Nat) (hl : lvl ≤ 7)
    (hn : 1 ≤ bytes.length) :
    CryptConcepts.Permutation.rotateAll bytes false lvl =
      some ((List.range bytes.length).map fun i =>
        ((bytes.getD i 0 <<< lvl) |||
          (bytes.getD ((i + (bytes.length - 1)) % bytes.length) 0 >>> (8 - lvl))) % 256) := by
  have h0 : ¬ bytes.length = 0 := by omega
  simp only [CryptConcepts.Permutation.rotateAll, hl, not_true_eq_false, if_false, h0,
    Bool.false_eq_true]
  rw [foldl_set_carry bytes.length
    (fun i c => ((bytes.getD i 0 <<< lvl) ||| (c >>> (8 - lvl))) % 256)
    (fun i => bytes.getD i 0) (bytes.getD (bytes.length - 1) 0) bytes.length (Nat.le_refl _)]
  simp only [Nat.sub_self, List.replicate, List.append_nil]
  congr 1
  apply List.map_congr_left
  intro i hi
  have hi' : i < bytes.length := List.mem_range.mp hi
  rcases Nat.eq_zero_or_pos i with h | h
  · subst h
    have hm : (0 + (bytes.length - 1)) % bytes.length = bytes.length - 1 := by
      rw [Nat.zero_add]; exact Nat.mod_eq_of_lt (by omega)
    simp only [if_true, hm]
  · have : ¬ i = 0 := by omega
    have hm : (i + (bytes.length - 1)) % bytes.length = i - 1 := by
      have e : i + (bytes.length - 1) = (i - 1) + bytes.length := by omega
      rw [e, Nat.add_mod_right]; exact Nat.mod_eq_of_lt (by omega)
    simp only [this, if_false, hm]

theorem rotateAll_right_left (x : List Nat) (n : Nat) (hx : IsBytes x) (h1 : 1 ≤ x.length)
    (hn : n ≤ 7) :
    (CryptConcepts.Permutation.rotateAll x true n).bind
      (fun y => CryptConcepts.Permutation.rotateAll y false n) = some x := by
  rw [rotateAll_left_eq x n hn h1, Option.some_bind,
    rotateAll_right_eq _ n hn (by simpa using h1)]
  simp only [List.length_map, List.length_range]
  congr 1
  apply map_range_eq _ _ _ rfl
  intro i hi
  have hp : (i + (x.length - 1)) % x.length < x.length := Nat.mod_lt _ (by omega)
  rw [getD_map_range _ _ _ hi, getD_map_range _ _ _ hp]
  have hs : ((i + (x.length - 1)) % x.length + 1) % x.length = i := by
    rw [Nat.mod_add_mod]
    have e : i + (x.length - 1) + 1 = i + x.length := by omega
    rw [e, Nat.add_mod_right]; exact Nat.mod_eq_of_lt hi
  rw [hs]
  exact rotAll_lr n _ _ _ hn (getD_lt hx _) (getD_lt hx _)

theorem rotateAll_left_right (x : List Nat) (n : Nat) (hx : IsBytes x) (h1 : 1 ≤ x.length)
    (hn : n ≤ 7) :
    (CryptConcepts.Permutation.rotateAll x false n).bind
      (fun y => CryptConcepts.Permutation.rotateAll y true n) = some x := by
  rw [rotateAll_right_eq x n hn h1, Option.some_bind,
    rotateAll_left_eq _ n hn (by simpa using h1)]
  simp only [List.length_map, List.length_range]
  congr 1
  apply map_range_eq _ _ _ rfl
  intro i hi
  have hp : (i + 1) % x.length < x.length := Nat.mod_lt _ (by omega)
  rw [getD_map_range _ _ _ hi, getD_map_range _ _ _ hp]
  have hs : ((i + 1) % x.length + (x.length - 1)) % x.length = i := by
    rw [Nat.mod_add_mod]
    have e : i + 1 + (x.length - 1) = i + x.length := by omega
    rw [e, Nat.add_mod_right]; exact Nat.mod_eq_of_lt hi
  rw [hs]
  exact rotAll_rl n _ _ _ hn (getD_lt hx _) (getD_lt hx _)

/-- C12: for every block `x` of at least two bytes and every level `n ≤ 7`, `rotateAll` is
undone by `rotateAll` in the opposite direction with the same level, in both orders. -/
theorem rotateAll_opposite (x : List Nat) (n : Nat) (hx : IsBytes x) (h2 : 2 ≤ x.length)
    (hn : n ≤ 7) :
    (CryptConcepts.Permutation.rotateAll x true n).bind
        (fun y => CryptConcepts.Permutation.rotateAll y false n) = some x ∧
      (CryptConcepts.Permutation.rotateAll x false n).bind
        (fun y => CryptConcepts.Permutation.rotateAll y true n) = some x :=
  ⟨rotateAll_right_left x n hx (by omega) hn, rotateAll_left_right x n hx (by omega) hn⟩

theorem rotateAll_opposite_witness :
    (IsBytes [1, 2, 3, 4, 5, 6, 7, 8] ∧ 2 ≤ [1, 2, 3, 4, 5, 6, 7, 8].length ∧ 3 ≤ 7) ∧
      ((CryptConcepts.Permutation.rotateAll [1, 2, 3, 4, 5, 6, 7, 8] true 3).bind
          (fun y => CryptConcepts.Permutation.rotateAll y false 3) =
          some [1, 2, 3, 4, 5, 6, 7, 8] ∧
        (CryptConcepts.Permutation.rotateAll [1, 2, 3, 4, 5, 6, 7, 8] false 3).bind
          (fun y => CryptConcepts.Permutation.rotateAll y true 3) =
          some [1, 2, 3, 4, 5, 6, 7, 8]) :=
  ⟨by decide, rotateAll_opposite [1, 2, 3, 4, 5, 6, 7, 8] 3 (by decide) (by decide)
    (by decide)⟩

/-! ## `rearrange` -/

theorem mapM_some {α β : Type} (f : α → Option β) (g : α → β) :
    ∀ (l : List α), (∀ a ∈ l, f a = some (g a)) → l.mapM f = some (l.map g)
  | [], _ => by rw [List.mapM_nil]; rfl
  | a :: rest, h => by
    rw [List.mapM_cons, h a (by simp), mapM_some f g rest (fun b hb => h b (by simp [hb]))]
    rfl

/-- The forward loop of `rearrange` on a table whose entries are distinct indices of the
block: after `k` steps `temp[table[j]]` holds `main[j]` for every `j < k`. -/
theorem rearrange_forward_loop (n : Nat) (t x : Nat → Nat) (hlt : ∀ i, i < n → t i < n)
    (hinj : ∀ i j, i < n → j < n → t i = t j → i = j) (T0 : List Nat) (h0 : T0.length = n) :
    ∀ k, k ≤ n → ∃ T, (List.range k).foldlM
        (fun (temp : List Nat) i => if t i < n then some (temp.set (t i) (x i)) else none)
        T0 = some T ∧ T.length = n ∧ ∀ j, j < k → T[t j]? = some (x j) := by
  intro k
  induction k with
  | zero => intro _; exact ⟨T0, by simp, h0, fun j hj => absurd hj (by omega)⟩
  | succ k ih =>
    intro hk
    obtain ⟨T, hT, hlen, hget⟩ := ih (by omega)
    refine ⟨T.set (t k) (x k), ?_, by simp [hlen], ?_⟩
    · rw [List.range_succ, List.foldlM_append, hT]
      simp [hlt k (by omega)]
    · intro j hj
      rw [List.getElem?_set]
      by_cases hjk : j = k
      · subst hjk
        simp [hlen, hlt j (by omega)]
      · have hne : ¬ t k = t j := fun e => hjk (hinj k j (by omega) (by omega) e).symm
        rw [if_neg hne]
        exact hget j (by omega)

theorem perm_range_facts (t : List Nat) (n : Nat) (ht : t.Perm (List.range n)) :
    t.length = n ∧ (∀ i, i < n → t.getD i 0 < n) ∧
      ∀ i j, i < n → j < n → t.getD i 0 = t.getD j 0 → i = j := by
  have hlen : t.length = n := by rw [ht.length_eq, List.length_range]
  have hnd : t.Nodup := ht.nodup_iff.mpr (List.nodup_range n)
  refine ⟨hlen, ?_, ?_⟩
  · intro i hi
    rw [List.getD_eq_getElem _ _ (by omega)]
    exact List.mem_range.mp (ht.mem_iff.mp (List.getElem_mem _))
  · intro i j hi hj h
    rw [List.getD_eq_getElem t 0 (show i < t.length by omega),
      List.getD_eq_getElem t 0 (show j < t.length by omega)] at h
    exact (hnd.getElem_inj_iff).mp h

/-- C13: for every block `x` and every table `t` that is a permutation of
`0 .. N - 1` (`N` the size of the block), `rearrange` backward undoes `rearrange` forward,
whatever the uninitialised arrays `temp` of the two calls hold. -/
theorem rearrange_backward_forward (junk1 junk2 : Nat → Nat) (x t : List Nat)
    (ht : t.Perm (List.range x.length)) :
    (CryptConcepts.Permutation.rearrange junk1 x t true).bind
      (fun y => CryptConcepts.Permutation.rearrange junk2 y t false) = some x := by
  obtain ⟨hlen, hlt, hinj⟩ := perm_range_facts t x.length ht
  obtain ⟨T, hT, hTlen, hget⟩ := rearrange_forward_loop x.length (fun i => t.getD i 0)
    (fun i => x.getD i 0) hlt hinj ((List.range x.length).map fun i => junk1 i % 256)
    (by simp) x.length (Nat.le_refl _)
  have hfwd : CryptConcepts.Permutation.rearrange junk1 x t true = some T := by
    simp only [CryptConcepts.Permutation.rearrange, hlen, ne_eq, not_true_eq_false, if_false,
      if_true]
    exact hT
  rw [hfwd, Option.some_bind]
  simp only [CryptConcepts.Permutation.rearrange, hlen, hTlen, ne_eq, not_true_eq_false,
    if_false, Bool.false_eq_true]
  rw [mapM_some _ (fun i => x.getD i 0) _ (fun i hi => hget i (List.mem_range.mp hi))]
  congr 1
  exact map_range_eq _ _ _ rfl (fun i _ => rfl)

theorem rearrange_backward_forward_witness :
    [2, 0, 3, 1].Perm (List.range [10, 11, 12, 13].length) ∧
      (CryptConcepts.Permutation.rearrange (fun _ => 7) [10, 11, 12, 13] [2, 0, 3, 1] true).bind
        (fun y => CryptConcepts.Permutation.rearrange (fun _ => 9) y [2, 0, 3, 1] false) =
        some [10, 11, 12, 13] :=
  ⟨by decide, rearrange_backward_forward (fun _ => 7) (fun _ => 9) [10, 11, 12, 13]
    [2, 0, 3, 1] (by decide)⟩

/-! ## The S-box skeleton -/

theorem ref8_same_key (a b : Nat) :
    (!CryptConcepts.Substitution.Ref8.lt a b && !CryptConcepts.Substitution.Ref8.lt b a) =
      decide (a = b) := by
  simp only [CryptConcepts.Substitution.Ref8.lt]
  by_cases h : a = b
  · subst h; simp
  · have : a < b ∨ b < a := by omega
    rcases this with h1 | h1
    · simp [h, h1]
    · simp [h, h1]

/-- A key is found in a map over `Ref8` exactly when it is the key of an entry. -/
theorem mapFind_isSome_iff {ν : Type} (m : List (Nat × ν)) (k : Nat) :
    (CryptConcepts.Substitution.mapFind CryptConcepts.Substitution.Ref8.lt m k).isSome ↔
      k ∈ m.map Prod.fst := by
  induction m with
  | nil => simp [CryptConcepts.Substitution.mapFind]
  | cons e rest ih =>
    simp only [CryptConcepts.Substitution.mapFind, ref8_same_key, List.map_cons, List.mem_cons]
    by_cases h : e.1 = k
    · simp [h]
    · have h2 : ¬ k = e.1 := fun e2 => h e2.symm
      simp only [h, decide_False, Bool.false_eq_true, if_false, ih, h2, false_or]

/-- Lookup in a table that stores `o i` under every key `i` of `l`. -/
theorem mapFind_table {ν : Type} (o : Nat → ν) (l : List Nat) (k : Nat) :
    CryptConcepts.Substitution.mapFind CryptConcepts.Substitution.Ref8.lt
      (l.map fun i => (i, o i)) k = if k ∈ l then some (o k) else none := by
  induction l with
  | nil => simp [CryptConcepts.Substitution.mapFind]
  | cons a rest ih =>
    simp only [List.map_cons, CryptConcepts.Substitution.mapFind, ref8_same_key, List.mem_cons]
    by_cases h : a = k
    · subst h; simp
    · have h2 : ¬ k = a := fun e2 => h e2.symm
      simp only [h, decide_False, Bool.false_eq_true, if_false, ih, h2, false_or]

/-- The constructor loop, started after the values `done`: it accepts the remaining
values exactly when the outputs of all values visited are pairwise distinct. -/
theorem fill_spec (mainFunc : List Nat → Nat → Nat) (key : List Nat) :
    ∀ (rest done : List Nat), (done ++ rest).Nodup →
      (done.map fun i => mainFunc key i % 256).Nodup →
      CryptConcepts.Substitution.SBox8.fill mainFunc key rest
          (done.map fun i => (mainFunc key i % 256, true))
          (done.map fun i => (i, mainFunc key i % 256)) =
        if ((done ++ rest).map fun i => mainFunc key i % 256).Nodup then
          .ok ((done ++ rest).map fun i => (i, mainFunc key i % 256))
        else .error .runtime_error
  | [], done, _, hd => by
    simp only [CryptConcepts.Substitution.SBox8.fill, List.append_nil, hd, if_true]
  | i :: r, done, hnd, hd => by
    have hi : i ∉ done := by
      intro hmem
      have := List.nodup_append.mp hnd
      exact this.2.2 hmem (by simp)
    simp only [CryptConcepts.Substitution.SBox8.fill, CryptConcepts.Substitution.mapCount,
      CryptConcepts.Substitution.mapEmplace, mapFind_isSome_iff, List.map_map]
    have hfst1 : (Prod.fst ∘ fun i => (mainFunc key i % 256, true)) =
        fun i => mainFunc key i % 256 := rfl
    have hfst2 : (Prod.fst ∘ fun i => (i, mainFunc key i % 256)) = fun i => i := rfl
    simp only [hfst1, hfst2, List.map_id', hi, if_false]
    by_cases hc : mainFunc key i % 256 ∈ done.map fun i => mainFunc key i % 256
    · have hnot : ¬ ((done ++ i :: r).map fun i => mainFunc key i % 256).Nodup := by
        intro h
        rw [List.map_append, List.map_cons] at h
        have := List.nodup_append.mp h
        exact this.2.2 hc (by simp)
      simp only [hc, if_true, ne_eq, one_ne_zero, not_false_eq_true, hnot, if_false]
    · have hd2 : ((done ++ [i]).map fun i => mainFunc key i % 256).Nodup := by
        rw [List.map_append, List.map_cons, List.map_nil]
        refine List.nodup_append.mpr ⟨hd, by simp, ?_⟩
        intro a ha hb
        simp only [List.mem_singleton] at hb
        subst hb
        exact hc ha
      have ih := fill_spec mainFunc key r (done ++ [i])
        (by simpa [List.append_assoc] using hnd) hd2
      simp only [List.map_append, List.map_cons, List.map_nil, List.append_assoc,
        List.singleton_append] at ih
      simp only [hc, if_false, ne_eq, not_true_eq_false, List.map_append, List.map_cons]
      exact ih

/-- The constructor of `SBox8` on a key of the right size: it fails exactly when two of the
values `0 .. 254` have the same output, and otherwise stores the outputs of these 255
values in `primary` and nothing in `secondary`. -/
theorem construct_spec (keySize : Nat) (mainFunc : List Nat → Nat → Nat) (key : List Nat)
    (hk : key.length = keySize) :
    CryptConcepts.Substitution.SBox8.construct keySize mainFunc key =
      if ((List.range 255).map fun i => mainFunc key i % 256).Nodup then
        .ok { keyVector := key,
              primary := (List.range 255).map fun i => (i, mainFunc key i % 256),
              secondary := [] }
      else .error .runtime_error := by
  have h := fill_spec mainFunc key (List.range 255) []
    (by rw [List.nil_append]; exact List.nodup_range 255) List.nodup_nil
  rw [List.map_nil, List.map_nil, List.nil_append] at h
  have hk2 : ¬ key.length ≠ keySize := fun hne => hne hk
  unfold CryptConcepts.Substitution.SBox8.construct
  rw [if_neg hk2, h]
  split_ifs <;> rfl

theorem nodup_map_range (n : Nat) (g : Nat → Nat)
    (h : ∀ a b, a < n → b < n → g a = g b → a = b) : ((List.range n).map g).Nodup :=
  List.Nodup.map_on (fun a ha b hb e => h a b (List.mem_range.mp ha) (List.mem_range.mp hb) e)
    (List.nodup_range n)

/-- The identity mapping constructs successfully. -/
theorem identity_constructs :
    CryptConcepts.Substitution.SBox8.construct 1 CryptConcepts.Substitution.identityMap [0] =
      .ok CryptConcepts.Substitution.identityBox := by
  rw [construct_spec 1 _ [0] rfl, if_pos]
  · rfl
  · apply nodup_map_range
    intro a b ha hb e
    simp only [CryptConcepts.Substitution.identityMap] at e
    omega

/-- The constant-zero mapping is rejected as not deterministic. -/
theorem zero_rejected :
    CryptConcepts.Substitution.SBox8.construct 1 CryptConcepts.Substitution.zeroMap [0] =
      .error .runtime_error := by
  rw [construct_spec 1 _ [0] rfl, if_neg]
  intro h
  have := List.inj_on_of_nodup_map h (List.mem_range.mpr (show 0 < 255 by norm_num))
    (List.mem_range.mpr (show 1 < 255 by norm_num)) rfl
  omega

/-- A failed lookup throws `std::out_of_range`. -/
theorem apply_error (box : CryptConcepts.Substitution.SBox8) (x : Nat) (forward : Bool)
    (e : CryptConcepts.Substitution.Err) (h : box.apply x forward = .error e) :
    e = .out_of_range := by
  simp only [CryptConcepts.Substitution.SBox8.apply, CryptConcepts.Substitution.mapAt] at h
  split_ifs at h <;> split at h <;> first | exact (Except.error.inj h).symm | cases h

/-- What a successful construction leaves in the box. -/
theorem construct_ok (keySize : Nat) (mainFunc : List Nat → Nat → Nat) (key : List Nat)
    (box : CryptConcepts.Substitution.SBox8)
    (h : CryptConcepts.Substitution.SBox8.construct keySize mainFunc key = .ok box) :
    box.primary = (List.range 255).map (fun i => (i, mainFunc key i % 256)) ∧
      box.secondary = [] := by
  by_cases hk : key.length = keySize
  · rw [construct_spec keySize mainFunc key hk] at h
    split_ifs at h
    have hb := Except.ok.inj h
    subst hb
    exact ⟨rfl, rfl⟩
  · unfold CryptConcepts.Substitution.SBox8.construct at h
    rw [if_pos hk] at h
    cases h

/-- C14 fails on the code: in every successfully constructed `SBox8` the backward table
`secondary` is empty, so every backward lookup throws `std::out_of_range`, and so does the
backward lookup applied to the forward lookup of any `x`. -/
theorem sbox8_backward_lookup_fails (keySize : Nat) (mainFunc : List Nat → Nat → Nat)
    (key : List Nat) (box : CryptConcepts.Substitution.SBox8)
    (h : CryptConcepts.Substitution.SBox8.construct keySize mainFunc key = .ok box)
    (x : Nat) :
    box.apply x false = .error .out_of_range ∧
      (box.apply x true).bind (fun y => box.apply y false) = .error .out_of_range := by
  obtain ⟨_, hs⟩ := construct_ok keySize mainFunc key box h
  have hb : ∀ y, box.apply y false = .error .out_of_range := by
    intro y
    simp only [CryptConcepts.Substitution.SBox8.apply, hs, Bool.false_eq_true, if_false,
      CryptConcepts.Substitution.mapAt, CryptConcepts.Substitution.mapFind]
  refine ⟨hb x, ?_⟩
  cases hf : box.apply x true with
  | error e => rw [apply_error box x true e hf]; rfl
  | ok y => exact hb y

theorem sbox8_backward_lookup_fails_witness :
    CryptConcepts.Substitution.SBox8.construct 1 CryptConcepts.Substitution.identityMap [0] =
        .ok CryptConcepts.Substitution.identityBox ∧
      (CryptConcepts.Substitution.identityBox.apply 0 false = .error .out_of_range ∧
        (CryptConcepts.Substitution.identityBox.apply 0 true).bind
          (fun y => CryptConcepts.Substitution.identityBox.apply y false) =
          .error .out_of_range) :=
  ⟨identity_constructs,
    sbox8_backward_lookup_fails 1 CryptConcepts.Substitution.identityMap [0]
      CryptConcepts.Substitution.identityBox identity_constructs 0⟩

/-- C15 fails on the code: the mapping that agrees with the identity except that it sends
255 to 0 has the same output at 0 and at 255, and `SBox8` constructs successfully from it:
the constructor never evaluates the mapping at 255. -/
theorem sbox8_collision_at_255_accepted :
    (∃ box, CryptConcepts.Substitution.SBox8.construct 1 CryptConcepts.Substitution.wrapMap [0]
        = .ok box) ∧
      CryptConcepts.Substitution.wrapMap [0] 0 = CryptConcepts.Substitution.wrapMap [0] 255 := by
  refine ⟨⟨{ keyVector := [0],
              primary := (List.range 255).map fun i =>
                (i, CryptConcepts.Substitution.wrapMap [0] i % 256),
              secondary := [] }, ?_⟩, by decide⟩
  rw [construct_spec 1 _ [0] rfl, if_pos]
  apply nodup_map_range
  intro a b ha hb e
  simp only [CryptConcepts.Substitution.wrapMap] at e
  split_ifs at e <;> omega

/-- C16 fails on the code: after a successful construction the forward table has 255
entries: the forward lookup returns the output of the mapping for the values
`0 .. 254`, and throws `std::out_of_range` for 255. -/
theorem sbox8_forward_table_255 (keySize : Nat) (mainFunc : List Nat → Nat → Nat)
    (key : List Nat) (box : CryptConcepts.Substitution.SBox8)
    (h : CryptConcepts.Substitution.SBox8.construct keySize mainFunc key = .ok box) :
    box.primary.length = 255 ∧
      (∀ x, x < 255 → box.apply x true = .ok (mainFunc key x % 256)) ∧
      box.apply 255 true = .error .out_of_range := by
  obtain ⟨hp, _⟩ := construct_ok keySize mainFunc key box h
  refine ⟨by rw [hp, List.length_map, List.length_range], ?_, ?_⟩
  · intro x hx
    simp only [CryptConcepts.Substitution.SBox8.apply, if_true, CryptConcepts.Substitution.mapAt,
      hp, mapFind_table, List.mem_range, hx]
  · simp only [CryptConcepts.Substitution.SBox8.apply, if_true, CryptConcepts.Substitution.mapAt,
      hp, mapFind_table, List.mem_range, Nat.lt_irrefl, if_false]

theorem sbox8_forward_table_255_witness :
    CryptConcepts.Substitution.SBox8.construct 1 CryptConcepts.Substitution.identityMap [0] =
        .ok CryptConcepts.Substitution.identityBox ∧
      (CryptConcepts.Substitution.identityBox.primary.length = 255 ∧
        (∀ x, x < 255 → CryptConcepts.Substitution.identityBox.apply x true =
          .ok (CryptConcepts.Substitution.identityMap [0] x % 256)) ∧
        CryptConcepts.Substitution.identityBox.apply 255 true = .error .out_of_range) :=
  ⟨identity_constructs,
    sbox8_forward_table_255 1 CryptConcepts.Substitution.identityMap [0]
      CryptConcepts.Substitution.identityBox identity_constructs⟩

/-! ## NACHA permutations on the empty vector -/

/-- C17 fails on the code: on the empty vector `permuteA`, `permuteB` and `permuteC` throw
nothing; they permute the filler bytes and return 15, 8 and 4 bytes. -/
theorem nacha_permute_empty_returns :
    NACHA.low.permuteA [] =
        .ok [170, 221, 255, 255, 85, 238, 153, 255, 250, 191, 239, 95, 245, 254, 251] ∧
      NACHA.low.permuteB [] = .ok [34, 204, 238, 119, 153, 153, 255, 255] ∧
      NACHA.low.permuteC [] = .ok [72, 52, 149, 52] := by
  refine ⟨?_, ?_, ?_⟩ <;> rfl

/-! ## VIPER-1: the layers of a round -/

/-- C18: for every key byte and every pair `(L, R)` of 12-byte blocks,
`permuteDec(permuteEnc((L, R), key), key) = (L, R)`; the indices where the final rotation
amount `(key + i) mod 8` is 0 are included. -/
theorem viper_permuteDec_permuteEnc (L R : List Nat) (key : Nat) (hL : L.length = 12)
    (hR : R.length = 12) (hLb : IsBytes L) (hRb : IsBytes R) (_hk : key < 256) :
    permuteDec (permuteEnc (L, R) key) key = (L, R) :=
  permuteDec_permuteEnc (L, R) key ⟨hL, hR, hLb, hRb⟩

theorem viper_permuteDec_permuteEnc_witness :
    permuteDec (permuteEnc ([1, 2, 3, 4, 5, 6, 7, 8, 9, 10, 11, 12],
        [13, 14, 15, 16, 17, 18, 19, 20, 21, 22, 23, 24]) 5) 5 =
      ([1, 2, 3, 4, 5, 6, 7, 8, 9, 10, 11, 12],
        [13, 14, 15, 16, 17, 18, 19, 20, 21, 22, 23, 24]) :=
  viper_permuteDec_permuteEnc [1, 2, 3, 4, 5, 6, 7, 8, 9, 10, 11, 12]
    [13, 14, 15, 16, 17, 18, 19, 20, 21, 22, 23, 24] 5 (by decide) (by decide) (by decide)
    (by decide) (by decide)

/-- C19: for every 60-byte key, every two-byte schedule and every pair of 12-byte halves,
`cycle_dec(cycle_enc(in, key, schedule), key, schedule) = in`.  The decrypt rounds are the
encrypt rounds in reverse order with the same schedule bits, and the encrypt rounds are
12 rounds on `key` at the offsets `0, 5, .., 55` followed by 4 rounds on the constant
sub-key of five `0xA5` bytes. -/
theorem viper_cycle_dec_cycle_enc (inp : vecpair) (key schedule : List Nat)
    (hk : key.length = 60) (hkb : IsBytes key) (hs : schedule.length = 2) (h : IsPair inp) :
    (cycle_enc inp key schedule).bind (fun q => cycle_dec q key schedule) = some inp ∧
      decRounds key schedule = (encRounds key schedule).reverse ∧
      (encRounds key schedule).map (fun r => (r.2.1, r.2.2)) =
        (List.range 12).map (fun r => (key, 5 * r)) ++
          List.replicate 4 (List.replicate 5 0xA5, 0) := by
  obtain ⟨q, hq, _, hd⟩ := cycle_dec_cycle_enc inp key schedule hk hkb hs h
  refine ⟨by rw [hq]; exact hd, decRounds_eq key schedule, ?_⟩
  simp only [encRounds, r4n, range12, List.map_cons, List.map_nil, List.replicate,
    List.cons_append, List.nil_append]

theorem viper_cycle_dec_cycle_enc_witness :
    (cycle_enc (List.replicate 12 0, List.replicate 12 0) (List.replicate 60 0) [0, 0]).bind
        (fun q => cycle_dec q (List.replicate 60 0) [0, 0]) =
        some (List.replicate 12 0, List.replicate 12 0) ∧
      decRounds (List.replicate 60 0) [0, 0] = (encRounds (List.replicate 60 0) [0, 0]).reverse ∧
      (encRounds (List.replicate 60 0) [0, 0]).map (fun r => (r.2.1, r.2.2)) =
        (List.range 12).map (fun r => (List.replicate 60 0, 5 * r)) ++
          List.replicate 4 (List.replicate 5 0xA5, 0) :=
  viper_cycle_dec_cycle_enc (List.replicate 12 0, List.replicate 12 0) (List.replicate 60 0)
    [0, 0] (by simp) (isBytes_replicate_zero 60) (by simp)
    ⟨by simp, by simp, isBytes_replicate_zero 12, isBytes_replicate_zero 12⟩

/-- C20: for all bytes `a`, `b` and all 12-byte blocks `x`, `y`, `arxDec` applied with the
same `a`, `b` to the two outputs of `arxEnc(x, y, a, b)` returns `(x, y)`, at the positions
where `rot = (a + b + i) mod 8` is 0 as at the others. -/
theorem viper_arxDec_arxEnc (x y : List Nat) (a b : Nat) (hx : x.length = 12)
    (hy : y.length = 12) (hxb : IsBytes x) (hyb : IsBytes y) (ha : a < 256) (_hb : b < 256) :
    (arxEnc x y a b).bind (fun q => arxDec q.1 q.2 a b) = some (x, y) := by
  obtain ⟨q, hq, _, hd⟩ := arxDec_arxEnc x y a b ⟨hx, hy, hxb, hyb⟩ ha
  rw [hq]; exact hd

theorem viper_arxDec_arxEnc_witness :
    (arxEnc [1, 2, 3, 4, 5, 6, 7, 8, 9, 10, 11, 12]
        [13, 14, 15, 16, 17, 18, 19, 20, 21, 22, 23, 24] 200 56).bind
      (fun q => arxDec q.1 q.2 200 56) =
      some ([1, 2, 3, 4, 5, 6, 7, 8, 9, 10, 11, 12],
        [13, 14, 15, 16, 17, 18, 19, 20, 21, 22, 23, 24]) :=
  viper_arxDec_arxEnc [1, 2, 3, 4, 5, 6, 7, 8, 9, 10, 11, 12]
    [13, 14, 15, 16, 17, 18, 19, 20, 21, 22, 23, 24] 200 56 (by decide) (by decide)
    (by decide) (by decide) (by decide) (by decide)

/-! ## VIPER-1: the reversible multiplication -/

/-- C21: for all bytes `a`, `b` and all blocks `x`, `y` of equal length, `revmultDec`
applied with the same `a`, `b` to the two outputs of `revmultEnc(x, y, a, b)` returns
`(x, y)`. -/
theorem viper_revmultDec_revmultEnc (x y : List Nat) (a b : Nat)
    (hlen : x.length = y.length) (hx : IsBytes x) (hy : IsBytes y) (ha : a < 256)
    (hb : b < 256) :
    (revmultEnc x y a b).bind (fun q => revmultDec q.1 q.2 a b) = some (x, y) := by
  obtain ⟨q, hq, _, _, _, _, hd⟩ := revmultDec_revmultEnc x y a b hlen hx hy ha hb
  rw [hq]; exact hd

theorem viper_revmultDec_revmultEnc_witness :
    (revmultEnc [1, 2, 3, 255] [4, 5, 6, 0] 200 56).bind
      (fun q => revmultDec q.1 q.2 200 56) = some ([1, 2, 3, 255], [4, 5, 6, 0]) :=
  viper_revmultDec_revmultEnc [1, 2, 3, 255] [4, 5, 6, 0] 200 56 (by decide) (by decide)
    (by decide) (by decide) (by decide)

/-- C22: for every raw key byte `k` the multiplier `sanitize k` that `revmultEnc` and
`revmultDec` use (shift right by 2 when `inverseKeyMod k = 255`, then 0 becomes 1, then an
even value gets 1 added) is odd, is not 255, and `inverseKeyMod` returns its inverse
modulo 256. -/
theorem viper_sanitize_invertible (k : Nat) (hk : k < 256) :
    sanitize k % 2 = 1 ∧ sanitize k ≠ 255 ∧
      (sanitize k * inverseKeyMod (sanitize k)) % 256 = 1 := by
  obtain ⟨h1, h2, h3⟩ := sanitize_spec k hk
  exact ⟨h1, by omega, h3⟩

theorem viper_sanitize_invertible_witness :
    sanitize 255 % 2 = 1 ∧ sanitize 255 ≠ 255 ∧
      (sanitize 255 * inverseKeyMod (sanitize 255)) % 256 = 1 :=
  viper_sanitize_invertible 255 (by decide)

/-- C23: for every byte `i`, `inverseKeyMod i` is the least `n` in `1 .. 254` with
`(i * n) mod 256 = 1` when there is one, and 255 otherwise; it is 255 exactly for the
even bytes and for 255 (whose inverse is 255 itself). -/
theorem viper_inverseKeyMod_least (i : Nat) (hi : i < 256) :
    (∀ n, 1 ≤ n → n ≤ 254 → (i * n) % 256 = 1 →
        1 ≤ inverseKeyMod i ∧ inverseKeyMod i ≤ n ∧ (i * inverseKeyMod i) % 256 = 1) ∧
      ((∀ n, 1 ≤ n → n ≤ 254 → (i * n) % 256 ≠ 1) → inverseKeyMod i = 255) ∧
      (inverseKeyMod i = 255 ↔ (i % 2 = 0 ∨ i = 255)) ∧
      (255 * 255) % 256 = 1 := by
  refine ⟨?_, ?_, ?_, by norm_num⟩
  · intro n h1 h2 hn
    rcases inverseKeyMod_spec i with h | h
    · refine ⟨h.2.1, ?_, h.1⟩
      by_contra hlt
      exact h.2.2.2 n h1 (by omega) hn
    · exact absurd hn (h.2 n h1 h2)
  · intro hno
    rcases inverseKeyMod_spec i with h | h
    · exact absurd h.1 (hno _ h.2.1 h.2.2.1)
    · exact h.1
  · constructor
    · intro h255
      by_contra hne
      have hodd : i % 2 = 1 := by omega
      have := (inverseKeyMod_of_odd i hi hodd (by omega)).2
      omega
    · intro hcase
      rcases inverseKeyMod_spec i with h | h
      · exfalso
        rcases hcase with he | he
        · have := odd_of_inverse i _ h.1
          omega
        · subst he
          have h1 := h.1
          have h2 := h.2.1
          have h3 := h.2.2.1
          generalize inverseKeyMod 255 = m at h1 h2 h3
          omega
      · exact h.1

theorem viper_inverseKeyMod_least_witness :
    (∀ n, 1 ≤ n → n ≤ 254 → (3 * n) % 256 = 1 →
        1 ≤ inverseKeyMod 3 ∧ inverseKeyMod 3 ≤ n ∧ (3 * inverseKeyMod 3) % 256 = 1) ∧
      ((∀ n, 1 ≤ n → n ≤ 254 → (3 * n) % 256 ≠ 1) → inverseKeyMod 3 = 255) ∧
      (inverseKeyMod 3 = 255 ↔ (3 % 2 = 0 ∨ 3 = 255)) ∧
      (255 * 255) % 256 = 1 :=
  viper_inverseKeyMod_least 3 (by decide)

/-! ## NACHA: `intertwine` and `split` -/

/-- C24: for every capacity `cap ≥ 2` and all inputs `A`, `B` of `cap` bytes `intertwine`
returns, and its result has `cap` bytes.  Each step of the loop
`while (ind >= cap) ind -= cap / 2` subtracts at least 1 and at most `ind`, and for every
`i` the loop ends with `ind < cap`, so `A[cap - 1 - ind]` and `B[ind]` are in range. -/
theorem nacha_intertwine_total (A B : List Nat) (cap : Nat) (h2 : 2 ≤ cap)
    (hA : A.length = cap) (hB : B.length = cap) :
    (∃ d, NACHA.low.intertwine A B cap = .ok d ∧ d.length = cap) ∧
      (∀ ind, cap ≤ ind → 1 ≤ cap / 2 ∧ cap / 2 ≤ ind) ∧
      ∀ i, i < cap → ∃ ind,
        NACHA.low.reduceInd cap ((i + (A.getD i 0 ^^^ B.getD ((cap - 1) - i) 0)) % 65536) =
          some ind ∧
        ind < cap ∧ (cap - 1) - ind < A.length ∧ ind < B.length := by
  refine ⟨intertwine_ok A B cap h2 hA hB, ?_, ?_⟩
  · intro ind hind
    have := Nat.div_le_self cap 2
    omega
  · intro i _
    obtain ⟨r, hr, hlt⟩ := reduceInd_some cap h2
      ((i + (A.getD i 0 ^^^ B.getD ((cap - 1) - i) 0)) % 65536)
    exact ⟨r, hr, hlt, by omega, by omega⟩

theorem nacha_intertwine_total_witness :
    (∃ d, NACHA.low.intertwine [1, 2, 3] [250, 251, 252] 3 = .ok d ∧ d.length = 3) ∧
      (∀ ind, 3 ≤ ind → 1 ≤ 3 / 2 ∧ 3 / 2 ≤ ind) ∧
      ∀ i, i < 3 → ∃ ind,
        NACHA.low.reduceInd 3
            ((i + ([1, 2, 3].getD i 0 ^^^ [250, 251, 252].getD ((3 - 1) - i) 0)) % 65536) =
          some ind ∧
        ind < 3 ∧ (3 - 1) - ind < [1, 2, 3].length ∧ ind < [250, 251, 252].length :=
  nacha_intertwine_total [1, 2, 3] [250, 251, 252] 3 (by decide) (by decide) (by decide)

theorem length_flatten_const (gs : List (List Nat)) (k : Nat)
    (h : ∀ g ∈ gs, g.length = k) : gs.flatten.length = gs.length * k := by
  induction gs with
  | nil => simp
  | cons g rest ih =>
    simp only [List.flatten_cons, List.length_append, List.length_cons,
      h g (List.mem_cons_self _ _), ih (fun x hx => h x (List.mem_cons_of_mem _ hx))]
    ring

/-- The groups of `splitLoop`, put end to end, are the bytes it was given up to a rest of
fewer than `blocks` bytes. -/
theorem splitLoop_flatten (blocks : Nat) (l cur : List Nat) (hc : cur.length < blocks) :
    ∃ rem, (NACHA.splitLoop blocks l cur).flatten ++ rem = cur ++ l ∧
      rem.length < blocks := by
  induction l generalizing cur with
  | nil => exact ⟨cur, by simp [NACHA.splitLoop], hc⟩
  | cons i rest ih =>
    have hlen : (cur ++ [i]).length = cur.length + 1 := by simp
    by_cases h : cur.length + 1 = blocks
    · obtain ⟨rem, hrem, hlt⟩ := ih [] (by simp only [List.length_nil]; omega)
      refine ⟨rem, ?_, hlt⟩
      simp only [NACHA.splitLoop, hlen, h, if_true, List.flatten_cons, List.append_assoc]
      rw [hrem]
      simp
    · obtain ⟨rem, hrem, hlt⟩ := ih (cur ++ [i]) (by rw [hlen]; omega)
      refine ⟨rem, ?_, hlt⟩
      simp only [NACHA.splitLoop, hlen, h, if_false]
      rw [hrem]
      simp

/-- What `split` does while the group size fits the `unsigned short blocks`: `osize`
groups of `padded length / osize` bytes whose concatenation is `v` followed by bytes taken
cyclically from `padding`. -/
theorem split_spec (v : List Nat) (osize : Nat) (padding : List Nat) (h1 : 1 ≤ osize)
    (h2 : osize ≤ 255) (hp : padding ≠ [])
    (hq : (v.length + (osize - v.length % osize)) / osize < 65536) :
    ∃ gs, NACHA.split v osize padding = .ok gs ∧ gs.length = osize ∧
      (∀ g ∈ gs, g.length = (v.length + (osize - v.length % osize)) / osize) ∧
      NACHA.fuse gs = v ++ NACHA.low.cyclicPad padding (osize - v.length % osize) := by
  have h0 : ¬ osize = 0 := by omega
  have hml := Nat.mod_lt v.length (by omega : 0 < osize)
  have hm : (osize - v.length % osize) % 256 = osize - v.length % osize := by omega
  have hU : osize - v.length % osize > 0 := by omega
  have hpl : ¬ padding.length = 0 := fun h => hp (List.length_eq_zero.mp h)
  have hdvd : osize ∣ v.length + (osize - v.length % osize) := by
    have h := Nat.div_add_mod v.length osize
    refine ⟨v.length / osize + 1, ?_⟩
    rw [Nat.mul_add, Nat.mul_one]
    omega
  obtain ⟨q, hqe⟩ := hdvd
  have hq1 : 1 ≤ q := by
    rcases Nat.eq_zero_or_pos q with h | h
    · subst h; omega
    · exact h
  have hdiv : (v.length + (osize - v.length % osize)) / osize = q := by
    rw [hqe]; exact Nat.mul_div_cancel_left q (by omega)
  rw [hdiv] at hq ⊢
  have hblocks : q % 65536 = q := Nat.mod_eq_of_lt hq
  have htot : (v ++ NACHA.low.cyclicPad padding (osize - v.length % osize)).length =
      osize * q := by
    rw [List.length_append, cyclicPad_length, hqe]
  have e : NACHA.split v osize padding = .ok (NACHA.splitLoop q
      (v ++ NACHA.low.cyclicPad padding (osize - v.length % osize)) []) := by
    simp only [NACHA.split, h0, if_false, hm, hU, hpl, and_false, if_true, List.length_append,
      cyclicPad_length, hdiv, hblocks]
  obtain ⟨hcount, hlens⟩ := splitLoop_spec q (by omega)
    (v ++ NACHA.low.cyclicPad padding (osize - v.length % osize)) [] (by simpa using hq1)
  rw [List.length_nil, Nat.zero_add, htot, Nat.mul_div_cancel _ (by omega : 0 < q)] at hcount
  obtain ⟨rem, hrem, _⟩ := splitLoop_flatten q
    (v ++ NACHA.low.cyclicPad padding (osize - v.length % osize)) [] (by simpa using hq1)
  have hfl := length_flatten_const _ q hlens
  rw [hcount] at hfl
  have hrl : rem.length = 0 := by
    have := congrArg List.length hrem
    rw [List.length_append, hfl, List.nil_append, htot] at this
    omega
  rw [List.length_eq_zero.mp hrl, List.append_nil, List.nil_append] at hrem
  exact ⟨_, e, hcount, hlens, hrem⟩

theorem split_wraps (l : List Nat) (hl : l.length = 65535) :
    NACHA.split l 1 NACHA.defaultPadding = .ok [] := by
  have hpl : ¬ NACHA.defaultPadding.length = 0 := by decide
  have hu : (1 - 65535 % 1) % 256 = 1 := by norm_num
  have hb : (65535 + 1) / 1 % 65536 = 0 := by norm_num
  simp only [NACHA.split, hl, hu, one_ne_zero, if_false, hpl, and_false, gt_iff_lt,
    Nat.zero_lt_one, if_true, List.length_append, cyclicPad_length, hb, splitLoop_zero]

/-- C25 fails on the code: for 65535 bytes and one group the padded length 65536 does not
fit the `unsigned short blocks`, which becomes 0, and `split` returns no group at all. -/
theorem nacha_split_large_input_no_groups :
    NACHA.split (List.replicate 65535 0) 1 NACHA.defaultPadding = .ok [] :=
  split_wraps _ (List.length_replicate _ _)

/-! ## NACHA: lengths and pairing of the permutations -/

/-- C26: for every non-empty input `v`, `permuteA v` returns `2 * P - 1` bytes, where
`P = |v| + (8 - |v| mod 8)` is the length of `v` after the `DE AD BE EF` padding. -/
theorem nacha_permuteA_length (v : List Nat) (_hv : v ≠ []) :
    ∃ r, NACHA.low.permuteA v = .ok r ∧
      (v ++ NACHA.low.cyclicPad [0xDE, 0xAD, 0xBE, 0xEF] (8 - v.length % 8)).length =
        v.length + (8 - v.length % 8) ∧
      r.length = 2 * (v.length + (8 - v.length % 8)) - 1 := by
  obtain ⟨r, hr, hl⟩ := permuteA_ok v
  exact ⟨r, hr, by rw [List.length_append, cyclicPad_length],
    by rw [hl]; simp only [NACHA.lenA, NACHA.pad8]⟩

theorem nacha_permuteA_length_witness :
    ∃ r, NACHA.low.permuteA [1, 2, 3] = .ok r ∧
      ([1, 2, 3] ++ NACHA.low.cyclicPad [0xDE, 0xAD, 0xBE, 0xEF]
          (8 - [1, 2, 3].length % 8)).length =
        [1, 2, 3].length + (8 - [1, 2, 3].length % 8) ∧
      r.length = 2 * ([1, 2, 3].length + (8 - [1, 2, 3].length % 8)) - 1 :=
  nacha_permuteA_length [1, 2, 3] (by decide)

/-- C27 fails on the code: an input of 8 bytes, whose length is a multiple of eight, gets
8 more bytes of `FE ED C0 DE` padding and `permuteB` returns 16 bytes. -/
theorem nacha_permuteB_multiple_of_eight_grows :
    NACHA.low.permuteB [0, 0, 0, 0, 0, 0, 0, 0] =
      .ok [0, 0, 0, 0, 0, 0, 0, 0, 34, 204, 238, 119, 153, 153, 255, 255] := by
  rfl

/-- The result of `permuteC` depends on the `permuteB` result `P` of even size `s` only
through `P[0 .. s/2]`: the bytes behind the middle are not read. -/
theorem permuteC_body_front (P Q : List Nat) (hlen : P.length = Q.length)
    (he : P.length % 2 = 0) (h : ∀ k, k ≤ P.length / 2 → P.getD k 0 = Q.getD k 0) :
    NACHA.low.permuteC_body P = NACHA.low.permuteC_body Q := by
  have heQ : Q.length % 2 = 0 := by rw [← hlen]; exact he
  have hP : ¬ P.length % 2 = 1 := by omega
  have hQ : ¬ Q.length % 2 = 1 := by omega
  have houta : ((List.range (P.length / 2)).map fun i =>
        if i % 2 = 1 then
          ((P.getD i 0 >>> 4) ^^^ (P.getD (P.length / 2 - i) 0 <<< 4) ^^^
            (P.getD i 0 &&& bnot (P.getD (P.length / 2 - i) 0))) % 256
        else
          ((P.getD i 0 >>> 3) ^^^ (P.getD (P.length / 2 - i) 0 <<< 5) ^^^
            (bnot (P.getD i 0) &&& P.getD (P.length / 2 - i) 0)) % 256) =
      ((List.range (P.length / 2)).map fun i =>
        if i % 2 = 1 then
          ((Q.getD i 0 >>> 4) ^^^ (Q.getD (P.length / 2 - i) 0 <<< 4) ^^^
            (Q.getD i 0 &&& bnot (Q.getD (P.length / 2 - i) 0))) % 256
        else
          ((Q.getD i 0 >>> 3) ^^^ (Q.getD (P.length / 2 - i) 0 <<< 5) ^^^
            (bnot (Q.getD i 0) &&& Q.getD (P.length / 2 - i) 0)) % 256) := by
    apply List.map_congr_left
    intro i hi
    have hi' : i < P.length / 2 := List.mem_range.mp hi
    rw [h i (by omega), h (P.length / 2 - i) (by omega)]
  simp only [NACHA.low.permuteC_body, hP, hQ, if_false]
  rw [← hlen, houta]

/-- C28 fails on the code: the inputs `[0,0,0,0,0,0,0]` and `[128,0,0,0,0,0,0]` have
`permuteB` results of size 8 that differ in the back byte `P[7]` only, and `permuteC`
returns the same bytes for both: the first combined byte is computed from `P[0]` and
`P[4]`, and `P[5]`, `P[6]`, `P[7]` are not read. -/
theorem nacha_permuteC_ignores_back :
    NACHA.low.permuteB [0, 0, 0, 0, 0, 0, 0] = .ok [0, 64, 32, 16, 8, 4, 2, 1] ∧
      NACHA.low.permuteB [128, 0, 0, 0, 0, 0, 0] = .ok [0, 64, 32, 16, 8, 4, 2, 3] ∧
      NACHA.low.permuteC [0, 0, 0, 0, 0, 0, 0] = .ok [15, 232, 251, 207] ∧
      NACHA.low.permuteC [128, 0, 0, 0, 0, 0, 0] = .ok [15, 232, 251, 207] := by
  refine ⟨?_, ?_, ?_, ?_⟩ <;> rfl

/-! ## NACHA: the auxiliary vector of the compression -/

/-- The compression step passes the row reduction and the auxiliary vector to
`intertwine`. -/
theorem compress_eq (t : List Nat) (capac : Nat) (h1 : 1 ≤ capac) (hc : capac < 65536)
    (hr : (t.length + (capac - t.length % capac)) / capac < 65536) :
    NACHA.compress t capac =
      NACHA.low.intertwine (NACHA.reduction t capac).1
        (NACHA.auxVector (NACHA.reduction t capac).2 capac) capac := by
  have h0 : ¬ capac = 0 := by omega
  have hml := Nat.mod_lt t.length (by omega : 0 < capac)
  have hadd : (capac - t.length % capac) % 65536 = capac - t.length % capac := by omega
  have hge : 1 ≤ (t.length + (capac - t.length % capac)) / capac := by
    have := Nat.mod_le t.length capac
    rw [Nat.le_div_iff_mul_le (by omega)]; omega
  have hratio : ¬ (t.length + (capac - t.length % capac)) / capac % 65536 = 0 := by
    rw [Nat.mod_eq_of_lt hr]; omega
  simp only [NACHA.compress, NACHA.reduction, NACHA.auxVector, h0, if_false,
    List.length_append, List.length_replicate, hadd, hratio]

/-- What `hash` hands to `intertwine`, while the row length fits the `unsigned short`. -/
theorem hash_eq (inp : List Nat) (capac blkA blkB : Nat) (h1 : 1 ≤ capac)
    (hc : capac < 65536) (hA1 : 1 ≤ blkA) (hA2 : blkA ≤ 255) (hB1 : 1 ≤ blkB)
    (hB2 : blkB ≤ 255)
    (hr : (NACHA.hashTempLen inp.length blkA blkB +
      (capac - NACHA.hashTempLen inp.length blkA blkB % capac)) / capac < 65536) :
    ∃ temp, NACHA.hashTemp inp blkA blkB = .ok temp ∧
      NACHA.hash inp capac blkA blkB =
        NACHA.low.intertwine (NACHA.reduction temp capac).1
          (NACHA.auxVector (NACHA.reduction temp capac).2 capac) capac := by
  obtain ⟨t, ht, htl⟩ := hashTemp_ok inp blkA blkB hA1 hA2 hB1 hB2
  refine ⟨t, ht, ?_⟩
  simp only [NACHA.hash, ht]
  exact compress_eq t capac h1 hc (by rw [htl]; exact hr)

/-- The entries of the auxiliary vector. -/
theorem auxVector_getD (lastxor capac i : Nat) (hi : i < capac) :
    (NACHA.auxVector lastxor capac).getD i 0 =
      ((i + lastxor) * (i % 256 + (i ^^^ capac))) % 256 := by
  simp only [NACHA.auxVector]
  rw [getD_map_range _ _ _ hi]
  show ((i % 256 + lastxor) * (i % 256 + (i ^^^ capac))) % 256 = _
  rw [Nat.mul_mod, Nat.mul_mod (i + lastxor)]
  congr 2
  omega

/-- C29 as the spec states it fails: for the one-byte input `[1]` with capacity 16 and
denominators 5 and 3, some entry `T[i]`, `i < 16`, of the vector that `hash` passes to
`intertwine` is not `((i + lastxor) * (i xor 16)) mod 256` (the entry 1 when `lastxor` is
not 255, the entry 3 otherwise). -/
theorem nacha_aux_vector_not_xor :
    ∃ temp, NACHA.hashTemp [1] 5 3 = .ok temp ∧
      NACHA.hash [1] 16 5 3 =
        NACHA.low.intertwine (NACHA.reduction temp 16).1
          (NACHA.auxVector (NACHA.reduction temp 16).2 16) 16 ∧
      ∃ i, i < 16 ∧ (NACHA.auxVector (NACHA.reduction temp 16).2 16).getD i 0 ≠
        ((i + (NACHA.reduction temp 16).2) * (i ^^^ 16)) % 256 := by
  have hL : NACHA.hashTempLen ([1] : List Nat).length 5 3 = 404 := by decide
  obtain ⟨temp, ht, hh⟩ := hash_eq [1] 16 5 3 (by norm_num) (by norm_num) (by norm_num)
    (by norm_num) (by norm_num) (by norm_num) (by rw [hL]; decide)
  refine ⟨temp, ht, hh, ?_⟩
  generalize (NACHA.reduction temp 16).2 = l
  by_cases h : (1 + l) % 256 = 0
  · refine ⟨3, by norm_num, ?_⟩
    rw [auxVector_getD l 16 3 (by norm_num)]
    have e1 : 3 % 256 + (3 ^^^ 16) = 22 := by decide
    have e2 : 3 ^^^ 16 = 19 := by decide
    rw [e1, e2]
    omega
  · refine ⟨1, by norm_num, ?_⟩
    rw [auxVector_getD l 16 1 (by norm_num)]
    have e1 : 1 % 256 + (1 ^^^ 16) = 18 := by decide
    have e2 : 1 ^^^ 16 = 17 := by decide
    rw [e1, e2]
    omega

/-- C29 (amended): in the compression step of `hash` the auxiliary vector `T` passed to
`intertwine` has `capac` entries and
`T[i] = ((i + lastxor) * ((i mod 256) + (i xor capac))) mod 256` for every `i < capac`,
with `lastxor` the value carried out of the row reduction. -/
theorem nacha_aux_vector (inp : List Nat) (capac blkA blkB : Nat) (h1 : 1 ≤ capac)
    (hc : capac < 65536) (hA1 : 1 ≤ blkA) (hA2 : blkA ≤ 255) (hB1 : 1 ≤ blkB)
    (hB2 : blkB ≤ 255)
    (hr : (NACHA.hashTempLen inp.length blkA blkB +
      (capac - NACHA.hashTempLen inp.length blkA blkB % capac)) / capac < 65536) :
    ∃ temp, NACHA.hashTemp inp blkA blkB = .ok temp ∧
      NACHA.hash inp capac blkA blkB =
        NACHA.low.intertwine (NACHA.reduction temp capac).1
          (NACHA.auxVector (NACHA.reduction temp capac).2 capac) capac ∧
      (NACHA.auxVector (NACHA.reduction temp capac).2 capac).length = capac ∧
      ∀ i, i < capac → (NACHA.auxVector (NACHA.reduction temp capac).2 capac).getD i 0 =
        ((i + (NACHA.reduction temp capac).2) * (i % 256 + (i ^^^ capac))) % 256 := by
  obtain ⟨temp, ht, hh⟩ := hash_eq inp capac blkA blkB h1 hc hA1 hA2 hB1 hB2 hr
  exact ⟨temp, ht, hh, by simp only [NACHA.auxVector, List.length_map, List.length_range],
    fun i hi => auxVector_getD _ capac i hi⟩

theorem nacha_aux_vector_witness :
    ∃ temp, NACHA.hashTemp [1] 5 3 = .ok temp ∧
      NACHA.hash [1] 16 5 3 =
        NACHA.low.intertwine (NACHA.reduction temp 16).1
          (NACHA.auxVector (NACHA.reduction temp 16).2 16) 16 ∧
      (NACHA.auxVector (NACHA.reduction temp 16).2 16).length = 16 ∧
      ∀ i, i < 16 → (NACHA.auxVector (NACHA.reduction temp 16).2 16).getD i 0 =
        ((i + (NACHA.reduction temp 16).2) * (i % 256 + (i ^^^ 16))) % 256 :=
  nacha_aux_vector [1] 16 5 3 (by decide) (by decide) (by decide) (by decide) (by decide)
    (by decide) (by decide)

/-! ## NACHA: the bit transpose of `permuteA` -/

theorem range8 : List.range 8 = [0, 1, 2, 3, 4, 5, 6, 7] := by decide

/-- Bit `j` of the one-bit value `(x >> B) & 1` moved to position `i`. -/
theorem testBit_placed (x B i j : Nat) :
    (((x >>> B) &&& 1) <<< i).testBit j = (decide (j = i) && x.testBit B) := by
  rw [Nat.testBit_shiftLeft, Nat.testBit_and, Nat.testBit_shiftRight]
  by_cases h : j = i
  · subst h
    simp [Nat.testBit_one_zero]
  · by_cases hge : j ≥ i
    · have h1 : Nat.testBit 1 (j - i) = false := by
        have hne : ¬ j - i = 0 := by omega
        cases hb : Nat.testBit 1 (j - i) with
        | false => rfl
        | true => exact absurd (Nat.testBit_one_eq_true_iff_self_eq_zero.mp hb) hne
      simp [h, h1]
    · simp [h, hge]

/-- The bits of one output byte of a chunk of `permuteA`: bit `j` of output byte `B` is
bit `B` of input byte `j`. -/
theorem permuteA_chunk_testBit (tmp : List Nat) (IND B j : Nat) (hB : B < 8) :
    ((NACHA.low.permuteA_chunk tmp IND).getD B 0).testBit j =
      (decide (j < 8) && (tmp.getD (IND + j) 0).testBit B) := by
  simp only [NACHA.low.permuteA_chunk]
  rw [getD_map_range _ _ _ hB]
  simp only [range8, List.foldl_cons, List.foldl_nil, Nat.testBit_or, testBit_placed,
    Nat.zero_testBit, Bool.false_or]
  by_cases hj : j < 8
  · interval_cases j <;> simp
  · have h0 : ¬ j = 0 := by omega
    have h1 : ¬ j = 1 := by omega
    have h2 : ¬ j = 2 := by omega
    have h3 : ¬ j = 3 := by omega
    have h4 : ¬ j = 4 := by omega
    have h5 : ¬ j = 5 := by omega
    have h6 : ¬ j = 6 := by omega
    have h7 : ¬ j = 7 := by omega
    simp [hj, h0, h1, h2, h3, h4, h5, h6, h7]

/-- Entry `8 * c + B` of chunks of 8 bytes put end to end. -/
theorem getD_flatMap_chunks (f : Nat → List Nat) (hf : ∀ x, (f x).length = 8) (m c B : Nat)
    (hc : c < m) (hB : B < 8) :
    ((List.range m).flatMap f).getD (8 * c + B) 0 = (f c).getD B 0 := by
  induction m with
  | zero => omega
  | succ m ih =>
    have hlen : ((List.range m).flatMap f).length = m * 8 :=
      by rw [flatMap_length_const _ _ 8 hf, List.length_range]
    rw [List.range_succ, List.flatMap_append]
    by_cases h : c < m
    · rw [List.getD_append _ _ _ _ (by rw [hlen]; omega)]
      exact ih h
    · have hcm : c = m := by omega
      subst hcm
      rw [List.getD_append_right _ _ _ _ (by rw [hlen]; omega), hlen]
      have e : 8 * c + B - c * 8 = B := by omega
      rw [e]
      simp

/-- The first `P` bytes of `permuteA_body` on a padded copy of `P` bytes are the chunks
of the first pass. -/
theorem permuteA_body_getD (tmp : List Nat) (c B : Nat) (hc : c < tmp.length / 8)
    (hB : B < 8) :
    (NACHA.low.permuteA_body tmp).getD (8 * c + B) 0 =
      (NACHA.low.permuteA_chunk tmp ((c * 8) % 256)).getD B 0 := by
  have hf : ∀ x, (NACHA.low.permuteA_chunk tmp ((x * 8) % 256)).length = 8 := by
    intro x; simp [NACHA.low.permuteA_chunk]
  have hlen : ((List.range (tmp.length / 8)).flatMap
      fun x => NACHA.low.permuteA_chunk tmp ((x * 8) % 256)).length = tmp.length / 8 * 8 := by
    rw [flatMap_length_const _ _ 8 hf, List.length_range]
  simp only [NACHA.low.permuteA_body]
  rw [List.getD_append _ _ _ _ (by rw [hlen]; omega)]
  exact getD_flatMap_chunks _ hf _ c B hc hB

/-- C30: for every input `v` and every 8-byte chunk `c < 32` of its padded copy, the first
pass of `permuteA` writes the 8x8 bit transpose of the chunk: bit `i` of output byte
`8c + B` is bit `B` of padded input byte `8c + i`, for all `i`, `B` in `0 .. 7`; and the
transpose of the transposed chunk is the chunk. -/
theorem nacha_permuteA_transpose (v : List Nat) (c i B : Nat) (hv : IsBytes v) (hc : c < 32)
    (hcl : c < (v ++ NACHA.low.cyclicPad [0xDE, 0xAD, 0xBE, 0xEF]
      (8 - v.length % 8)).length / 8)
    (hi : i < 8) (hB : B < 8) :
    ∃ out, NACHA.low.permuteA v = .ok out ∧
      (out.getD (8 * c + B) 0).testBit i =
        ((v ++ NACHA.low.cyclicPad [0xDE, 0xAD, 0xBE, 0xEF] (8 - v.length % 8)).getD
          (8 * c + i) 0).testBit B ∧
      NACHA.low.permuteA_chunk
          (NACHA.low.permuteA_chunk
            (v ++ NACHA.low.cyclicPad [0xDE, 0xAD, 0xBE, 0xEF] (8 - v.length % 8)) (8 * c)) 0 =
        (List.range 8).map fun k =>
          (v ++ NACHA.low.cyclicPad [0xDE, 0xAD, 0xBE, 0xEF] (8 - v.length % 8)).getD
            (8 * c + k) 0 := by
  refine ⟨_, permuteA_eq v, ?_, ?_⟩
  · have hIND : (c * 8) % 256 = 8 * c := by omega
    rw [permuteA_body_getD _ c B hcl hB, hIND, permuteA_chunk_testBit _ _ _ _ hB]
    simp [hi]
  · have hpad : IsBytes (v ++ NACHA.low.cyclicPad [0xDE, 0xAD, 0xBE, 0xEF]
        (8 - v.length % 8)) := by
      intro b hb
      rcases List.mem_append.mp hb with h | h
      · exact hv b h
      · simp only [NACHA.low.cyclicPad, List.mem_map, List.mem_range] at h
        obtain ⟨k, _, rfl⟩ := h
        have hk : k % 4 < 4 := Nat.mod_lt _ (by norm_num)
        simp only [List.length_cons, List.length_nil]
        interval_cases (k % 4) <;> simp
    generalize (v ++ NACHA.low.cyclicPad [0xDE, 0xAD, 0xBE, 0xEF] (8 - v.length % 8)) = tmp
      at hpad ⊢
    symm
    apply map_range_eq
    · simp [NACHA.low.permuteA_chunk]
    · intro k hk
      apply Nat.eq_of_testBit_eq
      intro j
      rw [permuteA_chunk_testBit _ _ _ _ hk]
      by_cases hj : j < 8
      · rw [Nat.zero_add, permuteA_chunk_testBit _ _ _ _ hj]
        simp [hj, hk]
      · have hlt : tmp.getD (8 * c + k) 0 < 2 ^ j :=
          Nat.lt_of_lt_of_le (getD_lt hpad _)
            (by
              have : (256 : Nat) = 2 ^ 8 := by norm_num
              rw [this]; exact Nat.pow_le_pow_right (by norm_num) (by omega))
        rw [Nat.testBit_lt_two_pow hlt]
        simp [hj]

theorem nacha_permuteA_transpose_witness :
    ∃ out, NACHA.low.permuteA [1, 2, 3] = .ok out ∧
      (out.getD (8 * 0 + 0) 0).testBit 1 =
        (([1, 2, 3] ++ NACHA.low.cyclicPad [0xDE, 0xAD, 0xBE, 0xEF]
          (8 - [1, 2, 3].length % 8)).getD (8 * 0 + 1) 0).testBit 0 ∧
      NACHA.low.permuteA_chunk
          (NACHA.low.permuteA_chunk
            ([1, 2, 3] ++ NACHA.low.cyclicPad [0xDE, 0xAD, 0xBE, 0xEF]
              (8 - [1, 2, 3].length % 8)) (8 * 0)) 0 =
        (List.range 8).map fun k =>
          ([1, 2, 3] ++ NACHA.low.cyclicPad [0xDE, 0xAD, 0xBE, 0xEF]
            (8 - [1, 2, 3].length % 8)).getD (8 * 0 + k) 0 :=
  nacha_permuteA_transpose [1, 2, 3] 0 1 0 (by decide) (by decide) (by decide) (by decide)
    (by decide)

/-! ## KOBRA: key positions and prefixes -/

/-- The value of `tempIndex` at position `p` of the text, for a key size that fits the
`unsigned short`. -/
theorem nextIndex_iterate (s p : Nat) (h1 : 1 ≤ s) (h2 : s < 65536) :
    Nat.iterate (KOBRA.Low.nextIndex s) p 0 = p % s := by
  induction p with
  | zero => simp
  | succ p ih =>
    rw [Function.iterate_succ_apply', ih]
    have hlt : p % s < s := Nat.mod_lt _ (by omega)
    unfold KOBRA.Low.nextIndex
    by_cases he : p % s + 1 = s
    · have hc : ((p % s : Nat) : Int) = (s : Int) - 1 := by omega
      rw [if_pos hc, Nat.add_mod]
      by_cases hs1 : s = 1
      · subst hs1; omega
      · rw [Nat.mod_eq_of_lt (show 1 < s by omega), he, Nat.mod_self]
    · have hc : ¬ ((p % s : Nat) : Int) = (s : Int) - 1 := by omega
      rw [if_neg hc, Nat.mod_eq_of_lt (show p % s + 1 < 65536 by omega), Nat.add_mod]
      have h1s : 1 % s = 1 := Nat.mod_eq_of_lt (by omega)
      rw [h1s, Nat.mod_eq_of_lt (show p % s + 1 < s by omega)]

/-- The loop of `cipherEncrypt` on a text `xs ++ ys`: the bytes for `xs` do not depend on
`ys`, and the loop goes on with `ys` from the `tempIndex` reached after `|xs|` steps. -/
theorem encryptLoop_append (mem : Int → Nat) (key : List Nat) (size : Nat)
    (xs ys : List Nat) (x t : Nat) :
    ∃ x2, KOBRA.Low.encryptLoop mem key size (xs ++ ys) x t =
      KOBRA.Low.encryptLoop mem key size xs x t ++
        KOBRA.Low.encryptLoop mem key size ys x2
          (Nat.iterate (KOBRA.Low.nextIndex size) xs.length t) := by
  induction xs generalizing x t with
  | nil => exact ⟨x, by simp [KOBRA.Low.encryptLoop]⟩
  | cons p rest ih =>
    simp only [List.cons_append, KOBRA.Low.encryptLoop, List.length_cons,
      Function.iterate_succ_apply, List.cons.injEq, true_and]
    exact ih _ _

/-- With the same byte one past the copies of the key in the two calls, `cipherEncrypt`
keeps prefixes: for every IV, every key with `12 ≤ |key| ≤ |p|` and `|key| < 65536` and all
texts `p`, `q`, the first `|p|` bytes of `cipherEncrypt(p ++ q, key, IV)` are
`cipherEncrypt(p, key, IV)`. -/
theorem cipherEncrypt_take_same_stray (mem1 mem2 : Int → Nat) (p q key : List Nat) (IV : Nat)
    (h12 : 12 ≤ key.length) (hkp : key.length ≤ p.length) (h2 : key.length < 65536)
    (hs : mem1 key.length % 256 = mem2 key.length % 256) :
    (KOBRA.Low.cipherEncrypt mem1 (p ++ q) key IV).map (List.take p.length) =
        KOBRA.Low.cipherEncrypt mem2 p key IV ∧
      (KOBRA.Low.cipherEncrypt mem2 p key IV).isSome = true := by
  rw [cipherEncrypt_same_stray mem1 mem2 (p ++ q) key IV h2 hs]
  have h1 : ¬ key.length < 12 := by omega
  have h3 : ¬ p.length < key.length := by omega
  have h4 : ¬ (p ++ q).length < key.length := by rw [List.length_append]; omega
  obtain ⟨x2, hx⟩ := encryptLoop_append mem2 key (key.length % 65536) p q IV 0
  simp only [KOBRA.Low.cipherEncrypt, h1, h3, h4, if_false, Option.map_some', hx,
    Option.isSome_some, and_true]
  rw [List.take_left' (encryptLoop_length _ _ _ _ _ _)]

/-- C33 fails on the code: each call of `cipherEncrypt` reads `key[size]`, one past the end
of its own copy of the key, at `tempIndex` 0.  With the 12-byte text `p` and key of zero
bytes, `q = [0]` and IV 0, a byte 0 behind the key in the call on `p` and a byte 9 behind
the key in the call on `p ++ q`, the first 12 bytes of the second result are not the first
result: the first bytes are 255 and 246. -/
theorem kobra_cipherEncrypt_stray_byte :
    KOBRA.Low.cipherEncrypt (fun _ => 0) [0, 0, 0, 0, 0, 0, 0, 0, 0, 0, 0, 0]
        [0, 0, 0, 0, 0, 0, 0, 0, 0, 0, 0, 0] 0 =
      some [255, 16, 254, 16, 254, 16, 254, 16, 254, 16, 254, 16] ∧
    (KOBRA.Low.cipherEncrypt (fun _ => 9) ([0, 0, 0, 0, 0, 0, 0, 0, 0, 0, 0, 0] ++ [0])
        [0, 0, 0, 0, 0, 0, 0, 0, 0, 0, 0, 0] 0).map
        (List.take [0, 0, 0, 0, 0, 0, 0, 0, 0, 0, 0, 0].length) =
      some [246, 144, 246, 144, 246, 144, 246, 144, 246, 144, 246, 144] := by
  decide

/-- The index pattern of `key[size - tempIndex]` for a key of `s < 65536` bytes: at a
position `p` that is a multiple of `s` the index is `s`, one past the key, and the byte
comes from the memory behind the key; at every other position the index is
`s - p mod s`, between 1 and `s - 1`, and the byte is a key byte. -/
theorem key_index_pattern (mem : Int → Nat) (key : List Nat) (p : Nat)
    (h1 : 1 ≤ key.length) (h2 : key.length < 65536) :
    Nat.iterate (KOBRA.Low.nextIndex (key.length % 65536)) p 0 = p % key.length ∧
      (p % key.length = 0 →
        ((key.length % 65536 : Nat) : Int) -
            (Nat.iterate (KOBRA.Low.nextIndex (key.length % 65536)) p 0 : Nat) = key.length ∧
          KOBRA.Low.keyAt mem key (((key.length % 65536 : Nat) : Int) -
            (Nat.iterate (KOBRA.Low.nextIndex (key.length % 65536)) p 0 : Nat)) =
            mem key.length % 256) ∧
      (p % key.length ≠ 0 →
        1 ≤ ((key.length % 65536 : Nat) : Int) -
            (Nat.iterate (KOBRA.Low.nextIndex (key.length % 65536)) p 0 : Nat) ∧
          ((key.length % 65536 : Nat) : Int) -
            (Nat.iterate (KOBRA.Low.nextIndex (key.length % 65536)) p 0 : Nat) ≤
              (key.length : Int) - 1 ∧
          KOBRA.Low.keyAt mem key (((key.length % 65536 : Nat) : Int) -
            (Nat.iterate (KOBRA.Low.nextIndex (key.length % 65536)) p 0 : Nat)) =
            key.getD (key.length - p % key.length) 0) := by
  have hm : key.length % 65536 = key.length := Nat.mod_eq_of_lt h2
  have hlt : p % key.length < key.length := Nat.mod_lt _ (by omega)
  rw [hm, nextIndex_iterate key.length p h1 h2]
  refine ⟨rfl, ?_, ?_⟩
  · intro h0
    rw [h0]
    have e : (key.length : Int) - ((0 : Nat) : Int) = key.length := by simp
    rw [e]
    exact ⟨rfl, keyAt_outside mem key⟩
  · intro hne
    refine ⟨by omega, by omega, ?_⟩
    rw [keyAt_inside mem key _ (by omega) (by omega)]
    congr 1
    omega

/-- With a key longer than its `unsigned short` size, and that size positive, every key
byte that `cipherEncrypt` reads lies inside the key. -/
theorem encryptLoop_mem_indep (mem mem2 : Int → Nat) (key : List Nat) (size : Nat)
    (h0 : 0 < size) (hs : size < 65536) (hk : size < key.length) (xs : List Nat) (x t : Nat)
    (ht : t < size) :
    KOBRA.Low.encryptLoop mem key size xs x t = KOBRA.Low.encryptLoop mem2 key size xs x t := by
  induction xs generalizing x t with
  | nil => rfl
  | cons p rest ih =>
    have e1 : KOBRA.Low.keyAt mem key (t : Int) = KOBRA.Low.keyAt mem2 key (t : Int) := by
      rw [keyAt_inside mem key _ (by omega) (by omega),
        keyAt_inside mem2 key _ (by omega) (by omega)]
    have e2 : KOBRA.Low.keyAt mem key ((size : Int) - (t : Int)) =
        KOBRA.Low.keyAt mem2 key ((size : Int) - (t : Int)) := by
      rw [keyAt_inside mem key _ (by omega) (by omega),
        keyAt_inside mem2 key _ (by omega) (by omega)]
    simp only [KOBRA.Low.encryptLoop, e1, e2, List.cons.injEq, true_and]
    exact ih _ _ (nextIndex_lt size t h0 hs ht)

theorem decryptLoop_mem_indep (mem mem2 : Int → Nat) (key : List Nat) (size : Nat)
    (h0 : 0 < size) (hs : size < 65536) (hk : size < key.length) (xs : List Nat) (x t : Nat)
    (ht : t < size) :
    KOBRA.Low.decryptLoop mem key size xs x t = KOBRA.Low.decryptLoop mem2 key size xs x t := by
  induction xs generalizing x t with
  | nil => rfl
  | cons p rest ih =>
    have e1 : KOBRA.Low.keyAt mem key (t : Int) = KOBRA.Low.keyAt mem2 key (t : Int) := by
      rw [keyAt_inside mem key _ (by omega) (by omega),
        keyAt_inside mem2 key _ (by omega) (by omega)]
    have e2 : KOBRA.Low.keyAt mem key ((size : Int) - (t : Int)) =
        KOBRA.Low.keyAt mem2 key ((size : Int) - (t : Int)) := by
      rw [keyAt_inside mem key _ (by omega) (by omega),
        keyAt_inside mem2 key _ (by omega) (by omega)]
    simp only [KOBRA.Low.decryptLoop, e1, e2, List.cons.injEq, true_and]
    exact ih _ _ (nextIndex_lt size t h0 hs ht)

theorem long_key_inside (mem mem2 : Int → Nat) (key text : List Nat) (IV : Nat)
    (hk : key.length = 65548) :
    key.length % 65536 = 12 ∧
      KOBRA.Low.keyAt mem key (((key.length % 65536 : Nat) : Int) - ((0 : Nat) : Int)) =
        key.getD 12 0 ∧
      (∀ p, 1 ≤ (12 : Int) - (Nat.iterate (KOBRA.Low.nextIndex 12) p 0 : Nat) ∧
        (12 : Int) - (Nat.iterate (KOBRA.Low.nextIndex 12) p 0 : Nat) ≤ 12) ∧
      KOBRA.Low.cipherEncrypt mem text key IV = KOBRA.Low.cipherEncrypt mem2 text key IV ∧
      KOBRA.Low.cipherDecrypt mem text key IV = KOBRA.Low.cipherDecrypt mem2 text key IV := by
  have hm : key.length % 65536 = 12 := by rw [hk]
  refine ⟨hm, ?_, ?_, ?_, ?_⟩
  · rw [hm, keyAt_inside mem key _ (by norm_num) (by rw [hk]; norm_num)]
    rfl
  · intro p
    rw [nextIndex_iterate 12 p (by norm_num) (by norm_num)]
    have := Nat.mod_lt p (show 0 < 12 by norm_num)
    omega
  · simp only [KOBRA.Low.cipherEncrypt, hm]
    rw [encryptLoop_mem_indep mem mem2 key 12 (by norm_num) (by norm_num) (by rw [hk]; norm_num)
      text IV 0 (by norm_num)]
  · simp only [KOBRA.Low.cipherDecrypt, hm]
    rw [decryptLoop_mem_indep mem mem2 key 12 (by norm_num) (by norm_num) (by rw [hk]; norm_num)
      text IV 0 (by norm_num)]

/-- C31 fails on the code: for a key of 65548 bytes the `unsigned short size` holds 12, so
at position 0 the byte read as `key[size - tempIndex]` is `key[12]`, a byte of the key and
not the byte one past its end; at every position the index lies in `1 .. 12`, and no byte
outside the key is read: the results do not depend on the memory around the key. -/
theorem kobra_long_key_reads_inside (mem mem2 : Int → Nat) (text : List Nat) (IV : Nat) :
    (List.replicate 65548 0).length % 65536 = 12 ∧
      KOBRA.Low.keyAt mem (List.replicate 65548 0)
          ((((List.replicate 65548 0).length % 65536 : Nat) : Int) - ((0 : Nat) : Int)) =
        (List.replicate 65548 0).getD 12 0 ∧
      (∀ p, 1 ≤ (12 : Int) - (Nat.iterate (KOBRA.Low.nextIndex 12) p 0 : Nat) ∧
        (12 : Int) - (Nat.iterate (KOBRA.Low.nextIndex 12) p 0 : Nat) ≤ 12) ∧
      KOBRA.Low.cipherEncrypt mem text (List.replicate 65548 0) IV =
        KOBRA.Low.cipherEncrypt mem2 text (List.replicate 65548 0) IV ∧
      KOBRA.Low.cipherDecrypt mem text (List.replicate 65548 0) IV =
        KOBRA.Low.cipherDecrypt mem2 text (List.replicate 65548 0) IV :=
  long_key_inside mem mem2 (List.replicate 65548 0) text IV (List.length_replicate _ _)

/-- The two-vector `XOR` loop on a main text `a ++ b`: the bytes for `a` do not depend on
`b`. -/
theorem xorLoop_append (s : List Nat) (sSize : Nat) (a b : List Nat) (second : Nat) :
    ∃ sec2, KOBRA.Low.xorLoop s sSize (a ++ b) second =
      KOBRA.Low.xorLoop s sSize a second ++ KOBRA.Low.xorLoop s sSize b sec2 := by
  induction a generalizing second with
  | nil => exact ⟨second, by simp [KOBRA.Low.xorLoop]⟩
  | cons i rest ih =>
    by_cases h : second = sSize
    · obtain ⟨sec2, hs⟩ := ih second
      refine ⟨sec2, ?_⟩
      show KOBRA.Low.xorLoop s sSize (i :: (rest ++ b)) second =
        KOBRA.Low.xorLoop s sSize (i :: rest) second ++ _
      rw [KOBRA.Low.xorLoop, KOBRA.Low.xorLoop, if_pos h, if_pos h, hs]
      rfl
    · obtain ⟨sec2, hs⟩ := ih ((second + 1) % 65536)
      refine ⟨sec2, ?_⟩
      show KOBRA.Low.xorLoop s sSize (i :: (rest ++ b)) second =
        KOBRA.Low.xorLoop s sSize (i :: rest) second ++ _
      rw [KOBRA.Low.xorLoop, KOBRA.Low.xorLoop, if_neg h, if_neg h, hs]
      rfl

/-- What `decryptFrom` returns, in terms of the first `|ExtractKey|` bytes of the cover. -/
theorem decryptFrom_take_cover (mem mem2 : Int → Nat) (cover : List Nat) (kp : KOBRA.keyPair)
    (hE : kp.ExtractKey.length ≤ cover.length) (hK : kp.EncryptKey.length ≤ cover.length) :
    KOBRA.decryptFrom mem mem2 cover kp =
      if kp.EncryptKey.length < 12 then none
      else if kp.ExtractKey.length < kp.EncryptKey.length then none
      else some (KOBRA.Low.XORbyte
        ((KOBRA.Low.xorLoop
            (KOBRA.Low.decryptLoop mem2 kp.EncryptKey (kp.EncryptKey.length % 65536)
              kp.ExtractKey kp.IV 0)
            (kp.ExtractKey.length % 65536)
            (KOBRA.Low.encryptLoop mem kp.EncryptKey (kp.EncryptKey.length % 65536)
              (cover.take kp.ExtractKey.length) kp.IV 0) 0).take
          (kp.ExtractKey.length % 65536)) kp.IV) := by
  by_cases h12 : kp.EncryptKey.length < 12
  · simp [KOBRA.decryptFrom, KOBRA.Low.cipherEncrypt, h12]
  · by_cases hek : kp.ExtractKey.length < kp.EncryptKey.length
    · have hc : ¬ cover.length < kp.EncryptKey.length := by omega
      simp [KOBRA.decryptFrom, KOBRA.Low.cipherEncrypt, KOBRA.Low.cipherDecrypt, h12, hek, hc]
    · have hc : ¬ cover.length < kp.EncryptKey.length := by omega
      have hsplit : cover =
          cover.take kp.ExtractKey.length ++ cover.drop kp.ExtractKey.length :=
        (List.take_append_drop _ _).symm
      have hlenA : (KOBRA.Low.encryptLoop mem kp.EncryptKey (kp.EncryptKey.length % 65536)
          (cover.take kp.ExtractKey.length) kp.IV 0).length = kp.ExtractKey.length := by
        rw [encryptLoop_length, List.length_take]; omega
      obtain ⟨x2, hx⟩ := encryptLoop_append mem kp.EncryptKey (kp.EncryptKey.length % 65536)
        (cover.take kp.ExtractKey.length) (cover.drop kp.ExtractKey.length) kp.IV 0
      rw [← hsplit] at hx
      have hS : kp.ExtractKey.length % 65536 < 65536 := Nat.mod_lt _ (by norm_num)
      have hSle : kp.ExtractKey.length % 65536 ≤ kp.ExtractKey.length := Nat.mod_le _ _
      have hto : KOBRA.Low.cipherEncrypt mem cover kp.EncryptKey kp.IV =
          some (KOBRA.Low.encryptLoop mem kp.EncryptKey (kp.EncryptKey.length % 65536)
            cover kp.IV 0) := by
        simp only [KOBRA.Low.cipherEncrypt, h12, hc, if_false]
      have hready : KOBRA.Low.cipherDecrypt mem2 kp.ExtractKey kp.EncryptKey kp.IV =
          some (KOBRA.Low.decryptLoop mem2 kp.EncryptKey (kp.EncryptKey.length % 65536)
            kp.ExtractKey kp.IV 0) := by
        simp only [KOBRA.Low.cipherDecrypt, h12, hek, if_false]
      have hxor : KOBRA.Low.XOR
          (KOBRA.Low.encryptLoop mem kp.EncryptKey (kp.EncryptKey.length % 65536) cover kp.IV 0)
          (KOBRA.Low.decryptLoop mem2 kp.EncryptKey (kp.EncryptKey.length % 65536)
            kp.ExtractKey kp.IV 0) =
          some (KOBRA.Low.xorLoop
            (KOBRA.Low.decryptLoop mem2 kp.EncryptKey (kp.EncryptKey.length % 65536)
              kp.ExtractKey kp.IV 0) (kp.ExtractKey.length % 65536)
            (KOBRA.Low.encryptLoop mem kp.EncryptKey (kp.EncryptKey.length % 65536)
              cover kp.IV 0) 0) := by
        have hxl : ¬ cover.length < kp.ExtractKey.length := by omega
        simp only [KOBRA.Low.XOR, encryptLoop_length, decryptLoop_length, hxl, if_false]
      obtain ⟨sec2, hs⟩ := xorLoop_append
        (KOBRA.Low.decryptLoop mem2 kp.EncryptKey (kp.EncryptKey.length % 65536)
          kp.ExtractKey kp.IV 0) (kp.ExtractKey.length % 65536)
        (KOBRA.Low.encryptLoop mem kp.EncryptKey (kp.EncryptKey.length % 65536)
          (cover.take kp.ExtractKey.length) kp.IV 0)
        (KOBRA.Low.encryptLoop mem kp.EncryptKey (kp.EncryptKey.length % 65536)
          (cover.drop kp.ExtractKey.length) x2
          (Nat.iterate (KOBRA.Low.nextIndex (kp.EncryptKey.length % 65536))
            (cover.take kp.ExtractKey.length).length 0)) 0
      rw [← hx] at hs
      simp only [KOBRA.decryptFrom, hto, hready, hxor, Option.bind_eq_bind, Option.some_bind,
        Option.pure_def, takeLoop_eq _ _ 0 hS (Nat.zero_le _), Nat.sub_zero, h12, hek, if_false]
      rw [hs, List.take_append_of_le_length (by rw [xorLoop_length, hlenA]; exact hSle)]

/-- With the same bytes one past the copies of the key in the matching calls, `decryptFrom`
uses the cover only through its first `|ExtractKey|` bytes: for every key pair with
`|EncryptKey| < 65536` and every two covers of at least `|ExtractKey|` and at least
`|EncryptKey|` bytes that agree on their first `|ExtractKey|` bytes, `decryptFrom` returns
the same message; and it does return one when `12 ≤ |EncryptKey| ≤ |ExtractKey|`. -/
theorem decryptFrom_cover_same_stray (memA memB memC memD : Int → Nat) (kp : KOBRA.keyPair)
    (cover1 cover2 : List Nat) (hE1 : kp.ExtractKey.length ≤ cover1.length)
    (hE2 : kp.ExtractKey.length ≤ cover2.length)
    (hK1 : kp.EncryptKey.length ≤ cover1.length) (hK2 : kp.EncryptKey.length ≤ cover2.length)
    (hagree : cover1.take kp.ExtractKey.length = cover2.take kp.ExtractKey.length)
    (h2 : kp.EncryptKey.length < 65536)
    (hAC : memA kp.EncryptKey.length % 256 = memC kp.EncryptKey.length % 256)
    (hBD : memB kp.EncryptKey.length % 256 = memD kp.EncryptKey.length % 256) :
    KOBRA.decryptFrom memA memB cover1 kp = KOBRA.decryptFrom memC memD cover2 kp ∧
      (12 ≤ kp.EncryptKey.length → kp.EncryptKey.length ≤ kp.ExtractKey.length →
        (KOBRA.decryptFrom memA memB cover1 kp).isSome = true) := by
  rw [decryptFrom_same_stray memA memB memC memD cover2 kp h2 hAC hBD,
    decryptFrom_take_cover memA memB cover1 kp hE1 hK1,
    decryptFrom_take_cover memA memB cover2 kp hE2 hK2, hagree]
  refine ⟨rfl, ?_⟩
  intro h12 hle
  have h1 : ¬ kp.EncryptKey.length < 12 := by omega
  have h3 : ¬ kp.ExtractKey.length < kp.EncryptKey.length := by omega
  simp only [h1, h3, if_false, Option.isSome_some]

/-- C32 fails on the code: each cipher call of `decryptFrom` reads `key[size]`, one past the
end of its own copy of the key.  With a key pair of two 12-byte keys and two covers that
agree on their first 12 bytes, a byte 0 behind the key in the `cipherEncrypt` of the first
run and a byte 1 behind the key in the `cipherEncrypt` of the second run, the two runs of
`decryptFrom` return different messages. -/
theorem kobra_decryptFrom_stray_byte :
    KOBRA.decryptFrom (fun _ => 0) (fun _ => 0)
        [1, 2, 3, 4, 5, 6, 7, 8, 9, 10, 11, 12, 13, 14]
        { EncryptKey := [1, 2, 3, 4, 5, 6, 7, 8, 9, 10, 11, 12],
          ExtractKey := [9, 8, 7, 6, 5, 4, 3, 2, 1, 0, 1, 2], IV := 5 } =
      some [224, 216, 243, 36, 142, 123, 150, 101, 22, 184, 26, 75] ∧
    KOBRA.decryptFrom (fun _ => 1) (fun _ => 0)
        [1, 2, 3, 4, 5, 6, 7, 8, 9, 10, 11, 12, 99]
        { EncryptKey := [1, 2, 3, 4, 5, 6, 7, 8, 9, 10, 11, 12],
          ExtractKey := [9, 8, 7, 6, 5, 4, 3, 2, 1, 0, 1, 2], IV := 5 } =
      some [225, 216, 243, 36, 142, 123, 150, 101, 22, 184, 26, 75] := by
  decide

/-! ## VIPER-1: prefixes of the block chain and the header of `decryptData` -/

/-- The chaining loop of `encrypt` on the blocks `P ++ Q`: the output for `P` does not
depend on `Q`, and the loop goes on with `Q` from the `last` reached after `P`. -/
theorem chain_append (key schedule : List Nat) (sx : Nat) (hk : key.length = 60)
    (hkb : IsBytes key) (hs : schedule.length = 2) (P Q : List vecpair)
    (hP : ∀ p ∈ P, IsPair p) (last : vecpair) (hl : last.1.length = 12)
    (hl2 : last.2.length = 12) (out : List Nat) :
    ∃ C last2, encryptLoop key schedule sx P last out = some (out ++ joinPairs C) ∧
      C.length = P.length ∧ (∀ p ∈ C, IsPair p) ∧
      last2.1.length = 12 ∧ last2.2.length = 12 ∧
      encryptLoop key schedule sx (P ++ Q) last out =
        encryptLoop key schedule sx Q last2 (out ++ joinPairs C) := by
  induction P generalizing last out with
  | nil => exact ⟨[], last, by simp [encryptLoop, joinPairs], rfl, by simp, hl, hl2,
      by simp [joinPairs]⟩
  | cons E P ih =>
    have hE := hP E (List.mem_cons_self _ _)
    obtain ⟨N0, hN0, hN0P, _⟩ := XORvecs_inv E last hE hl hl2
    obtain ⟨N, hN, hNP, _⟩ := cycle_dec_cycle_enc N0 key schedule hk hkb hs hN0P
    have hL := permuteEnc_isPair N sx
    obtain ⟨C, last2, hC1, hC2, hC3, h1, h2, hC4⟩ :=
      ih (fun p hp => hP p (List.mem_cons_of_mem _ hp))
        (permuteEnc N sx) hL.1 hL.2.1 (out ++ N.1 ++ N.2)
    simp only [List.append_assoc] at hC1 hC4
    refine ⟨N :: C, last2, ?_, by simp [hC2], ?_, h1, h2, ?_⟩
    · simp only [encryptLoop, hE.1, hE.2.1, ne_eq, not_true_eq_false, if_false,
        Option.bind_eq_bind, Option.some_bind, hN0, hN, joinPairs_cons,
        List.append_assoc, Option.pure_def, ite_false, hC1]
    · intro p hp
      rcases List.mem_cons.mp hp with rfl | hp
      · exact hNP
      · exact hC3 p hp
    · simp only [List.cons_append, encryptLoop, hE.1, hE.2.1, ne_eq, not_true_eq_false,
        if_false, Option.bind_eq_bind, Option.some_bind, hN0, hN, joinPairs_cons,
        List.append_assoc, Option.pure_def, ite_false]
      exact hC4

theorem joinPairs_append (ps qs : List vecpair) :
    joinPairs (ps ++ qs) = joinPairs ps ++ joinPairs qs := by
  simp only [joinPairs, List.flatMap_append]

/-- C34: `VIPER1::encrypt` is prefix-preserving on whole blocks: for every 60-byte key,
every 12-byte IV and all inputs `p`, `q` whose lengths are positive multiples of 24, the
first `|p|` bytes of `encrypt(p ++ q, key, IV)` are `encrypt(p, key, IV)`; and `encrypt`
returns as many bytes as it is given. -/
theorem viper_encrypt_extends (p q key IV : List Nat) (hk : key.length = 60)
    (hkb : IsBytes key) (hIV : IV.length = 12) (hp : 0 < p.length)
    (hp24 : p.length % 24 = 0) (hq : 0 < q.length) (hq24 : q.length % 24 = 0)
    (hpb : IsBytes p) (hqb : IsBytes q) :
    (VIPER1.encrypt (p ++ q) key IV).map (List.take p.length) = VIPER1.encrypt p key IV ∧
      (VIPER1.encrypt p key IV).map List.length = some p.length ∧
      (VIPER1.encrypt (p ++ q) key IV).map List.length = some (p ++ q).length := by
  obtain ⟨ps, hps, hpn, hpl, hpB⟩ := exists_joinPairs (p.length / 24) p (by omega)
  obtain ⟨qs, hqs, hqn, hql, hqB⟩ := exists_joinPairs (q.length / 24) q (by omega)
  have hPp : ∀ x ∈ ps, IsPair x := fun x hx =>
    ⟨(hpl x hx).1, (hpl x hx).2, (hpB hpb x hx).1, (hpB hpb x hx).2⟩
  have hQp : ∀ x ∈ qs, IsPair x := fun x hx =>
    ⟨(hql x hx).1, (hql x hx).2, (hqB hqb x hx).1, (hqB hqb x hx).2⟩
  have hpq : p ++ q = joinPairs (ps ++ qs) := by rw [joinPairs_append, ← hps, ← hqs]
  have hsp : splitPairs p = ps := by rw [hps]; exact splitPairs_joinPairs ps hpl
  have hspq : splitPairs (p ++ q) = ps ++ qs := by
    rw [hpq]
    exact splitPairs_joinPairs _ (fun x hx => by
      rcases List.mem_append.mp hx with h | h
      · exact hpl x h
      · exact hql x h)
  obtain ⟨C, last2, hC1, hC2, hC3, h1, h2, hC4⟩ := chain_append key
    [sched1 key, sched2 key] ((sched1 key ^^^ sched2 key) % 256) hk hkb rfl ps qs hPp
    (IV, reverseVector IV) hIV (by simp [reverseVector, hIV]) []
  obtain ⟨D, hD1, hD2, hD3, _⟩ := decryptLoop_encryptLoop key
    [sched1 key, sched2 key] ((sched1 key ^^^ sched2 key) % 256) hk hkb rfl qs hQp
    last2 h1 h2 ([] ++ joinPairs C) []
  simp only [List.nil_append] at hC1 hC4 hD1
  have hlenC : (joinPairs C).length = p.length := by
    rw [joinPairs_length C (fun x hx => ⟨(hC3 x hx).1, (hC3 x hx).2.1⟩), hC2, hpn]; omega
  have hlenD : (joinPairs D).length = q.length := by
    rw [joinPairs_length D (fun x hx => ⟨(hD3 x hx).1, (hD3 x hx).2.1⟩), hD2, hqn]; omega
  have e1 : VIPER1.encrypt p key IV = some (joinPairs C) := by
    have h24 : ¬ p.length < 24 := by omega
    simp only [VIPER1.encrypt, hk, hIV, h24, hp24, ne_eq, not_true_eq_false, if_false,
      Option.bind_eq_bind, Option.pure_def, hsp, hC1, ite_false, Option.some_bind]
  have e2 : VIPER1.encrypt (p ++ q) key IV = some (joinPairs C ++ joinPairs D) := by
    have h24 : ¬ (p ++ q).length < 24 := by rw [List.length_append]; omega
    have h24b : (p ++ q).length % 24 = 0 := by rw [List.length_append]; omega
    simp only [VIPER1.encrypt, hk, hIV, h24, h24b, ne_eq, not_true_eq_false, if_false,
      Option.bind_eq_bind, Option.pure_def, hspq, hC4, hD1, ite_false, Option.some_bind]
  rw [e1, e2]
  refine ⟨?_, ?_, ?_⟩
  · rw [Option.map_some', ← hlenC, List.take_left]
  · rw [Option.map_some', hlenC]
  · rw [Option.map_some', List.length_append, List.length_append, hlenC, hlenD]

theorem viper_encrypt_extends_witness :
    (VIPER1.encrypt (List.replicate 24 0 ++ List.replicate 24 0) (List.replicate 60 0)
        (List.replicate 12 0)).map (List.take (List.replicate 24 0).length) =
        VIPER1.encrypt (List.replicate 24 0) (List.replicate 60 0) (List.replicate 12 0) ∧
      (VIPER1.encrypt (List.replicate 24 0) (List.replicate 60 0)
        (List.replicate 12 0)).map List.length = some (List.replicate 24 0).length ∧
      (VIPER1.encrypt (List.replicate 24 0 ++ List.replicate 24 0) (List.replicate 60 0)
        (List.replicate 12 0)).map List.length =
        some (List.replicate 24 0 ++ List.replicate 24 0).length :=
  viper_encrypt_extends (List.replicate 24 0) (List.replicate 24 0) (List.replicate 60 0)
    (List.replicate 12 0) (by simp) (isBytes_replicate_zero 60) (by simp) (by simp) (by simp)
    (by simp) (by simp) (isBytes_replicate_zero 24) (isBytes_replicate_zero 24)

/-- C35: when the two magic bytes of the decrypted buffer match, `decryptData_VIPER1`
returns the bytes of the buffer from index `3 + N` on, `N` being the third byte of the
buffer, whatever the `N` skipped bytes hold; this is the empty vector when `3 + N` is at
least the length of the buffer. -/
theorem viper_decryptData_skips_header (c key IV : List Nat) (hk : key.length = 60)
    (hIV : IV.length = 12) (hc : 0 < c.length) (hc24 : c.length % 24 = 0) :
    ∃ temp, VIPER1.decrypt c key IV = some temp ∧ temp.length = c.length ∧
      (temp.getD 0 0 = 0xA5 → temp.getD 1 0 = 0x5A →
        decryptData_VIPER1 c key IV = some (temp.drop (3 + temp.getD 2 0)) ∧
        (temp.length ≤ 3 + temp.getD 2 0 → decryptData_VIPER1 c key IV = some [])) := by
  obtain ⟨temp, ht, hlen, _⟩ := decrypt_total c key IV hk hIV hc hc24
  refine ⟨temp, ht, hlen, ?_⟩
  intro h0 h1
  have e : decryptData_VIPER1 c key IV = some (temp.drop (3 + temp.getD 2 0)) := by
    simp only [decryptData_VIPER1, ht, Option.bind_eq_bind, Option.some_bind, h0, h1, ne_eq,
      not_true_eq_false, if_false, Option.pure_def, ite_false, Nat.add_comm (temp.getD 2 0) 3]
  refine ⟨e, ?_⟩
  intro hle
  rw [e, List.drop_eq_nil_of_le hle]

theorem viper_decryptData_skips_header_witness :
    decryptData_VIPER1
        ((VIPER1.encrypt
          [0xA5, 0x5A, 2, 7, 9, 3, 4, 5, 6, 7, 8, 9, 10, 11, 12, 13, 14, 15, 16, 17, 18, 19,
            20, 21] (List.replicate 60 0) (List.replicate 12 0)).getD [])
        (List.replicate 60 0) (List.replicate 12 0) =
      some [3, 4, 5, 6, 7, 8, 9, 10, 11, 12, 13, 14, 15, 16, 17, 18, 19, 20, 21] ∧
    decryptData_VIPER1
        ((VIPER1.encrypt
          [0xA5, 0x5A, 200, 1, 2, 3, 4, 5, 6, 7, 8, 9, 10, 11, 12, 13, 14, 15, 16, 17, 18,
            19, 20, 21] (List.replicate 60 0) (List.replicate 12 0)).getD [])
        (List.replicate 60 0) (List.replicate 12 0) = some [] := by
  obtain ⟨c1, he1, hl1, hd1⟩ := encrypt_decrypt_aux
    [0xA5, 0x5A, 2, 7, 9, 3, 4, 5, 6, 7, 8, 9, 10, 11, 12, 13, 14, 15, 16, 17, 18, 19, 20, 21]
    (List.replicate 60 0) (List.replicate 12 0) (by simp) (isBytes_replicate_zero 60)
    (by simp) (by decide) (by decide) (by decide)
  obtain ⟨c2, he2, hl2, hd2⟩ := encrypt_decrypt_aux
    [0xA5, 0x5A, 200, 1, 2, 3, 4, 5, 6, 7, 8, 9, 10, 11, 12, 13, 14, 15, 16, 17, 18, 19, 20,
      21]
    (List.replicate 60 0) (List.replicate 12 0) (by simp) (isBytes_replicate_zero 60)
    (by simp) (by decide) (by decide) (by decide)
  rw [he1, he2, Option.getD_some, Option.getD_some]
  obtain ⟨t1, ht1, -, hi1⟩ := viper_decryptData_skips_header c1 (List.replicate 60 0)
    (List.replicate 12 0) (by simp) (by simp) (by rw [hl1]; decide) (by rw [hl1]; decide)
  obtain ⟨t2, ht2, -, hi2⟩ := viper_decryptData_skips_header c2 (List.replicate 60 0)
    (List.replicate 12 0) (by simp) (by simp) (by rw [hl2]; decide) (by rw [hl2]; decide)
  rw [hd1] at ht1
  rw [hd2] at ht2
  cases ht1
  cases ht2
  exact ⟨(hi1 rfl rfl).1, (hi2 rfl rfl).2 (by decide)⟩

theorem foldl_congr_mem {α β : Type} (f g : α → β → α) (l : List β)
    (h : ∀ a, ∀ b ∈ l, f a b = g a b) (a : α) : l.foldl f a = l.foldl g a := by
  induction l generalizing a with
  | nil => rfl
  | cons x rest ih =>
    simp only [List.foldl_cons]
    rw [h a x (List.mem_cons_self _ _)]
    exact ih (fun a b hb => h a b (List.mem_cons_of_mem _ hb)) _

theorem chunk_index_lt (c i : Nat) (hi : i < 8) : (c * 8) % 256 + i < 256 := by
  omega

theorem permuteA_chunk_congr (t1 t2 : List Nat)
    (h : ∀ j, j < 256 → t1.getD j 0 = t2.getD j 0) (c : Nat) :
    NACHA.low.permuteA_chunk t1 ((c * 8) % 256) = NACHA.low.permuteA_chunk t2 ((c * 8) % 256) := by
  unfold NACHA.low.permuteA_chunk
  apply List.map_congr_left
  intro B _
  apply foldl_congr_mem
  intro a i hi
  rw [h _ (chunk_index_lt c i (List.mem_range.mp hi))]

theorem permuteB_chunk_congr (t1 t2 : List Nat)
    (h : ∀ j, j < 256 → t1.getD j 0 = t2.getD j 0) (c : Nat) :
    NACHA.low.permuteB_chunk t1 ((c * 8) % 256) = NACHA.low.permuteB_chunk t2 ((c * 8) % 256) := by
  unfold NACHA.low.permuteB_chunk
  apply List.map_congr_left
  intro B _
  apply foldl_congr_mem
  intro a i hi
  rw [h _ (chunk_index_lt c i (List.mem_range.mp hi))]

theorem permuteA_body_congr (t1 t2 : List Nat) (hl : t1.length = t2.length)
    (h : ∀ j, j < 256 → t1.getD j 0 = t2.getD j 0) :
    NACHA.low.permuteA_body t1 = NACHA.low.permuteA_body t2 := by
  have hchunk : (fun c => NACHA.low.permuteA_chunk t1 ((c * 8) % 256)) =
      fun c => NACHA.low.permuteA_chunk t2 ((c * 8) % 256) :=
    funext fun c => permuteA_chunk_congr t1 t2 h c
  have hx : (fun (acc : Nat) (c : Nat) => (List.range 8).foldl
      (fun acc i => (acc ^^^ t1.getD ((c * 8) % 256 + i) 0) % 256) acc) =
      fun (acc : Nat) (c : Nat) => (List.range 8).foldl
      (fun acc i => (acc ^^^ t2.getD ((c * 8) % 256 + i) 0) % 256) acc := by
    funext acc c
    apply foldl_congr_mem
    intro a i hi
    rw [h _ (chunk_index_lt c i (List.mem_range.mp hi))]
  unfold NACHA.low.permuteA_body
  simp only [hl, hchunk, hx]

theorem permuteB_body_congr (t1 t2 : List Nat) (hl : t1.length = t2.length)
    (h : ∀ j, j < 256 → t1.getD j 0 = t2.getD j 0) :
    NACHA.low.permuteB_body t1 = NACHA.low.permuteB_body t2 := by
  have hchunk : (fun c => NACHA.low.permuteB_chunk t1 ((c * 8) % 256)) =
      fun c => NACHA.low.permuteB_chunk t2 ((c * 8) % 256) :=
    funext fun c => permuteB_chunk_congr t1 t2 h c
  unfold NACHA.low.permuteB_body
  simp only [hl, hchunk]

/-- Two vectors of one length with the same first 256 bytes agree at every index below
256, also after a common padding is appended. -/
theorem padded_agree (v w pad : List Nat) (hl : v.length = w.length)
    (h : v.take 256 = w.take 256) :
    ∀ j, j < 256 → (v ++ pad).getD j 0 = (w ++ pad).getD j 0 := by
  intro j hj
  by_cases hv : v.length ≤ 256
  · have e1 : v = w := by
      rw [← List.take_of_length_le hv, h, List.take_of_length_le (by omega)]
    rw [e1]
  · have hjv : j < v.length := by omega
    have hjw : j < w.length := by omega
    rw [List.getD_append _ _ _ _ hjv, List.getD_append _ _ _ _ hjw]
    have a1 : (v.take 256).getD j 0 = v.getD j 0 := by
      simp only [List.getD_eq_getElem?_getD, List.getElem?_take, hj, if_true]
    have a2 : (w.take 256).getD j 0 = w.getD j 0 := by
      simp only [List.getD_eq_getElem?_getD, List.getElem?_take, hj, if_true]
    rw [← a1, ← a2, h]

/-- C36: two inputs of one length that agree on their first 256 bytes give the same
`permuteA` result and the same `permuteB` result: the chunk offset `IND` is a byte, so
the padded input is read at indices 0..255 only. -/
theorem nacha_permute_first_256 (v w : List Nat) (hl : v.length = w.length)
    (h : v.take 256 = w.take 256) :
    NACHA.low.permuteA v = NACHA.low.permuteA w ∧
      NACHA.low.permuteB v = NACHA.low.permuteB w := by
  have hA : ∀ pad, NACHA.low.permuteA_body (v ++ pad) = NACHA.low.permuteA_body (w ++ pad) :=
    fun pad => permuteA_body_congr _ _ (by simp [hl]) (padded_agree v w pad hl h)
  have hB : ∀ pad, NACHA.low.permuteB_body (v ++ pad) = NACHA.low.permuteB_body (w ++ pad) :=
    fun pad => permuteB_body_congr _ _ (by simp [hl]) (padded_agree v w pad hl h)
  have hA0 := hA []
  have hB0 := hB []
  simp only [List.append_nil] at hA0 hB0
  constructor
  · simp only [NACHA.low.permuteA, hl, hA, hA0]
  · simp only [NACHA.low.permuteB, hl, hB, hB0]

theorem nacha_permute_first_256_witness :
    NACHA.low.permuteA (List.replicate 256 7 ++ [1, 2]) =
        NACHA.low.permuteA (List.replicate 256 7 ++ [3, 4]) ∧
      NACHA.low.permuteB (List.replicate 256 7 ++ [1, 2]) =
        NACHA.low.permuteB (List.replicate 256 7 ++ [3, 4]) :=
  nacha_permute_first_256 (List.replicate 256 7 ++ [1, 2]) (List.replicate 256 7 ++ [3, 4])
    (by simp only [List.length_append, List.length_replicate, List.length_cons,
      List.length_nil])
    (by rw [List.take_append_of_le_length (by simp only [List.length_replicate]; omega),
      List.take_append_of_le_length (by simp only [List.length_replicate]; omega)])

/-! ## `SBox16` -/

/-- The ordering of `Ref16` compares `valL` alone. -/
theorem ref16_lt_eq (a b : Nat × Nat) :
    CryptConcepts.Substitution.Ref16.lt a b = decide (a.1 < b.1) := by
  unfold CryptConcepts.Substitution.Ref16.lt
  cases decide (a.2 < b.2) <;> cases decide (a.1 < b.1) <;> rfl

theorem ref16_same_key (a b : Nat × Nat) :
    (!CryptConcepts.Substitution.Ref16.lt a b && !CryptConcepts.Substitution.Ref16.lt b a) =
      decide (a.1 = b.1) := by
  rw [ref16_lt_eq, ref16_lt_eq]
  by_cases h : a.1 = b.1
  · simp [h]
  · have : a.1 < b.1 ∨ b.1 < a.1 := by omega
    rcases this with h1 | h1
    · simp [h, h1]
    · simp [h, h1]

/-- A key is found in a map over `Ref16` exactly when its `valL` is the `valL` of the key
of an entry. -/
theorem mapFind16_isSome_iff {ν : Type} (m : List ((Nat × Nat) × ν)) (k : Nat × Nat) :
    (CryptConcepts.Substitution.mapFind CryptConcepts.Substitution.Ref16.lt m k).isSome ↔
      k.1 ∈ m.map (fun e => e.1.1) := by
  induction m with
  | nil => simp [CryptConcepts.Substitution.mapFind]
  | cons e rest ih =>
    simp only [CryptConcepts.Substitution.mapFind, ref16_same_key, List.map_cons,
      List.mem_cons]
    by_cases h : e.1.1 = k.1
    · simp [h]
    · have h2 : ¬ k.1 = e.1.1 := fun e2 => h e2.symm
      simp only [h, decide_False, Bool.false_eq_true, if_false, ih, h2, false_or]

/-- At most 256 distinct bytes. -/
theorem nodup_bytes_length (l : List Nat) (hnd : l.Nodup) (hb : ∀ x ∈ l, x < 256) :
    l.length ≤ 256 := by
  have hsub : l ⊆ List.range 256 := fun x hx => List.mem_range.mpr (hb x hx)
  have := (List.subperm_of_subset hnd hsub).length_le
  rwa [List.length_range] at this

/-- The loop of the constructor of `SBox16` fails when more values remain than the
existence table, whose keys have pairwise distinct `valL`, can still take. -/
theorem fill16_fails (mainFunc : List Nat → Nat × Nat → Nat × Nat) (key : List Nat) :
    ∀ (rest : List (Nat × Nat)) (E : List ((Nat × Nat) × Bool))
      (P : List ((Nat × Nat) × (Nat × Nat))),
      (E.map fun e => e.1.1).Nodup → (∀ x ∈ E.map (fun e => e.1.1), x < 256) →
      256 < rest.length + E.length →
      CryptConcepts.Substitution.SBox16.fill mainFunc key rest E P = .error .runtime_error
  | [], E, P, hnd, hb, hlen => by
    have := nodup_bytes_length _ hnd hb
    simp only [List.length_map, List.length_nil] at this hlen
    omega
  | k :: r, E, P, hnd, hb, hlen => by
    simp only [CryptConcepts.Substitution.SBox16.fill, CryptConcepts.Substitution.mapCount]
    by_cases hc : (CryptConcepts.Substitution.mapFind CryptConcepts.Substitution.Ref16.lt E
        ((mainFunc key k).1 % 256, (mainFunc key k).2 % 256)).isSome
    · simp only [hc, if_true, ne_eq, one_ne_zero, not_false_eq_true]
    · have hnot : (mainFunc key k).1 % 256 ∉ E.map fun e => e.1.1 := by
        intro hmem
        exact hc ((mapFind16_isSome_iff E _).mpr hmem)
      have hE : CryptConcepts.Substitution.mapEmplace CryptConcepts.Substitution.Ref16.lt E
          ((mainFunc key k).1 % 256, (mainFunc key k).2 % 256) true =
          E ++ [(((mainFunc key k).1 % 256, (mainFunc key k).2 % 256), true)] := by
        simp only [CryptConcepts.Substitution.mapEmplace, hc, Bool.false_eq_true, if_false]
      simp only [hc, Bool.false_eq_true, if_false, ne_eq, not_true_eq_false]
      rw [hE]
      apply fill16_fails mainFunc key r
      · rw [List.map_append, List.map_cons, List.map_nil]
        refine List.nodup_append.mpr ⟨hnd, by simp, ?_⟩
        intro a ha hb2
        simp only [List.mem_singleton] at hb2
        subst hb2
        exact hnot ha
      · intro x hx
        rw [List.map_append, List.map_cons, List.map_nil, List.mem_append,
          List.mem_singleton] at hx
        rcases hx with hx | hx
        · exact hb x hx
        · subst hx; exact Nat.mod_lt _ (by norm_num)
      · simp only [List.length_append, List.length_cons, List.length_nil] at hlen ⊢
        omega

theorem length_pairs (m : Nat) : ∀ n : Nat,
    ((List.range n).flatMap fun a => (List.range m).map fun i => (a, i)).length = n * m
  | 0 => by simp
  | n + 1 => by
    rw [List.range_succ, List.flatMap_append, List.length_append, length_pairs m n]
    simp only [List.flatMap_cons, List.flatMap_nil, List.append_nil, List.length_map,
      List.length_range]
    ring

/-- C37: the constructor of `SBox16` throws the `std::runtime_error` "not deterministic"
for every mapping function and every key: `Ref16::operator<` is the comparison of `valL`
alone, and the loops visit 255 * 255 values. -/
theorem sbox16_construct_always_fails (keySize : Nat)
    (mainFunc : List Nat → Nat × Nat → Nat × Nat) (key : List Nat)
    (hk : key.length = keySize) :
    CryptConcepts.Substitution.SBox16.construct keySize mainFunc key =
        .error .runtime_error ∧
      (∀ a b : Nat × Nat, CryptConcepts.Substitution.Ref16.lt a b = decide (a.1 < b.1)) ∧
      CryptConcepts.Substitution.SBox16.inputs.length = 255 * 255 := by
  have hlen : CryptConcepts.Substitution.SBox16.inputs.length = 255 * 255 :=
    length_pairs 255 255
  have hfill := fill16_fails mainFunc key CryptConcepts.Substitution.SBox16.inputs [] []
    List.nodup_nil (fun x hx => absurd hx (List.not_mem_nil x))
    (by rw [hlen]; norm_num)
  have hk2 : ¬ key.length ≠ keySize := fun hne => hne hk
  refine ⟨?_, ref16_lt_eq, hlen⟩
  unfold CryptConcepts.Substitution.SBox16.construct
  rw [if_neg hk2, hfill]

theorem sbox16_construct_always_fails_witness :
    CryptConcepts.Substitution.SBox16.construct 1 CryptConcepts.Substitution.identityMap16
        [0] = .error .runtime_error ∧
      (∀ a b : Nat × Nat, CryptConcepts.Substitution.Ref16.lt a b = decide (a.1 < b.1)) ∧
      CryptConcepts.Substitution.SBox16.inputs.length = 255 * 255 :=
  sbox16_construct_always_fails 1 CryptConcepts.Substitution.identityMap16 [0] rfl

/-! ## `SimplePermuter` -/

theorem list_len10 (l : List Nat) (h : l.length = 10) :
    ∃ a0 a1 a2 a3 a4 a5 a6 a7 a8 a9, l = [a0, a1, a2, a3, a4, a5, a6, a7, a8, a9] := by
  match l, h with
  | [a0, a1, a2, a3, a4, a5, a6, a7, a8, a9], _ =>
    exact ⟨a0, a1, a2, a3, a4, a5, a6, a7, a8, a9, rfl⟩

/-- The low nibble of a byte that `rotate2s` with level 4 to the right writes comes from
the first operand alone. -/
theorem nibble_low (a b : Nat) : ((a >>> 4) ||| (b <<< 4)) % 256 % 16 = (a >>> 4) % 16 := by
  have h1 : ((a >>> 4) ||| (b <<< 4)) % 256 % 16 = ((a >>> 4) ||| (b <<< 4)) % 16 :=
    Nat.mod_mod_of_dvd _ (by norm_num)
  rw [h1]
  have h2 : (16 : Nat) = 2 ^ 4 := by norm_num
  rw [h2]
  apply Nat.eq_of_testBit_eq
  intro i
  rw [Nat.testBit_mod_two_pow, Nat.testBit_mod_two_pow, Nat.testBit_or, Nat.testBit_shiftLeft]
  by_cases hi : i < 4
  · have h3 : ¬ i ≥ 4 := by omega
    simp [hi, h3]
  · simp [hi]

/-- What the constructor stores for the block size 10: the stage A table takes every
value twice. -/
theorem construct_ten (fA fB fC : Bool) (rA rB rC rE key1 key2 IV : Nat)
    (P : CryptConcepts.Permutation.SimplePermuter)
    (h : CryptConcepts.Permutation.SimplePermuter.construct 10 fA rA fB rB fC rC rE
      key1 key2 IV = some P) :
    P.blockSize = 10 ∧ P.stA_flip = fA ∧
      P.stageA_placement = [4, 2, 0, 8, 6, 4, 2, 0, 8, 6] := by
  unfold CryptConcepts.Permutation.SimplePermuter.construct at h
  split_ifs at h
  cases h
  exact ⟨rfl, rfl, rfl⟩

/-- With the stage A table of the block size 10 and `stA_flip` set, the last two calls of
`operateBackward` cannot produce the block `[1, 0, 0, 0, 0, 0, 0, 0, 0, 0]`: the bytes 0
and 5 of every result have the same low nibble. -/
theorem backward_misses (P : CryptConcepts.Permutation.SimplePermuter)
    (junk : Nat → Nat → Nat) (y key : List Nat)
    (hA : P.stageA_placement = [4, 2, 0, 8, 6, 4, 2, 0, 8, 6]) (hf : P.stA_flip = true) :
    P.operateBackward junk y key ≠ some [1, 0, 0, 0, 0, 0, 0, 0, 0, 0] := by
  intro h
  unfold CryptConcepts.Permutation.SimplePermuter.operateBackward at h
  split_ifs at h
  simp only [Option.bind_eq_some] at h
  obtain ⟨t1, -, t2, -, t3, -, t4, h4, h5⟩ := h
  unfold CryptConcepts.Permutation.SimplePermuter.backwardA at h4
  simp only [Option.bind_eq_some] at h4
  obtain ⟨u1, -, u2, -, u3, -, h6⟩ := h4
  rw [hA, hf] at h6
  unfold CryptConcepts.Permutation.rearrange at h6
  simp only [Bool.not_true, Bool.false_eq_true, if_false] at h6
  split_ifs at h6 with hl
  have hl2 : u3.length = 10 := by
    simp only [List.length_cons, List.length_nil] at hl
    omega
  obtain ⟨z0, z1, z2, z3, z4, z5, z6, z7, z8, z9, rfl⟩ := list_len10 u3 hl2
  have e : (List.range [z0, z1, z2, z3, z4, z5, z6, z7, z8, z9].length).mapM
      (fun i => [z0, z1, z2, z3, z4, z5, z6, z7, z8, z9][
        [4, 2, 0, 8, 6, 4, 2, 0, 8, 6].getD i 0]?) =
      some [z4, z2, z0, z8, z6, z4, z2, z0, z8, z6] := rfl
  rw [e] at h6
  cases h6
  simp only [CryptConcepts.Permutation.rotate2s, CryptConcepts.Permutation.rotate2sLoop,
    Bool.false_eq_true, if_false, Option.some.injEq, List.cons.injEq] at h5
  split_ifs at h5
  simp only [Option.some.injEq, List.cons.injEq] at h5
  obtain ⟨e0, -, -, -, -, e5, -⟩ := h5
  have n0 := nibble_low z4 z2
  have n5 := nibble_low z4 z6
  simp only [show 8 - 4 = 4 from rfl] at e0 e5
  rw [e0] at n0
  rw [e5] at n5
  omega

/-- The two static multipliers of the constructor are even for every block size that is
2 modulo 4, and odd and equal for every block size that is a multiple of 4. -/
theorem stage_multipliers_parity (blockSize : Nat) (hb : blockSize < 256) :
    (blockSize % 4 = 2 →
      CryptConcepts.Permutation.SimplePermuter.amult blockSize % 2 = 0 ∧
        CryptConcepts.Permutation.SimplePermuter.cmult blockSize % 2 = 0) ∧
    (blockSize % 4 = 0 →
      CryptConcepts.Permutation.SimplePermuter.amult blockSize % 2 = 1 ∧
        CryptConcepts.Permutation.SimplePermuter.amult blockSize =
          CryptConcepts.Permutation.SimplePermuter.cmult blockSize) := by
  simp only [CryptConcepts.Permutation.SimplePermuter.amult,
    CryptConcepts.Permutation.SimplePermuter.cmult, Nat.shiftRight_eq_div_pow,
    Nat.and_one_is_mod, pow_one]
  have a1 : (blockSize / 2 + (2 + blockSize)) % 65536 = blockSize / 2 + (2 + blockSize) :=
    Nat.mod_eq_of_lt (by omega)
  have a2 : (blockSize / 2 + (1 + blockSize)) % 65536 = blockSize / 2 + (1 + blockSize) :=
    Nat.mod_eq_of_lt (by omega)
  have a3 : (blockSize / 2 + (2 + blockSize) + 1) % 65536 =
      blockSize / 2 + (2 + blockSize) + 1 := Nat.mod_eq_of_lt (by omega)
  have a4 : ((blockSize + 2) / 2 + blockSize) % 65536 = (blockSize + 2) / 2 + blockSize :=
    Nat.mod_eq_of_lt (by omega)
  rw [a1, a2, a4]
  constructor
  · intro h
    have h1 : blockSize / 2 % 2 = 1 := by omega
    have h2 : ((blockSize + 2) / 2 + blockSize) % 2 = 0 := by omega
    simp only [h1, h2, ne_eq, one_ne_zero, not_false_eq_true, if_true, a3, and_true]
    omega
  · intro h
    have h1 : blockSize / 2 % 2 = 0 := by omega
    have h2 : ((blockSize + 2) / 2 + blockSize) % 2 = 1 := by omega
    simp only [h1, h2, ne_eq, not_true_eq_false, if_false, one_ne_zero]
    omega

/-- The stage B table need not be a permutation either: for the block size 12 with
`key1 = 201`, `key2 = 77` and `IV = 9` it takes four values only. -/
theorem stageB_twelve_repeats :
    (CryptConcepts.Permutation.SimplePermuter.construct 12 true 3 false 2 true 5 7
        201 77 9).map (fun P => P.stageB_placement) =
      some [7, 10, 1, 4, 7, 10, 1, 4, 7, 10, 1, 4] := by
  decide

/-- With the stage A table of the block size 10 and `stA_flip` clear, `operateForward`
does not read the high nibble of byte 0: two blocks have the same result. -/
theorem forward_collides (P : CryptConcepts.Permutation.SimplePermuter)
    (junk : Nat → Nat → Nat) (key : List Nat)
    (hA : P.stageA_placement = [4, 2, 0, 8, 6, 4, 2, 0, 8, 6]) (hf : P.stA_flip = false) :
    P.operateForward junk [16, 0, 0, 0, 0, 0, 0, 0, 0, 0] key =
      P.operateForward junk [0, 0, 0, 0, 0, 0, 0, 0, 0, 0] key := by
  have h1 : CryptConcepts.Permutation.rotate2s (junk 0) [0, 0, 0, 0, 0, 0, 0, 0, 0, 0] true 4 =
      some [0, 0, 0, 0, 0, 0, 0, 0, 0, 0] := rfl
  have h2 : CryptConcepts.Permutation.rotate2s (junk 0) [16, 0, 0, 0, 0, 0, 0, 0, 0, 0] true 4 =
      some [0, 1, 0, 0, 0, 0, 0, 0, 0, 0] := rfl
  have h3 : CryptConcepts.Permutation.rearrange (junk 1) [0, 1, 0, 0, 0, 0, 0, 0, 0, 0]
      [4, 2, 0, 8, 6, 4, 2, 0, 8, 6] false = some [0, 0, 0, 0, 0, 0, 0, 0, 0, 0] := rfl
  have h4 : CryptConcepts.Permutation.rearrange (junk 1) [0, 0, 0, 0, 0, 0, 0, 0, 0, 0]
      [4, 2, 0, 8, 6, 4, 2, 0, 8, 6] false = some [0, 0, 0, 0, 0, 0, 0, 0, 0, 0] := rfl
  have hFA : P.forwardA junk key [0, 1, 0, 0, 0, 0, 0, 0, 0, 0] =
      P.forwardA junk key [0, 0, 0, 0, 0, 0, 0, 0, 0, 0] := by
    unfold CryptConcepts.Permutation.SimplePermuter.forwardA
    rw [hA, hf, h3, h4]
  unfold CryptConcepts.Permutation.SimplePermuter.operateForward
  rw [h1, h2]
  simp only [Option.some_bind, hFA, List.length_cons, List.length_nil]

/-- C38: at the block size 10 the round trip of `SimplePermuter` fails.  For all stage
directions, rotation amounts, constructor arguments, keys and contents of the
uninitialised arrays there is a block `x` of 10 bytes for which `operateBackward` after
`operateForward` does not return `x`; with all arguments 0, the directions set and the
uninitialised arrays zero, the block `[1, 0, 0, 0, 0, 0, 0, 0, 0, 0]` comes back as ten
zero bytes. -/
theorem simplePermuter_round_trip_fails :
    (∀ (junkF junkB : Nat → Nat → Nat) (fA fB fC : Bool)
        (rA rB rC rE key1 key2 IV : Nat) (key : List Nat),
      ∃ x : List Nat, x.length = 10 ∧ IsBytes x ∧
        (CryptConcepts.Permutation.SimplePermuter.construct 10 fA rA fB rB fC rC rE
          key1 key2 IV).bind (fun P =>
            (P.operateForward junkF x key).bind fun y => P.operateBackward junkB y key) ≠
          some x) ∧
      (CryptConcepts.Permutation.SimplePermuter.construct 10 true 0 true 0 true 0 0
          0 0 0).bind (fun P =>
            P.operateForward (fun _ _ => 0) [1, 0, 0, 0, 0, 0, 0, 0, 0, 0] [0, 0, 0, 0, 0, 0]) =
        some [165, 165, 165, 165, 165, 165, 165, 165, 165, 165] ∧
      (CryptConcepts.Permutation.SimplePermuter.construct 10 true 0 true 0 true 0 0
          0 0 0).bind (fun P =>
            P.operateBackward (fun _ _ => 0) [165, 165, 165, 165, 165, 165, 165, 165, 165, 165]
              [0, 0, 0, 0, 0, 0]) =
        some [0, 0, 0, 0, 0, 0, 0, 0, 0, 0] := by
  refine ⟨?_, by decide, by decide⟩
  intro junkF junkB fA fB fC rA rB rC rE key1 key2 IV key
  cases hP : CryptConcepts.Permutation.SimplePermuter.construct 10 fA rA fB rB fC rC rE
      key1 key2 IV with
  | none =>
    exact ⟨[0, 0, 0, 0, 0, 0, 0, 0, 0, 0], rfl, by decide, by simp⟩
  | some P =>
    obtain ⟨_, hf, hA⟩ := construct_ten fA fB fC rA rB rC rE key1 key2 IV P hP
    simp only [Option.some_bind]
    cases fA with
    | true =>
      refine ⟨[1, 0, 0, 0, 0, 0, 0, 0, 0, 0], rfl, by decide, ?_⟩
      intro h
      obtain ⟨y, -, hy⟩ := Option.bind_eq_some.mp h
      exact backward_misses P junkB y key hA hf hy
    | false =>
      by_cases h0 : (P.operateForward junkF [0, 0, 0, 0, 0, 0, 0, 0, 0, 0] key).bind
          (fun y => P.operateBackward junkB y key) = some [0, 0, 0, 0, 0, 0, 0, 0, 0, 0]
      · refine ⟨[16, 0, 0, 0, 0, 0, 0, 0, 0, 0], rfl, by decide, ?_⟩
        rw [forward_collides P junkF key hA hf, h0]
        decide
      · exact ⟨[0, 0, 0, 0, 0, 0, 0, 0, 0, 0], rfl, by decide, h0⟩

end ERCLIB
